import Mathlib

/-!
locketdb: a verification development.

A shallow embedding of the key-value store contract of `meission/locketdb`:
the prefix namespacing layer (`prefixdb.go`) and the batch and iterator
adapters of the `boltdb`, `goleveldb`, `pebble` and `badgerdb` backends.

Conventions of the embedding
* a Go `byte` is a `Fin 256`;
* a Go `[]byte` is an `Option (List Byte)`: `none` is the `nil` slice and
  `some []` is an empty slice that is not `nil`;
* a Go `error` result is an `Option Error` (`none` is the `nil` error);
* a Go `panic` is the `error` branch of `Except Panic`.
-/

namespace locketdb

/-- A Go `byte`. -/
abbrev Byte := Fin 256

/-- A Go `[]byte`: `none` is `nil`, `some l` a slice that is not `nil`. -/
abbrev Bytes := Option (List Byte)

/-- The error values shared by all backends (`locketdb.ErrKeyEmpty`, ...);
`engine n` stands for an error of the wrapped storage engine, and
`batchAlreadyFlushed` for `fmt.Errorf("batch already flushed")` of the
`badgerdb` batch. -/
inductive Error
  | ErrKeyEmpty
  | ErrValueNil
  | ErrBatchClosed
  | engine (code : Nat)
  | batchAlreadyFlushed
  deriving DecidableEq, Repr

/-- The panics raised by the code: `cpIncrZeroLength` is
`panic("cpIncr expects non-zero bz length")` and `iteratorInvalid` is
`panic("iterator is invalid")`. `writeBatchFinished` is the panic of the
`badger` engine when a write batch is flushed after a flush or a cancel. -/
inductive Panic
  | cpIncrZeroLength
  | iteratorInvalid
  | writeBatchFinished
  deriving DecidableEq, Repr

/-- Equality of results that may be a panic is decidable. -/
instance instDecidableEqExcept {ε α : Type} [DecidableEq ε] [DecidableEq α] :
    DecidableEq (Except ε α)
  | .ok a, .ok b => if h : a = b then isTrue (by rw [h]) else isFalse (by intro e; cases e; exact h rfl)
  | .error a, .error b =>
    if h : a = b then isTrue (by rw [h]) else isFalse (by intro e; cases e; exact h rfl)
  | .ok _, .error _ => isFalse (by intro e; cases e)
  | .error _, .ok _ => isFalse (by intro e; cases e)

/-- Go `len` on a byte slice. -/
def len (bz : Bytes) : Nat := (bz.getD []).length

/-- Go `append(a, b...)` where `a` is not `nil` (as after `cp`): the result is
never `nil`. When `a` is `nil` the result is `nil` only if `b` is empty. -/
def append (a b : Bytes) : Bytes :=
  match a with
  | some l => some (l ++ b.getD [])
  | none => if (b.getD []).length = 0 then none else some (b.getD [])

namespace bytes

/-- Lexicographic three-way comparison of two byte lists. -/
def compareList : List Byte → List Byte → Int
  | [], [] => 0
  | [], _ :: _ => -1
  | _ :: _, [] => 1
  | a :: as, b :: bs =>
    if a < b then -1 else if b < a then 1 else compareList as bs

/-- Go `bytes.Compare`: -1, 0 or 1; a `nil` argument is equivalent to an empty
slice. -/
def Compare (a b : Bytes) : Int := compareList (a.getD []) (b.getD [])

end bytes

/-- `cp` of `prefixdb.go`: `make([]byte, len(bz))` followed by `copy`; the
result is never `nil`. -/
def cp (bz : Bytes) : Bytes := some (bz.getD [])

/-- The loop of `cpIncr`, entered at index `i` with the working copy `ret`:
`for i := len(bz) - 1; i >= 0; i--`. -/
def cpIncrLoop (ret : List Byte) : Nat → Bytes
  | 0 =>
    if ret.getD 0 0 < 0xFF then some (ret.set 0 (ret.getD 0 0 + 1))
    else none
  | i + 1 =>
    if ret.getD (i + 1) 0 < 0xFF then some (ret.set (i + 1) (ret.getD (i + 1) 0 + 1))
    else cpIncrLoop (ret.set (i + 1) 0) i

/-- `cpIncr` of `prefixdb.go`: a copy of `bz` incremented by one as a
big-endian number, `nil` on overflow, a panic on a zero-length argument. -/
def cpIncr (bz : Bytes) : Except Panic Bytes :=
  if len bz = 0 then .error Panic.cpIncrZeroLength
  else .ok (cpIncrLoop ((cp bz).getD []) (len bz - 1))

/-- `IsKeyInDomain` of `prefixdb.go`. -/
def IsKeyInDomain (key start end_ : Bytes) : Bool :=
  if bytes.Compare key start < 0 then false
  else if end_ ≠ none ∧ bytes.Compare end_ key ≤ 0 then false
  else true

/-- The big-endian successor computed from the front of the list: the
reference against which the loop of `cpIncr` is checked. -/
def incrSpec : List Byte → Option (List Byte)
  | [] => none
  | b :: rest =>
    match incrSpec rest with
    | some r => some (b :: r)
    | none => if b < 0xFF then some ((b + 1) :: List.replicate rest.length 0) else none

/-- The big-endian unsigned value of a byte sequence. -/
def beValue (bz : List Byte) : Nat := bz.foldl (fun acc b => acc * 256 + b.val) 0

/-- The `DB` interface, as far as `PrefixDB` uses a wrapped store: `σ` is the
state of the store and `ι` its iterators. An operation that writes returns the
new state next to its error. -/
structure DB (σ ι : Type) where
  Get : σ → Bytes → Bytes × Option Error
  Has : σ → Bytes → Bool × Option Error
  Set : σ → Bytes → Bytes → σ × Option Error
  SetSync : σ → Bytes → Bytes → σ × Option Error
  Delete : σ → Bytes → σ × Option Error
  DeleteSync : σ → Bytes → σ × Option Error
  Iterator : σ → Bytes → Bytes → ι × Option Error
  ReverseIterator : σ → Bytes → Bytes → ι × Option Error

/-- The `PrefixDB` struct: the byte prefix (field `prefix` of the source) and
the wrapped store. The mutex is not modelled: calls are sequential. -/
structure PrefixDB (σ : Type) where
  pfx : Bytes
  db : σ

namespace PrefixDB

variable {σ ι κ : Type}

/-- `(pdb *PrefixDB) prefixed`. -/
def prefixed (pdb : PrefixDB σ) (key : Bytes) : Bytes := append (cp pdb.pfx) key

/-- `(pdb *PrefixDB) Get`. -/
def Get (d : DB σ ι) (pdb : PrefixDB σ) (key : Bytes) : Bytes × Option Error :=
  if len key = 0 then (none, some Error.ErrKeyEmpty)
  else
    let pkey := pdb.prefixed key
    match d.Get pdb.db pkey with
    | (_, some err) => (none, some err)
    | (value, none) => (value, none)

/-- `(pdb *PrefixDB) Has`. -/
def Has (d : DB σ ι) (pdb : PrefixDB σ) (key : Bytes) : Bool × Option Error :=
  if len key = 0 then (false, some Error.ErrKeyEmpty)
  else
    match d.Has pdb.db (pdb.prefixed key) with
    | (ok, some err) => (ok, some err)
    | (ok, none) => (ok, none)

/-- `(pdb *PrefixDB) Set`. -/
def Set (d : DB σ ι) (pdb : PrefixDB σ) (key value : Bytes) : PrefixDB σ × Option Error :=
  if len key = 0 then (pdb, some Error.ErrKeyEmpty)
  else if value = none then (pdb, some Error.ErrValueNil)
  else
    let pkey := pdb.prefixed key
    match d.Set pdb.db pkey value with
    | (s, some err) => ({ pdb with db := s }, some err)
    | (s, none) => ({ pdb with db := s }, none)

/-- `(pdb *PrefixDB) SetSync`. -/
def SetSync (d : DB σ ι) (pdb : PrefixDB σ) (key value : Bytes) : PrefixDB σ × Option Error :=
  if len key = 0 then (pdb, some Error.ErrKeyEmpty)
  else if value = none then (pdb, some Error.ErrValueNil)
  else
    let r := d.SetSync pdb.db (pdb.prefixed key) value
    ({ pdb with db := r.1 }, r.2)

/-- `(pdb *PrefixDB) Delete`. -/
def Delete (d : DB σ ι) (pdb : PrefixDB σ) (key : Bytes) : PrefixDB σ × Option Error :=
  if len key = 0 then (pdb, some Error.ErrKeyEmpty)
  else
    let r := d.Delete pdb.db (pdb.prefixed key)
    ({ pdb with db := r.1 }, r.2)

/-- `(pdb *PrefixDB) DeleteSync`. -/
def DeleteSync (d : DB σ ι) (pdb : PrefixDB σ) (key : Bytes) : PrefixDB σ × Option Error :=
  if len key = 0 then (pdb, some Error.ErrKeyEmpty)
  else
    let r := d.DeleteSync pdb.db (pdb.prefixed key)
    ({ pdb with db := r.1 }, r.2)

/-- `(pdb *PrefixDB) Iterator`. The constructor `newPrefixIterator` of the
prefix iterator is a parameter. -/
def Iterator (d : DB σ ι)
    (newPrefixIterator : Bytes → Bytes → Bytes → ι → Option κ × Option Error)
    (pdb : PrefixDB σ) (start end_ : Bytes) : Except Panic (Option κ × Option Error) :=
  if (start ≠ none ∧ len start = 0) ∨ (end_ ≠ none ∧ len end_ = 0) then
    .ok (none, some Error.ErrKeyEmpty)
  else
    let pstart := append (cp pdb.pfx) start
    match (if end_ = none then cpIncr pdb.pfx else .ok (append (cp pdb.pfx) end_)) with
    | .error p => .error p
    | .ok pend =>
      match d.Iterator pdb.db pstart pend with
      | (_, some err) => .ok (none, some err)
      | (itr, none) => .ok (newPrefixIterator pdb.pfx start end_ itr)

/-- `(pdb *PrefixDB) ReverseIterator`. -/
def ReverseIterator (d : DB σ ι)
    (newPrefixIterator : Bytes → Bytes → Bytes → ι → Option κ × Option Error)
    (pdb : PrefixDB σ) (start end_ : Bytes) : Except Panic (Option κ × Option Error) :=
  if (start ≠ none ∧ len start = 0) ∨ (end_ ≠ none ∧ len end_ = 0) then
    .ok (none, some Error.ErrKeyEmpty)
  else
    let pstart := append (cp pdb.pfx) start
    match (if end_ = none then cpIncr pdb.pfx else .ok (append (cp pdb.pfx) end_)) with
    | .error p => .error p
    | .ok pend =>
      match d.ReverseIterator pdb.db pstart pend with
      | (_, some err) => .ok (none, some err)
      | (ritr, none) => .ok (newPrefixIterator pdb.pfx start end_ ritr)

end PrefixDB

/-- A store that behaves as a map: its state, from keys to stored values. -/
abbrev MapStore := List Byte → Option (List Byte)

/-- The operations of a store that behaves as a map, following the store
contract: empty keys and absent values are rejected, a read of an absent key
gives `nil`, and an iterator is represented by its domain. -/
def mapDB : DB MapStore (Bytes × Bytes) where
  Get s key :=
    if len key = 0 then (none, some Error.ErrKeyEmpty) else (s (key.getD []), none)
  Has s key :=
    if len key = 0 then (false, some Error.ErrKeyEmpty) else ((s (key.getD [])).isSome, none)
  Set s key value :=
    if len key = 0 then (s, some Error.ErrKeyEmpty)
    else if value = none then (s, some Error.ErrValueNil)
    else (Function.update s (key.getD []) value, none)
  SetSync s key value :=
    if len key = 0 then (s, some Error.ErrKeyEmpty)
    else if value = none then (s, some Error.ErrValueNil)
    else (Function.update s (key.getD []) value, none)
  Delete s key :=
    if len key = 0 then (s, some Error.ErrKeyEmpty)
    else (Function.update s (key.getD []) none, none)
  DeleteSync s key :=
    if len key = 0 then (s, some Error.ErrKeyEmpty)
    else (Function.update s (key.getD []) none, none)
  Iterator _ start end_ :=
    if (start ≠ none ∧ len start = 0) ∨ (end_ ≠ none ∧ len end_ = 0) then
      ((none, none), some Error.ErrKeyEmpty)
    else ((start, end_), none)
  ReverseIterator _ start end_ :=
    if (start ≠ none ∧ len start = 0) ∨ (end_ ≠ none ∧ len end_ = 0) then
      ((none, none), some Error.ErrKeyEmpty)
    else ((start, end_), none)

/-- A prefix iterator represented by the prefix, the logical domain and the
wrapped iterator it was built from. -/
def recordPrefixIterator (pfx start end_ : Bytes) (itr : Bytes × Bytes) :
    Option (Bytes × Bytes × Bytes × (Bytes × Bytes)) × Option Error :=
  (some (pfx, start, end_, itr), none)


/-- The laws of a wrapped store that behaves as a map: a read after a
successful write or delete of the same key sees it, and the other keys keep
their value. -/
structure MapLike {σ ι : Type} (d : DB σ ι) : Prop where
  get_set : ∀ (s s' : σ) (key value : Bytes), 0 < len key → value ≠ none →
    d.Set s key value = (s', none) → d.Get s' key = (value, none)
  get_set_other : ∀ (s s' : σ) (key value k' : Bytes), d.Set s key value = (s', none) →
    k'.getD [] ≠ key.getD [] → d.Get s' k' = d.Get s k'
  get_delete : ∀ (s s' : σ) (key : Bytes), 0 < len key →
    d.Delete s key = (s', none) → d.Get s' key = (none, none)
  has_delete : ∀ (s s' : σ) (key : Bytes), 0 < len key →
    d.Delete s key = (s', none) → d.Has s' key = (false, none)
  get_delete_other : ∀ (s s' : σ) (key k' : Bytes), d.Delete s key = (s', none) →
    k'.getD [] ≠ key.getD [] → d.Get s' k' = d.Get s k'
  get_deleteSync : ∀ (s s' : σ) (key : Bytes), 0 < len key →
    d.DeleteSync s key = (s', none) → d.Get s' key = (none, none)
  has_deleteSync : ∀ (s s' : σ) (key : Bytes), 0 < len key →
    d.DeleteSync s key = (s', none) → d.Has s' key = (false, none)
  get_deleteSync_other : ∀ (s s' : σ) (key k' : Bytes), d.DeleteSync s key = (s', none) →
    k'.getD [] ≠ key.getD [] → d.Get s' k' = d.Get s k'

/-! ### The storage engines

The engines (`bbolt`, `pebble`, ...) are outside the repository. Their contents
are modelled as a list of entries in ascending key order, and their failures
by a fault that makes every call return that error and change nothing. Size
limits of the engines are not modelled. -/

/-- The entries of an engine, in ascending key order. -/
abbrev Entries := List (List Byte × List Byte)

namespace Entries

/-- The value stored under `k`, if any. -/
def get : Entries → List Byte → Option (List Byte)
  | [], _ => none
  | (k', v') :: rest, k => if k = k' then some v' else get rest k

/-- Insert or replace the entry of `k`, keeping the order of the keys. -/
def put : Entries → List Byte → List Byte → Entries
  | [], k, v => [(k, v)]
  | (k', v') :: rest, k, v =>
    if k = k' then (k, v) :: rest
    else if bytes.compareList k k' < 0 then (k, v) :: (k', v') :: rest
    else (k', v') :: put rest k v

/-- Remove the entry of `k`. -/
def erase (es : Entries) (k : List Byte) : Entries := es.filter (fun e => e.1 ≠ k)

end Entries

/-- An open engine: its entries, and the error it answers every call with when
it is failing. -/
structure Engine where
  entries : Entries
  fault : Option Error

/-- The cursor of an engine over a snapshot of the entries. `pos` is the index
of the current entry; `-1` is before the first entry and `entries.length` after
the last one. -/
structure Cursor where
  entries : Entries
  pos : Int
  err : Option Error

namespace Cursor

/-- The cursor is on an entry. -/
def Valid (c : Cursor) : Bool := 0 ≤ c.pos ∧ c.pos < c.entries.length

/-- The key under the cursor, `nil` when the cursor is on no entry. -/
def Key (c : Cursor) : Bytes :=
  if c.Valid then (c.entries.get? c.pos.toNat).map (fun e => e.1) else none

/-- The value under the cursor, `nil` when the cursor is on no entry. -/
def Value (c : Cursor) : Bytes :=
  if c.Valid then (c.entries.get? c.pos.toNat).map (fun e => e.2) else none

/-- Move to the first entry. -/
def First (c : Cursor) : Cursor := { c with pos := 0 }

/-- Move to the last entry. -/
def Last (c : Cursor) : Cursor := { c with pos := (c.entries.length : Int) - 1 }

/-- Move to the first entry whose key is at or after `target`. -/
def SeekGE (c : Cursor) (target : Bytes) : Cursor :=
  { c with pos := (c.entries.findIdx
      (fun e => decide (0 ≤ bytes.compareList e.1 (target.getD []))) : Nat) }

/-- Move one entry forward. -/
def Next (c : Cursor) : Cursor :=
  if c.pos < c.entries.length then { c with pos := c.pos + 1 } else c

/-- Move one entry backward. -/
def Prev (c : Cursor) : Cursor :=
  if 0 ≤ c.pos then { c with pos := c.pos - 1 } else c

end Cursor

namespace Engine

/-- The engine's `Flush`: the entries are written out, not changed. -/
def Flush (e : Engine) : Engine × Option Error := (e, e.fault)

/-- The engine's `NewIter`: a cursor over the current entries. -/
def NewIter (e : Engine) : Cursor := { entries := e.entries, pos := -1, err := e.fault }

end Engine

/-! ### The `pebble` backend -/

namespace pebble

/-- The `pebbleDB` struct. -/
structure pebbleDB where
  db : Engine

/-- The `pebbleDBIterator` struct. -/
structure pebbleDBIterator where
  iter : Cursor
  start : Bytes
  end_ : Bytes
  isReverse : Bool
  isInvalid : Bool

/-- `newpebbleDBIterator`. -/
def newpebbleDBIterator (iter : Cursor) (start end_ : Bytes) (isReverse : Bool) :
    pebbleDBIterator :=
  let iter :=
    if isReverse then
      if end_ = none then iter.Last
      else
        let iter := iter.SeekGE end_
        let valid := iter.Valid
        if valid then
          let eoakey := iter.Key
          if bytes.Compare end_ eoakey ≤ 0 then iter.Prev else iter
        else iter.Last
    else
      if start = none then iter.First else iter.SeekGE start
  { iter := iter, start := start, end_ := end_, isReverse := isReverse, isInvalid := false }

namespace pebbleDBIterator

/-- `(iter *pebbleDBIterator) Domain`. -/
def Domain (iter : pebbleDBIterator) : Bytes × Bytes := (iter.start, iter.end_)

/-- `(iter *pebbleDBIterator) Error`. -/
def Error (iter : pebbleDBIterator) : Option Error := iter.iter.err

/-- `(iter *pebbleDBIterator) Valid`: the answer and the iterator after the
call (`isInvalid` may have been set). -/
def Valid (iter : pebbleDBIterator) : Bool × pebbleDBIterator :=
  if iter.isInvalid then (false, iter)
  else if iter.Error ≠ none then (false, { iter with isInvalid := true })
  else if !iter.iter.Valid then (false, { iter with isInvalid := true })
  else
    let key := iter.iter.Key
    if iter.isReverse then
      let start := iter.start
      if start ≠ none ∧ bytes.Compare key start < 0 then
        (false, { iter with isInvalid := true })
      else (true, iter)
    else
      let end_ := iter.end_
      if end_ ≠ none ∧ bytes.Compare end_ key < 0 then
        (false, { iter with isInvalid := true })
      else (true, iter)

/-- `(iter pebbleDBIterator) assertIsValid`: the receiver is a copy, so the
iterator of the caller keeps its `isInvalid`. -/
def assertIsValid (iter : pebbleDBIterator) : Except Panic Unit :=
  if !(iter.Valid).1 then .error Panic.iteratorInvalid else .ok ()

/-- `(iter *pebbleDBIterator) Key`. -/
def Key (iter : pebbleDBIterator) : Except Panic Bytes :=
  match iter.assertIsValid with
  | .error p => .error p
  | .ok _ => .ok (cp iter.iter.Key)

/-- `(iter *pebbleDBIterator) Value`. -/
def Value (iter : pebbleDBIterator) : Except Panic Bytes :=
  match iter.assertIsValid with
  | .error p => .error p
  | .ok _ => .ok (cp iter.iter.Value)

/-- `(iter *pebbleDBIterator) Next`. -/
def Next (iter : pebbleDBIterator) : Except Panic pebbleDBIterator :=
  match iter.assertIsValid with
  | .error p => .error p
  | .ok _ =>
    if iter.isReverse then .ok { iter with iter := iter.iter.Prev }
    else .ok { iter with iter := iter.iter.Next }

/-- The loop `for ; itr.Valid(); itr.Next() { key := itr.Key() }` run for at
most `fuel` rounds: the keys it visits, `none` when the fuel runs out. -/
def drain : Nat → pebbleDBIterator → Option (Except Panic (List Bytes))
  | 0, _ => none
  | fuel + 1, iter =>
    match iter.Valid with
    | (false, _) => some (.ok [])
    | (true, iter) =>
      match iter.Key with
      | .error p => some (.error p)
      | .ok key =>
        match iter.Next with
        | .error p => some (.error p)
        | .ok iter =>
          match drain fuel iter with
          | some (.ok keys) => some (.ok (key :: keys))
          | r => r

end pebbleDBIterator

namespace pebbleDB

/-- `(db *pebbleDB) Get`. -/
def Get (db : pebbleDB) (key : Bytes) : Bytes × Option Error :=
  if len key = 0 then (none, some Error.ErrKeyEmpty)
  else
    match db.db.fault with
    | some err => (none, some err)
    | none => (db.db.entries.get (key.getD []), none)

/-- `(db *pebbleDB) Set`. -/
def Set (db : pebbleDB) (key value : Bytes) : pebbleDB × Option Error :=
  if len key = 0 then (db, some Error.ErrKeyEmpty)
  else if value = none then (db, some Error.ErrValueNil)
  else
    match db.db.fault with
    | some err => (db, some err)
    | none => ({ db := { db.db with entries := db.db.entries.put (key.getD []) (value.getD []) } },
        none)

/-- `(db *pebbleDB) Iterator`. -/
def Iterator (db : pebbleDB) (start end_ : Bytes) : Option pebbleDBIterator × Option Error :=
  if (start ≠ none ∧ len start = 0) ∨ (end_ ≠ none ∧ len end_ = 0) then
    (none, some Error.ErrKeyEmpty)
  else
    let itr := db.db.NewIter
    (some (newpebbleDBIterator itr start end_ false), none)

/-- `(db *pebbleDB) ReverseIterator`. -/
def ReverseIterator (db : pebbleDB) (start end_ : Bytes) :
    Option pebbleDBIterator × Option Error :=
  if (start ≠ none ∧ len start = 0) ∨ (end_ ≠ none ∧ len end_ = 0) then
    (none, some Error.ErrKeyEmpty)
  else
    let itr := db.db.NewIter
    (some (newpebbleDBIterator itr start end_ true), none)

end pebbleDB

end pebble

/-! ### The batch of the `pebble` backend -/

/-- A record of an engine batch (`pebble.Batch`, `leveldb.Batch`). -/
inductive BatchOp
  | set (key value : Bytes)
  | delete (key : Bytes)
  deriving DecidableEq, Repr

namespace pebble

/-- The `pebbleDBBatch` struct: `batch` is `nil` once the batch is closed. The
store `db` it points to is passed to the operations that use it. -/
structure pebbleDBBatch where
  batch : Option (List BatchOp)
  deriving DecidableEq, Repr

/-- `newPebbleDBBatch`. -/
def newPebbleDBBatch : pebbleDBBatch := { batch := some [] }

namespace pebbleDBBatch

/-- `(b *pebbleDBBatch) Set`. -/
def Set (b : pebbleDBBatch) (key value : Bytes) : pebbleDBBatch × Option Error :=
  if len key = 0 then (b, some Error.ErrKeyEmpty)
  else if value = none then (b, some Error.ErrValueNil)
  else
    match b.batch with
    | none => (b, some Error.ErrBatchClosed)
    | some ops => ({ batch := some (ops ++ [BatchOp.set key value]) }, none)

/-- `(b *pebbleDBBatch) Delete`. -/
def Delete (b : pebbleDBBatch) (key : Bytes) : pebbleDBBatch × Option Error :=
  if len key = 0 then (b, some Error.ErrKeyEmpty)
  else
    match b.batch with
    | none => (b, some Error.ErrBatchClosed)
    | some ops => ({ batch := some (ops ++ [BatchOp.delete key]) }, none)

/-- `(b *pebbleDBBatch) Close`. -/
def Close (b : pebbleDBBatch) : pebbleDBBatch × Option Error :=
  match b.batch with
  | some _ => ({ batch := none }, none)
  | none => (b, none)

/-- `(b *pebbleDBBatch) write`: the batch and the store after the call, and the
error returned. -/
def write (b : pebbleDBBatch) (db : pebbleDB) (_sync : Bool) :
    pebbleDBBatch × pebbleDB × Option Error :=
  match b.batch with
  | none => (b, db, some Error.ErrBatchClosed)
  | some _ =>
    match db.db.Flush with
    | (e, some err) => (b, { db := e }, some err)
    | (e, none) =>
      let r := b.Close
      (r.1, { db := e }, r.2)

/-- `(b *pebbleDBBatch) Write`. -/
def Write (b : pebbleDBBatch) (db : pebbleDB) : pebbleDBBatch × pebbleDB × Option Error :=
  b.write db false

/-- `(b *pebbleDBBatch) WriteSync`. -/
def WriteSync (b : pebbleDBBatch) (db : pebbleDB) : pebbleDBBatch × pebbleDB × Option Error :=
  b.write db true

end pebbleDBBatch

end pebble

/-! ### The batch of the `boltdb` backend -/

namespace Engine

/-- The bucket's `Put` inside a transaction: `bbolt` rejects an empty key. -/
def bucketPut (es : Entries) (key value : Bytes) : Except Error Entries :=
  if len key = 0 then .error (Error.engine 1)
  else .ok (es.put (key.getD []) (value.getD []))

/-- The bucket's `Delete` inside a transaction. -/
def bucketDelete (es : Entries) (key : Bytes) : Except Error Entries :=
  .ok (es.erase (key.getD []))

/-- The engine's `Batch(fn)` (and `Update(fn)`): `fn` runs in a write
transaction that is committed when `fn` returns `nil` and rolled back when it
returns an error. -/
def Batch (e : Engine) (fn : Entries → Except Error Entries) : Engine × Option Error :=
  match e.fault with
  | some err => (e, some err)
  | none =>
    match fn e.entries with
    | .ok es => ({ e with entries := es }, none)
    | .error err => (e, some err)

end Engine

namespace boltdb

/-- The `boltDB` struct. -/
structure boltDB where
  db : Engine

/-- The `opType` constants. -/
inductive opType
  | opTypeSet
  | opTypeDelete
  deriving DecidableEq, Repr

/-- The `operation` struct. -/
structure operation where
  opType : opType
  key : Bytes
  value : Bytes
  deriving DecidableEq, Repr

/-- The `boltDBBatch` struct: `ops` is `nil` once the batch is closed. The
store `db` it points to is passed to the operations that use it. -/
structure boltDBBatch where
  ops : Option (List operation)
  deriving DecidableEq, Repr

/-- `newBoltDBBatch`. -/
def newBoltDBBatch : boltDBBatch := { ops := some [] }

/-- The function handed to the engine by `Write`: the loop over `b.ops`. -/
def applyOps : List operation → Entries → Except Error Entries
  | [], es => .ok es
  | op :: ops, es =>
    match op.opType with
    | opType.opTypeSet =>
      match Engine.bucketPut es op.key op.value with
      | .error err => .error err
      | .ok es => applyOps ops es
    | opType.opTypeDelete =>
      match Engine.bucketDelete es op.key with
      | .error err => .error err
      | .ok es => applyOps ops es

namespace boltDBBatch

/-- `(b *boltDBBatch) Set`. -/
def Set (b : boltDBBatch) (key value : Bytes) : boltDBBatch × Option Error :=
  if len key = 0 then (b, some Error.ErrKeyEmpty)
  else if value = none then (b, some Error.ErrValueNil)
  else
    match b.ops with
    | none => (b, some Error.ErrBatchClosed)
    | some ops => ({ ops := some (ops ++ [⟨opType.opTypeSet, key, value⟩]) }, none)

/-- `(b *boltDBBatch) Delete`. -/
def Delete (b : boltDBBatch) (key : Bytes) : boltDBBatch × Option Error :=
  if len key = 0 then (b, some Error.ErrKeyEmpty)
  else
    match b.ops with
    | none => (b, some Error.ErrBatchClosed)
    | some ops => ({ ops := some (ops ++ [⟨opType.opTypeDelete, key, none⟩]) }, none)

/-- `(b *boltDBBatch) Close`. -/
def Close (_b : boltDBBatch) : boltDBBatch × Option Error := ({ ops := none }, none)

/-- `(b *boltDBBatch) Write`: the batch and the store after the call, and the
error returned. -/
def Write (b : boltDBBatch) (db : boltDB) : boltDBBatch × boltDB × Option Error :=
  match b.ops with
  | none => (b, db, some Error.ErrBatchClosed)
  | some ops =>
    match db.db.Batch (applyOps ops) with
    | (e, some err) => (b, { db := e }, some err)
    | (e, none) =>
      let r := b.Close
      (r.1, { db := e }, r.2)

/-- `(b *boltDBBatch) WriteSync`. -/
def WriteSync (b : boltDBBatch) (db : boltDB) : boltDBBatch × boltDB × Option Error :=
  b.Write db

end boltDBBatch

namespace boltDB

/-- `(bdb *boltDB) Get`: a read transaction, then a copy of the stored value. -/
def Get (bdb : boltDB) (key : Bytes) : Bytes × Option Error :=
  if len key = 0 then (none, some Error.ErrKeyEmpty)
  else
    match bdb.db.fault with
    | some err => (none, some err)
    | none => (bdb.db.entries.get (key.getD []), none)

end boltDB

/-- What the specification asks of a commit: the operations replayed from left
to right on the previous contents, a `Set` storing the value and a `Delete`
removing the key. -/
def replay (ops : List operation) (es : Entries) : Entries :=
  ops.foldl (fun acc op =>
    match op.opType with
    | opType.opTypeSet => acc.put (op.key.getD []) (op.value.getD [])
    | opType.opTypeDelete => acc.erase (op.key.getD [])) es

/-- The last operation of `ops` on the key `k`, if any. -/
def lastOp (ops : List operation) (k : List Byte) : Option operation :=
  ops.reverse.find? (fun op => decide (op.key.getD [] = k))

/-- What the specification asks of a read after a commit: the last operation on
the key wins, and a key without operation keeps its value. -/
def lastWins (ops : List operation) (es : Entries) (k : List Byte) : Option (List Byte) :=
  match lastOp ops k with
  | none => es.get k
  | some op =>
    match op.opType with
    | opType.opTypeSet => some (op.value.getD [])
    | opType.opTypeDelete => none

end boltdb

/-! ### Point operations of the engines and of the backends -/

namespace Engine

/-- The engine's point read: the stored value, `nil` with no error when the
key is absent (the adapters turn the engine's not-found error into that). -/
def Read (e : Engine) (key : Bytes) : Bytes × Option Error :=
  match e.fault with
  | some err => (none, some err)
  | none => (e.entries.get (key.getD []), none)

/-- The engine's point write. -/
def Put (e : Engine) (key value : Bytes) : Engine × Option Error :=
  match e.fault with
  | some err => (e, some err)
  | none => ({ e with entries := e.entries.put (key.getD []) (value.getD []) }, none)

/-- The engine's point delete. -/
def Del (e : Engine) (key : Bytes) : Engine × Option Error :=
  match e.fault with
  | some err => (e, some err)
  | none => ({ e with entries := e.entries.erase (key.getD []) }, none)

/-- The engine's `Sync`. -/
def Sync (e : Engine) : Option Error := e.fault

/-- One record of an engine batch applied to the entries. -/
def applyBatchOp (es : Entries) : BatchOp → Entries
  | BatchOp.set key value => es.put (key.getD []) (value.getD [])
  | BatchOp.delete key => es.erase (key.getD [])

/-- The engine's `Write(batch)`: the records of the batch applied in order, in
one step. -/
def Write (e : Engine) (ops : List BatchOp) : Engine × Option Error :=
  match e.fault with
  | some err => (e, some err)
  | none => ({ e with entries := ops.foldl applyBatchOp e.entries }, none)

/-- The engine's `NewIterator(&util.Range{Start, Limit})`: a cursor over the
entries of the range. -/
def NewIterator (e : Engine) (start limit : Bytes) : Cursor :=
  { entries := e.entries.filter (fun kv => IsKeyInDomain (some kv.1) start limit),
    pos := -1, err := e.fault }

end Engine

namespace pebble

namespace pebbleDB

/-- `(db *pebbleDB) Has`. -/
def Has (db : pebbleDB) (key : Bytes) : Bool × Option Error :=
  match db.Get key with
  | (_, some err) => (false, some err)
  | (bytes, none) => (decide (bytes ≠ none), none)

/-- `(db *pebbleDB) SetSync`. -/
def SetSync (db : pebbleDB) (key value : Bytes) : pebbleDB × Option Error :=
  if len key = 0 then (db, some Error.ErrKeyEmpty)
  else if value = none then (db, some Error.ErrValueNil)
  else
    let r := db.db.Put key value
    ({ db := r.1 }, r.2)

/-- `(db *pebbleDB) Delete`. -/
def Delete (db : pebbleDB) (key : Bytes) : pebbleDB × Option Error :=
  if len key = 0 then (db, some Error.ErrKeyEmpty)
  else
    let r := db.db.Del key
    ({ db := r.1 }, r.2)

/-- `(db *pebbleDB) DeleteSync`. -/
def DeleteSync (db : pebbleDB) (key : Bytes) : pebbleDB × Option Error :=
  if len key = 0 then (db, some Error.ErrKeyEmpty)
  else
    let r := db.db.Del key
    ({ db := r.1 }, r.2)

end pebbleDB

end pebble

/-! ### The `goleveldb` backend -/

namespace goleveldb

/-- The `goLevelDB` struct. -/
structure goLevelDB where
  db : Engine

namespace goLevelDB

/-- `(db *goLevelDB) Get`. -/
def Get (db : goLevelDB) (key : Bytes) : Bytes × Option Error :=
  if len key = 0 then (none, some Error.ErrKeyEmpty)
  else db.db.Read key

/-- `(db *goLevelDB) Has`. -/
def Has (db : goLevelDB) (key : Bytes) : Bool × Option Error :=
  match db.Get key with
  | (_, some err) => (false, some err)
  | (bytes, none) => (decide (bytes ≠ none), none)

/-- `(db *goLevelDB) Set`. -/
def Set (db : goLevelDB) (key value : Bytes) : goLevelDB × Option Error :=
  if len key = 0 then (db, some Error.ErrKeyEmpty)
  else if value = none then (db, some Error.ErrValueNil)
  else
    let r := db.db.Put key value
    ({ db := r.1 }, r.2)

/-- `(db *goLevelDB) SetSync`. -/
def SetSync (db : goLevelDB) (key value : Bytes) : goLevelDB × Option Error :=
  if len key = 0 then (db, some Error.ErrKeyEmpty)
  else if value = none then (db, some Error.ErrValueNil)
  else
    let r := db.db.Put key value
    ({ db := r.1 }, r.2)

/-- `(db *goLevelDB) Delete`. -/
def Delete (db : goLevelDB) (key : Bytes) : goLevelDB × Option Error :=
  if len key = 0 then (db, some Error.ErrKeyEmpty)
  else
    let r := db.db.Del key
    ({ db := r.1 }, r.2)

/-- `(db *goLevelDB) DeleteSync`. -/
def DeleteSync (db : goLevelDB) (key : Bytes) : goLevelDB × Option Error :=
  if len key = 0 then (db, some Error.ErrKeyEmpty)
  else
    let r := db.db.Del key
    ({ db := r.1 }, r.2)

end goLevelDB

/-- The `goLevelDBBatch` struct: `batch` is `nil` once the batch is closed. The
store `db` it points to is passed to the operations that use it. -/
structure goLevelDBBatch where
  batch : Option (List BatchOp)
  deriving DecidableEq, Repr

/-- `newGoLevelDBBatch`. -/
def newGoLevelDBBatch : goLevelDBBatch := { batch := some [] }

namespace goLevelDBBatch

/-- `(b *goLevelDBBatch) Set`. -/
def Set (b : goLevelDBBatch) (key value : Bytes) : goLevelDBBatch × Option Error :=
  if len key = 0 then (b, some Error.ErrKeyEmpty)
  else if value = none then (b, some Error.ErrValueNil)
  else
    match b.batch with
    | none => (b, some Error.ErrBatchClosed)
    | some ops => ({ batch := some (ops ++ [BatchOp.set key value]) }, none)

/-- `(b *goLevelDBBatch) Delete`. -/
def Delete (b : goLevelDBBatch) (key : Bytes) : goLevelDBBatch × Option Error :=
  if len key = 0 then (b, some Error.ErrKeyEmpty)
  else
    match b.batch with
    | none => (b, some Error.ErrBatchClosed)
    | some ops => ({ batch := some (ops ++ [BatchOp.delete key]) }, none)

/-- `(b *goLevelDBBatch) Close`. -/
def Close (b : goLevelDBBatch) : goLevelDBBatch × Option Error :=
  match b.batch with
  | some _ => ({ batch := none }, none)
  | none => (b, none)

/-- `(b *goLevelDBBatch) write`: the batch and the store after the call, and
the error returned. -/
def write (b : goLevelDBBatch) (db : goLevelDB) (_sync : Bool) :
    goLevelDBBatch × goLevelDB × Option Error :=
  match b.batch with
  | none => (b, db, some Error.ErrBatchClosed)
  | some ops =>
    match db.db.Write ops with
    | (e, some err) => (b, { db := e }, some err)
    | (e, none) =>
      let r := b.Close
      (r.1, { db := e }, r.2)

/-- `(b *goLevelDBBatch) Write`. -/
def Write (b : goLevelDBBatch) (db : goLevelDB) : goLevelDBBatch × goLevelDB × Option Error :=
  b.write db false

/-- `(b *goLevelDBBatch) WriteSync`. -/
def WriteSync (b : goLevelDBBatch) (db : goLevelDB) :
    goLevelDBBatch × goLevelDB × Option Error :=
  b.write db true

end goLevelDBBatch

end goleveldb

namespace goleveldb

/-- The `goLevelDBIterator` struct. -/
structure goLevelDBIterator where
  iter : Cursor
  start : Bytes
  end_ : Bytes
  isReverse : Bool
  isInvalid : Bool

/-- `newGoLevelDBIterator`. -/
def newGoLevelDBIterator (iter : Cursor) (start end_ : Bytes) (isReverse : Bool) :
    goLevelDBIterator :=
  let iter :=
    if isReverse then
      if end_ = none then iter.Last
      else
        let iter := iter.SeekGE end_
        let valid := iter.Valid
        if valid then
          let eoakey := iter.Key
          if bytes.Compare end_ eoakey ≤ 0 then iter.Prev else iter
        else iter.Last
    else
      if start = none then iter.First else iter.SeekGE start
  { iter := iter, start := start, end_ := end_, isReverse := isReverse, isInvalid := false }

namespace goLevelDBIterator

/-- `(iter *goLevelDBIterator) Domain`. -/
def Domain (iter : goLevelDBIterator) : Bytes × Bytes := (iter.start, iter.end_)

/-- `(iter *goLevelDBIterator) Error`. -/
def Error (iter : goLevelDBIterator) : Option Error := iter.iter.err

/-- `(iter *goLevelDBIterator) Valid`: the answer and the iterator after the
call (`isInvalid` may have been set). -/
def Valid (iter : goLevelDBIterator) : Bool × goLevelDBIterator :=
  if iter.isInvalid then (false, iter)
  else if iter.Error ≠ none then (false, { iter with isInvalid := true })
  else if !iter.iter.Valid then (false, { iter with isInvalid := true })
  else
    let key := iter.iter.Key
    if iter.isReverse then
      let start := iter.start
      if start ≠ none ∧ bytes.Compare key start < 0 then
        (false, { iter with isInvalid := true })
      else (true, iter)
    else
      let end_ := iter.end_
      if end_ ≠ none ∧ bytes.Compare end_ key ≤ 0 then
        (false, { iter with isInvalid := true })
      else (true, iter)

/-- `(iter goLevelDBIterator) assertIsValid`: the receiver is a copy, so the
iterator of the caller keeps its `isInvalid`. -/
def assertIsValid (iter : goLevelDBIterator) : Except Panic Unit :=
  if !(iter.Valid).1 then .error Panic.iteratorInvalid else .ok ()

/-- `(iter *goLevelDBIterator) Key`. -/
def Key (iter : goLevelDBIterator) : Except Panic Bytes :=
  match iter.assertIsValid with
  | .error p => .error p
  | .ok _ => .ok (cp iter.iter.Key)

/-- `(iter *goLevelDBIterator) Value`. -/
def Value (iter : goLevelDBIterator) : Except Panic Bytes :=
  match iter.assertIsValid with
  | .error p => .error p
  | .ok _ => .ok (cp iter.iter.Value)

/-- `(iter *goLevelDBIterator) Next`. -/
def Next (iter : goLevelDBIterator) : Except Panic goLevelDBIterator :=
  match iter.assertIsValid with
  | .error p => .error p
  | .ok _ =>
    if iter.isReverse then .ok { iter with iter := iter.iter.Prev }
    else .ok { iter with iter := iter.iter.Next }

end goLevelDBIterator

namespace goLevelDB

/-- `(db *goLevelDB) Iterator`. -/
def Iterator (db : goLevelDB) (start end_ : Bytes) :
    Option goLevelDBIterator × Option Error :=
  if (start ≠ none ∧ len start = 0) ∨ (end_ ≠ none ∧ len end_ = 0) then
    (none, some Error.ErrKeyEmpty)
  else
    let itr := db.db.NewIterator start end_
    (some (newGoLevelDBIterator itr start end_ false), none)

/-- `(db *goLevelDB) ReverseIterator`. -/
def ReverseIterator (db : goLevelDB) (start end_ : Bytes) :
    Option goLevelDBIterator × Option Error :=
  if (start ≠ none ∧ len start = 0) ∨ (end_ ≠ none ∧ len end_ = 0) then
    (none, some Error.ErrKeyEmpty)
  else
    let itr := db.db.NewIterator start end_
    (some (newGoLevelDBIterator itr start end_ true), none)

end goLevelDB

end goleveldb

/-! ### The store and the iterator of the `boltdb` backend -/

namespace Engine

/-- The engine's `Begin(false)`: a read transaction over the current entries. -/
def Begin (e : Engine) : Option Entries × Option Error :=
  match e.fault with
  | some err => (none, some err)
  | none => (some e.entries, none)

end Engine

namespace boltdb

namespace boltDB

/-- `(bdb *boltDB) Has`. -/
def Has (bdb : boltDB) (key : Bytes) : Bool × Option Error :=
  match bdb.Get key with
  | (_, some err) => (false, some err)
  | (bytes, none) => (decide (bytes ≠ none), none)

/-- `(bdb *boltDB) Set`. -/
def Set (bdb : boltDB) (key value : Bytes) : boltDB × Option Error :=
  if len key = 0 then (bdb, some Error.ErrKeyEmpty)
  else if value = none then (bdb, some Error.ErrValueNil)
  else
    let r := bdb.db.Batch (fun es => Engine.bucketPut es key value)
    ({ db := r.1 }, r.2)

/-- `(bdb *boltDB) SetSync`. -/
def SetSync (bdb : boltDB) (key value : Bytes) : boltDB × Option Error :=
  bdb.Set key value

/-- `(bdb *boltDB) Delete`. -/
def Delete (bdb : boltDB) (key : Bytes) : boltDB × Option Error :=
  if len key = 0 then (bdb, some Error.ErrKeyEmpty)
  else
    let r := bdb.db.Batch (fun es => Engine.bucketDelete es key)
    ({ db := r.1 }, r.2)

/-- `(bdb *boltDB) DeleteSync`. -/
def DeleteSync (bdb : boltDB) (key : Bytes) : boltDB × Option Error :=
  bdb.Delete key

end boltDB

/-- The `boltDBIterator` struct; the read transaction `tx` is the snapshot the
cursor `iter` walks. -/
structure boltDBIterator where
  iter : Cursor
  start : Bytes
  end_ : Bytes
  currentKey : Bytes
  currentValue : Bytes
  isInvalid : Bool
  isReverse : Bool

/-- `newBoltDBIterator`: the bucket cursor of the transaction `tx` is placed,
and the key and value it returns are kept. -/
def newBoltDBIterator (tx : Entries) (start end_ : Bytes) (isReverse : Bool) :
    boltDBIterator :=
  let iter : Cursor := { entries := tx, pos := -1, err := none }
  let iter :=
    if isReverse then
      if end_ = none then iter.Last
      else (iter.SeekGE end_).Prev
    else
      if start = none then iter.First
      else iter.SeekGE start
  { iter := iter, start := start, end_ := end_, currentKey := iter.Key,
    currentValue := iter.Value, isReverse := isReverse, isInvalid := false }

namespace boltDBIterator

/-- `(iter *boltDBIterator) Domain`. -/
def Domain (iter : boltDBIterator) : Bytes × Bytes := (iter.start, iter.end_)

/-- `(iter *boltDBIterator) Error`. -/
def Error (_iter : boltDBIterator) : Option Error := none

/-- `(iter *boltDBIterator) Valid`: the answer and the iterator after the call
(`isInvalid` may have been set). -/
def Valid (iter : boltDBIterator) : Bool × boltDBIterator :=
  if iter.isInvalid then (false, iter)
  else if iter.Error ≠ none then (false, { iter with isInvalid := true })
  else if iter.currentKey = none then (false, { iter with isInvalid := true })
  else
    if iter.isReverse then
      if iter.start ≠ none ∧ bytes.Compare iter.currentKey iter.start < 0 then
        (false, { iter with isInvalid := true })
      else (true, iter)
    else
      if iter.end_ ≠ none ∧ bytes.Compare iter.end_ iter.currentKey ≤ 0 then
        (false, { iter with isInvalid := true })
      else (true, iter)

/-- `(iter *boltDBIterator) assertIsValid`: the receiver is a pointer, so the
iterator keeps what `Valid` did to it, also when the call panics. -/
def assertIsValid (iter : boltDBIterator) : Except Panic Unit × boltDBIterator :=
  let r := iter.Valid
  if !r.1 then (.error Panic.iteratorInvalid, r.2) else (.ok (), r.2)

/-- `(iter *boltDBIterator) Next`. -/
def Next (iter : boltDBIterator) : Except Panic Unit × boltDBIterator :=
  match iter.assertIsValid with
  | (.error p, iter) => (.error p, iter)
  | (.ok _, iter) =>
    if iter.isReverse then
      let c := iter.iter.Prev
      (.ok (), { iter with iter := c, currentKey := c.Key, currentValue := c.Value })
    else
      let c := iter.iter.Next
      (.ok (), { iter with iter := c, currentKey := c.Key, currentValue := c.Value })

/-- `(iter *boltDBIterator) Key`. -/
def Key (iter : boltDBIterator) : Except Panic Bytes × boltDBIterator :=
  match iter.assertIsValid with
  | (.error p, iter) => (.error p, iter)
  | (.ok _, iter) => (.ok (append (some []) iter.currentKey), iter)

/-- `(iter *boltDBIterator) Value`. -/
def Value (iter : boltDBIterator) : Except Panic Bytes × boltDBIterator :=
  match iter.assertIsValid with
  | (.error p, iter) => (.error p, iter)
  | (.ok _, iter) =>
    if iter.currentValue ≠ none then (.ok (append (some []) iter.currentValue), iter)
    else (.ok none, iter)

/-- The loop `for ; itr.Valid(); itr.Next() { key := itr.Key() }` run for at
most `fuel` rounds: the keys it visits, `none` when the fuel runs out. -/
def drain : Nat → boltDBIterator → Option (Except Panic (List Bytes))
  | 0, _ => none
  | fuel + 1, iter =>
    match iter.Valid with
    | (false, _) => some (.ok [])
    | (true, iter) =>
      match iter.Key with
      | (.error p, _) => some (.error p)
      | (.ok key, iter) =>
        match iter.Next with
        | (.error p, _) => some (.error p)
        | (.ok _, iter) =>
          match drain fuel iter with
          | some (.ok keys) => some (.ok (key :: keys))
          | r => r

end boltDBIterator

namespace boltDB

/-- `(bdb *boltDB) Iterator`. -/
def Iterator (bdb : boltDB) (start end_ : Bytes) : Option boltDBIterator × Option Error :=
  if (start ≠ none ∧ len start = 0) ∨ (end_ ≠ none ∧ len end_ = 0) then
    (none, some Error.ErrKeyEmpty)
  else
    match bdb.db.Begin with
    | (_, some err) => (none, some err)
    | (none, none) => (none, none)
    | (some tx, none) => (some (newBoltDBIterator tx start end_ false), none)

/-- `(bdb *boltDB) ReverseIterator`. -/
def ReverseIterator (bdb : boltDB) (start end_ : Bytes) :
    Option boltDBIterator × Option Error :=
  if (start ≠ none ∧ len start = 0) ∨ (end_ ≠ none ∧ len end_ = 0) then
    (none, some Error.ErrKeyEmpty)
  else
    match bdb.db.Begin with
    | (_, some err) => (none, some err)
    | (none, none) => (none, none)
    | (some tx, none) => (some (newBoltDBIterator tx start end_ true), none)

end boltDB

end boltdb

/-! ### The `badgerdb` backend -/

/-- A call received by the write batch of the `badger` engine. -/
inductive WbCall
  | set (key value : Bytes)
  | delete (key : Bytes)
  | flush
  | cancel
  deriving DecidableEq, Repr

/-- The write batch of the `badger` engine (`badger.WriteBatch`): the calls it
has received, oldest first. -/
structure WriteBatch where
  calls : List WbCall
  deriving DecidableEq, Repr

namespace WriteBatch

/-- The write batch has been flushed or cancelled. -/
def finished (wb : WriteBatch) : Bool :=
  wb.calls.any (fun c => decide (c = WbCall.flush ∨ c = WbCall.cancel))

/-- The records buffered by the calls. -/
def buffered : List WbCall → List BatchOp
  | [] => []
  | WbCall.set key value :: cs => BatchOp.set key value :: buffered cs
  | WbCall.delete key :: cs => BatchOp.delete key :: buffered cs
  | _ :: cs => buffered cs

/-- The engine's `wb.Set`: the entry is buffered; on a finished write batch the
engine answers with its discarded-transaction error. -/
def Set (wb : WriteBatch) (key value : Bytes) : WriteBatch × Option Error :=
  ({ calls := wb.calls ++ [WbCall.set key value] },
    if wb.finished then some (Error.engine 2) else none)

/-- The engine's `wb.Delete`. -/
def Delete (wb : WriteBatch) (key : Bytes) : WriteBatch × Option Error :=
  ({ calls := wb.calls ++ [WbCall.delete key] },
    if wb.finished then some (Error.engine 2) else none)

/-- The engine's `wb.Flush`: the buffered records are committed to the store;
the engine panics when the write batch is already finished. -/
def Flush (wb : WriteBatch) (e : Engine) : Except Panic (WriteBatch × Engine × Option Error) :=
  if wb.finished then .error Panic.writeBatchFinished
  else
    let r := e.Write (buffered wb.calls)
    .ok ({ calls := wb.calls ++ [WbCall.flush] }, r.1, r.2)

/-- The engine's `wb.Cancel`. -/
def Cancel (wb : WriteBatch) : WriteBatch := { calls := wb.calls ++ [WbCall.cancel] }

end WriteBatch

/-- The iterator of the `badger` engine (`badger.Iterator`): a cursor, its
direction, and `valueErr`, the error that the engine's `ValueCopy` returns when
it returns one. The engine is outside the repository: when it returns an error
is not determined here, `valueErr` stands for its answer. -/
structure ItemIterator where
  cur : Cursor
  reverse : Bool
  valueErr : Option Error

namespace ItemIterator

/-- The engine's `Valid`. -/
def Valid (it : ItemIterator) : Bool := it.cur.Valid

/-- The engine's `Rewind`: the first entry in the direction of the iterator. -/
def Rewind (it : ItemIterator) : ItemIterator :=
  if it.reverse then { it with cur := it.cur.Last } else { it with cur := it.cur.First }

/-- The engine's `Seek`: the entry of `key` if present, otherwise the next
entry in the direction of the iterator; an empty `key` rewinds. -/
def Seek (it : ItemIterator) (key : Bytes) : ItemIterator :=
  if len key = 0 then it.Rewind
  else if it.reverse then
    { it with cur := { it.cur with pos := (it.cur.entries.findIdx
        (fun e => decide (0 < bytes.compareList e.1 (key.getD []))) : Nat) - 1 } }
  else { it with cur := it.cur.SeekGE key }

/-- The engine's `Next`: one entry further in the direction of the iterator. -/
def Next (it : ItemIterator) : ItemIterator :=
  if it.reverse then { it with cur := it.cur.Prev } else { it with cur := it.cur.Next }

/-- The engine's `Item().Key()`. -/
def Key (it : ItemIterator) : Bytes := it.cur.Key

/-- The engine's `Item().ValueCopy(nil)`: the error of the engine when it
returns one, otherwise a copy of the value appended to `nil`, which is `nil`
for a stored value of length zero. -/
def ValueCopy (it : ItemIterator) : Bytes × Option Error :=
  match it.valueErr with
  | some err => (none, some err)
  | none => (if len it.cur.Value = 0 then none else it.cur.Value, none)

end ItemIterator

namespace Engine

/-- The engine's `NewTransaction(false)` and `txn.NewIterator(opts)`. -/
def NewItemIterator (e : Engine) (reverse : Bool) : ItemIterator :=
  { cur := { entries := e.entries, pos := -1, err := none }, reverse := reverse,
    valueErr := e.fault }

end Engine

namespace badgerdb

/-- The `badgerDB` struct. -/
structure badgerDB where
  db : Engine

/-- `withSync`. -/
def withSync (db : Engine) (err : Option Error) : Option Error :=
  match err with
  | some e => some e
  | none => db.Sync

/-- The `badgerDBIterator` struct. -/
structure badgerDBIterator where
  reverse : Bool
  start : Bytes
  end_ : Bytes
  iter : ItemIterator
  lastErr : Option Error

/-- The `badgerDBBatch` struct: `firstFlush` tells whether the channel of the
source still holds its token. The store `db` is passed to `Write`. -/
structure badgerDBBatch where
  wb : WriteBatch
  firstFlush : Bool
  deriving DecidableEq, Repr

namespace badgerDB

/-- `(b *badgerDB) Get`. -/
def Get (b : badgerDB) (key : Bytes) : Bytes × Option Error :=
  if len key = 0 then (none, some Error.ErrKeyEmpty)
  else b.db.Read key

/-- `(b *badgerDB) Has`. -/
def Has (b : badgerDB) (key : Bytes) : Bool × Option Error :=
  if len key = 0 then (false, some Error.ErrKeyEmpty)
  else
    match b.db.Read key with
    | (_, some err) => (false, some err)
    | (v, none) => (decide (v ≠ none), none)

/-- `(b *badgerDB) Set`. -/
def Set (b : badgerDB) (key value : Bytes) : badgerDB × Option Error :=
  if len key = 0 then (b, some Error.ErrKeyEmpty)
  else if value = none then (b, some Error.ErrValueNil)
  else
    let r := b.db.Put key value
    ({ db := r.1 }, r.2)

/-- `(b *badgerDB) SetSync`. -/
def SetSync (b : badgerDB) (key value : Bytes) : badgerDB × Option Error :=
  let r := b.Set key value
  (r.1, withSync r.1.db r.2)

/-- `(b *badgerDB) Delete`. -/
def Delete (b : badgerDB) (key : Bytes) : badgerDB × Option Error :=
  if len key = 0 then (b, some Error.ErrKeyEmpty)
  else
    let r := b.db.Del key
    ({ db := r.1 }, r.2)

/-- `(b *badgerDB) DeleteSync`. -/
def DeleteSync (b : badgerDB) (key : Bytes) : badgerDB × Option Error :=
  let r := b.Delete key
  (r.1, withSync r.1.db r.2)

/-- `(b *badgerDB) iteratorOpts`; `reverse` is `opts.Reverse`. -/
def iteratorOpts (b : badgerDB) (start end_ : Bytes) (reverse : Bool) :
    Option badgerDBIterator × Option Error :=
  if (start ≠ none ∧ len start = 0) ∨ (end_ ≠ none ∧ len end_ = 0) then
    (none, some Error.ErrKeyEmpty)
  else
    let iter := b.db.NewItemIterator reverse
    let iter := iter.Rewind
    let iter := iter.Seek start
    let iter :=
      if reverse ∧ iter.Valid ∧ iter.Key.getD [] = start.getD [] then iter.Next else iter
    (some { reverse := reverse, start := start, end_ := end_, iter := iter, lastErr := none },
      none)

/-- `(b *badgerDB) Iterator`. The result is a value of the interface
`locketdb.Iterator`: `none` is the `nil` interface and `some p` an interface
value that holds the pointer `p`, which may itself be `nil`. The `return`
converts the `*badgerDBIterator` of `iteratorOpts` to the interface, so the
interface value is never `nil`, also when the pointer in it is. -/
def Iterator (b : badgerDB) (start end_ : Bytes) :
    Option (Option badgerDBIterator) × Option Error :=
  let r := b.iteratorOpts start end_ false
  (some r.1, r.2)

/-- `(b *badgerDB) ReverseIterator`; the result as for `Iterator`. -/
def ReverseIterator (b : badgerDB) (start end_ : Bytes) :
    Option (Option badgerDBIterator) × Option Error :=
  let r := b.iteratorOpts end_ start true
  (some r.1, r.2)

/-- `(b *badgerDB) NewBatch`. -/
def NewBatch (_b : badgerDB) : badgerDBBatch := { wb := { calls := [] }, firstFlush := true }

end badgerDB

namespace badgerDBBatch

/-- `(b *badgerDBBatch) Set`. -/
def Set (b : badgerDBBatch) (key value : Bytes) : badgerDBBatch × Option Error :=
  if len key = 0 then (b, some Error.ErrKeyEmpty)
  else if value = none then (b, some Error.ErrValueNil)
  else
    let r := b.wb.Set key value
    ({ b with wb := r.1 }, r.2)

/-- `(b *badgerDBBatch) Delete`. -/
def Delete (b : badgerDBBatch) (key : Bytes) : badgerDBBatch × Option Error :=
  if len key = 0 then (b, some Error.ErrKeyEmpty)
  else
    let r := b.wb.Delete key
    ({ b with wb := r.1 }, r.2)

/-- `(b *badgerDBBatch) Write`: the `select` takes the token of `firstFlush`
when there is one. -/
def Write (b : badgerDBBatch) (db : badgerDB) :
    Except Panic (badgerDBBatch × badgerDB × Option Error) :=
  if b.firstFlush then
    match b.wb.Flush db.db with
    | .error p => .error p
    | .ok (wb, e, err) => .ok ({ wb := wb, firstFlush := false }, { db := e }, err)
  else .ok (b, db, some Error.batchAlreadyFlushed)

/-- `(b *badgerDBBatch) WriteSync`. -/
def WriteSync (b : badgerDBBatch) (db : badgerDB) :
    Except Panic (badgerDBBatch × badgerDB × Option Error) :=
  match b.Write db with
  | .error p => .error p
  | .ok (b, db, err) => .ok (b, db, withSync db.db err)

/-- `(b *badgerDBBatch) Close`. -/
def Close (b : badgerDBBatch) : badgerDBBatch × Option Error :=
  ({ wb := b.wb.Cancel, firstFlush := false }, none)

end badgerDBBatch

namespace badgerDBIterator

/-- `(i *badgerDBIterator) Domain`. -/
def Domain (i : badgerDBIterator) : Bytes × Bytes := (i.start, i.end_)

/-- `(i *badgerDBIterator) Error`. -/
def Error (i : badgerDBIterator) : Option Error := i.lastErr

/-- `(i *badgerDBIterator) Valid`. -/
def Valid (i : badgerDBIterator) : Bool :=
  if !i.iter.Valid then false
  else if len i.end_ > 0 then
    let key := i.iter.Key
    let c := bytes.Compare key i.end_
    if (i.reverse = false ∧ c ≥ 0) ∨ (i.reverse = true ∧ c < 0) then false
    else true
  else true

/-- `(i *badgerDBIterator) Next`. -/
def Next (i : badgerDBIterator) : Except Panic badgerDBIterator :=
  if !i.Valid then .error Panic.iteratorInvalid
  else .ok { i with iter := i.iter.Next }

/-- `(i *badgerDBIterator) Key`. -/
def Key (i : badgerDBIterator) : Except Panic Bytes :=
  if !i.Valid then .error Panic.iteratorInvalid
  else .ok (cp i.iter.Key)

/-- `(i *badgerDBIterator) Value`: the value and the iterator after the call
(`lastErr` may have been set). -/
def Value (i : badgerDBIterator) : Except Panic (Bytes × badgerDBIterator) :=
  if !i.Valid then .error Panic.iteratorInvalid
  else
    match i.iter.ValueCopy with
    | (val, some err) => .ok (val, { i with lastErr := some err })
    | (val, none) => .ok (val, i)

end badgerDBIterator

end badgerdb

/-! ### Histories of an iterator -/

/-- What happens to an iterator between two observations: a call of one of its
methods, or the engine changing the state of its cursor (`engine c`: the cursor
is now `c`, wherever it stands and whatever error it reports). -/
inductive IterEvent
  | valid
  | next
  | key
  | value
  | engine (c : Cursor)

namespace pebble

/-- The iterator after an event; a call that panics leaves what it had done
before the panic. -/
def pebbleDBIterator.step (it : pebbleDBIterator) : IterEvent → pebbleDBIterator
  | IterEvent.valid => (it.Valid).2
  | IterEvent.next =>
    match it.Next with
    | .ok it' => it'
    | .error _ => it
  | IterEvent.key => it
  | IterEvent.value => it
  | IterEvent.engine c => { it with iter := c }

end pebble

namespace goleveldb

/-- The iterator after an event; a call that panics leaves what it had done
before the panic. -/
def goLevelDBIterator.step (it : goLevelDBIterator) : IterEvent → goLevelDBIterator
  | IterEvent.valid => (it.Valid).2
  | IterEvent.next =>
    match it.Next with
    | .ok it' => it'
    | .error _ => it
  | IterEvent.key => it
  | IterEvent.value => it
  | IterEvent.engine c => { it with iter := c }

/-- The iterators the code produces: those built by `newGoLevelDBIterator` and
those left by a call of `Valid` or `Next` (`Key` and `Value` change nothing). -/
inductive goLevelDBIterator.Reachable : goLevelDBIterator → Prop
  | new (c : Cursor) (start end_ : Bytes) (isReverse : Bool) :
    Reachable (newGoLevelDBIterator c start end_ isReverse)
  | valid {it : goLevelDBIterator} : Reachable it → Reachable (it.Valid).2
  | next {it it' : goLevelDBIterator} : Reachable it → it.Next = .ok it' → Reachable it'

end goleveldb

namespace boltdb

/-- The iterator after an event; a call that panics leaves what it had done
before the panic. An engine event also replaces the key and value read from
the cursor. -/
def boltDBIterator.step (it : boltDBIterator) : IterEvent → boltDBIterator
  | IterEvent.valid => (it.Valid).2
  | IterEvent.next => (it.Next).2
  | IterEvent.key => (it.Key).2
  | IterEvent.value => (it.Value).2
  | IterEvent.engine c => { it with iter := c, currentKey := c.Key, currentValue := c.Value }

/-- The iterators the code produces: those built by `newBoltDBIterator` and
those left by a call of `Valid`, `Next`, `Key` or `Value`. -/
inductive boltDBIterator.Reachable : boltDBIterator → Prop
  | new (tx : Entries) (start end_ : Bytes) (isReverse : Bool) :
    Reachable (newBoltDBIterator tx start end_ isReverse)
  | valid {it : boltDBIterator} : Reachable it → Reachable (it.Valid).2
  | next {it : boltDBIterator} : Reachable it → Reachable (it.Next).2
  | key {it : boltDBIterator} : Reachable it → Reachable (it.Key).2
  | value {it : boltDBIterator} : Reachable it → Reachable (it.Value).2

end boltdb

namespace boltdb

/-- The iterator that stands on the cursor `c` with the key and value read
from it: the form of an iterator after `newBoltDBIterator` and after every
`Next()` that does not panic. -/
def boltDBIterator.onCursor (start end_ : Bytes) (isReverse : Bool) (c : Cursor) :
    boltDBIterator :=
  { iter := c, start := start, end_ := end_, currentKey := c.Key, currentValue := c.Value,
    isInvalid := false, isReverse := isReverse }

end boltdb

namespace boltdb

/-- The cursor of the iterator is exhausted or has crossed the boundary of its
direction: the conditions under which `Valid` marks the iterator invalid. -/
def boltDBIterator.outside (it : boltDBIterator) : Prop :=
  it.currentKey = none ∨
  (it.isReverse = true ∧ it.start ≠ none ∧ bytes.Compare it.currentKey it.start < 0) ∨
  (it.isReverse = false ∧ it.end_ ≠ none ∧ bytes.Compare it.end_ it.currentKey ≤ 0)

end boltdb

namespace goleveldb

/-- The engine cursor reports an error, is exhausted, or has crossed the
boundary of the direction: the conditions under which `Valid` marks the
iterator invalid. -/
def goLevelDBIterator.outside (it : goLevelDBIterator) : Prop :=
  it.iter.err ≠ none ∨ it.iter.Valid = false ∨
  (it.isReverse = true ∧ it.start ≠ none ∧ bytes.Compare it.iter.Key it.start < 0) ∨
  (it.isReverse = false ∧ it.end_ ≠ none ∧ bytes.Compare it.end_ it.iter.Key ≤ 0)

end goleveldb

/-! ### Two namespaces over one store -/

/-- The frame laws of a wrapped store that behaves as a map: a successful
`Set`, `SetSync`, `Delete` or `DeleteSync` of a key leaves the answers of `Get`
and `Has` for every other key as they were. -/
structure MapFrame {σ ι : Type} (d : DB σ ι) : Prop where
  get_set_other : ∀ (s s' : σ) (key value k' : Bytes), d.Set s key value = (s', none) →
    k'.getD [] ≠ key.getD [] → d.Get s' k' = d.Get s k'
  has_set_other : ∀ (s s' : σ) (key value k' : Bytes), d.Set s key value = (s', none) →
    k'.getD [] ≠ key.getD [] → d.Has s' k' = d.Has s k'
  get_setSync_other : ∀ (s s' : σ) (key value k' : Bytes), d.SetSync s key value = (s', none) →
    k'.getD [] ≠ key.getD [] → d.Get s' k' = d.Get s k'
  has_setSync_other : ∀ (s s' : σ) (key value k' : Bytes), d.SetSync s key value = (s', none) →
    k'.getD [] ≠ key.getD [] → d.Has s' k' = d.Has s k'
  get_delete_other : ∀ (s s' : σ) (key k' : Bytes), d.Delete s key = (s', none) →
    k'.getD [] ≠ key.getD [] → d.Get s' k' = d.Get s k'
  has_delete_other : ∀ (s s' : σ) (key k' : Bytes), d.Delete s key = (s', none) →
    k'.getD [] ≠ key.getD [] → d.Has s' k' = d.Has s k'
  get_deleteSync_other : ∀ (s s' : σ) (key k' : Bytes), d.DeleteSync s key = (s', none) →
    k'.getD [] ≠ key.getD [] → d.Get s' k' = d.Get s k'
  has_deleteSync_other : ∀ (s s' : σ) (key k' : Bytes), d.DeleteSync s key = (s', none) →
    k'.getD [] ≠ key.getD [] → d.Has s' k' = d.Has s k'

/-! ### Histories of a `badgerdb` batch -/

namespace badgerdb

/-- A call of a method of a `badgerdb` batch. -/
inductive BatchCall
  | set (key value : Bytes)
  | delete (key : Bytes)
  | write
  | writeSync
  | close
  deriving DecidableEq, Repr

/-- One call on a batch: the batch and the store after it, and the error
returned; a panic of the engine ends the run. -/
def badgerDBBatch.call (b : badgerDBBatch) (db : badgerDB) :
    BatchCall → Except Panic (badgerDBBatch × badgerDB × Option Error)
  | BatchCall.set key value => .ok ((b.Set key value).1, db, (b.Set key value).2)
  | BatchCall.delete key => .ok ((b.Delete key).1, db, (b.Delete key).2)
  | BatchCall.write => b.Write db
  | BatchCall.writeSync => b.WriteSync db
  | BatchCall.close => .ok ((b.Close).1, db, (b.Close).2)

/-- A sequence of calls on a batch, oldest first: the batch and the store after
them, and the errors returned, in the order of the calls. -/
def badgerDBBatch.run (b : badgerDBBatch) (db : badgerDB) :
    List BatchCall → Except Panic (badgerDBBatch × badgerDB × List (Option Error))
  | [] => .ok (b, db, [])
  | c :: cs =>
    match b.call db c with
    | .error p => .error p
    | .ok (b1, db1, err) =>
      match badgerDBBatch.run b1 db1 cs with
      | .error p => .error p
      | .ok (b2, db2, errs) => .ok (b2, db2, err :: errs)

/-- The batch still holds the token of `firstFlush` only while its write batch
has seen neither a flush nor a cancel, and the write batch has been flushed at
most once, with no flush and no cancel before that flush. -/
def badgerDBBatch.flushSafe (b : badgerDBBatch) : Prop :=
  (b.firstFlush = true → ∀ c ∈ b.wb.calls, c ≠ WbCall.flush ∧ c ≠ WbCall.cancel) ∧
  b.wb.calls.count WbCall.flush ≤ 1 ∧
  ∀ l1 l2 : List WbCall, b.wb.calls = l1 ++ WbCall.flush :: l2 →
    WbCall.flush ∉ l1 ∧ WbCall.cancel ∉ l1

end badgerdb

/-! ## Theorems -/

/-! ### Bytes and the loop of `cpIncr` -/

theorem byte_lt_succ (b : Byte) (h : b < 0xFF) : b < b + 1 := by
  have := b.isLt
  rw [Fin.lt_def] at h ⊢
  rw [Fin.val_add]
  simp at h ⊢
  omega

theorem byte_succ_val (b : Byte) (h : b < 0xFF) : (b + 1).val = b.val + 1 := by
  have := b.isLt
  rw [Fin.lt_def] at h
  rw [Fin.val_add]
  simp at h ⊢
  omega

theorem byte_eq_ff (b : Byte) (h : ¬ b < 0xFF) : b = 0xFF := by
  have := b.isLt
  rw [Fin.lt_def] at h
  apply Fin.ext
  simp at h ⊢
  omega

theorem byte_not_ff_lt (c : Byte) : ¬ (0xFF : Byte) < c := by
  have := c.isLt
  rw [Fin.lt_def]
  simp
  omega

theorem byte_not_lt_zero (c : Byte) : ¬ c < (0 : Byte) := by
  rw [Fin.lt_def]
  simp

theorem cpIncrLoop_unfold (ret : List Byte) (i : Nat) :
    cpIncrLoop ret i =
      if ret.getD i 0 < 0xFF then some (ret.set i (ret.getD i 0 + 1))
      else if i = 0 then none else cpIncrLoop (ret.set i 0) (i - 1) := by
  cases i with
  | zero => simp [cpIncrLoop]
  | succ n => simp [cpIncrLoop]

theorem getD_append_cons_length (a z : List Byte) (c d : Byte) :
    (a ++ c :: z).getD a.length d = c := by
  induction a with
  | nil => simp
  | cons x xs ih => simpa using ih

theorem set_append_cons_length (a z : List Byte) (c e : Byte) :
    (a ++ c :: z).set a.length e = a ++ e :: z := by
  induction a with
  | nil => simp
  | cons x xs ih => simp

theorem incrSpec_snoc_lt (a : List Byte) (c : Byte) (h : c < 0xFF) :
    incrSpec (a ++ [c]) = some (a ++ [c + 1]) := by
  induction a with
  | nil => simp [incrSpec, h]
  | cons x xs ih => simp [incrSpec, ih]

theorem incrSpec_snoc_ff (a : List Byte) :
    incrSpec (a ++ [0xFF]) = (incrSpec a).map (fun r => r ++ [0]) := by
  induction a with
  | nil => simp [incrSpec]
  | cons x xs ih =>
    rw [List.cons_append, incrSpec, ih, incrSpec]
    cases h : incrSpec xs with
    | some r => simp
    | none =>
      by_cases hx : x < 0xFF
      · simp [hx, List.replicate_succ']
      · simp [hx]

/-- The loop of `cpIncr`, run on a working copy whose tail `z` is already
processed, computes the successor of the part still to be processed. -/
theorem cpIncrLoop_append (a : List Byte) :
    ∀ z : List Byte, a ≠ [] →
      cpIncrLoop (a ++ z) (a.length - 1) = (incrSpec a).map (fun r => r ++ z) := by
  induction a using List.reverseRecOn with
  | nil => intro z h; exact absurd rfl h
  | append_singleton a c ih =>
    intro z _
    rw [cpIncrLoop_unfold]
    have hlen : (a ++ [c]).length - 1 = a.length := by simp
    rw [hlen, List.append_assoc, List.singleton_append, getD_append_cons_length,
      set_append_cons_length, set_append_cons_length]
    by_cases hc : c < 0xFF
    · simp [hc, incrSpec_snoc_lt]
    · have hff := byte_eq_ff c hc
      subst hff
      rw [if_neg hc, incrSpec_snoc_ff]
      by_cases ha : a = []
      · subst ha; simp [incrSpec]
      · have hl : a.length ≠ 0 := by simpa using ha
        rw [if_neg hl, ih (0 :: z) ha]
        cases incrSpec a <;> simp

theorem cpIncr_eq_incrSpec (p : List Byte) (hp : p ≠ []) :
    cpIncr (some p) = .ok (incrSpec p) := by
  have hl : p.length ≠ 0 := by simpa using hp
  have := cpIncrLoop_append p [] hp
  simp only [List.append_nil] at this
  simp [cpIncr, len, cp, hl, this]

/-! ### The byte order -/

theorem compareList_append_left (p a b : List Byte) :
    bytes.compareList (p ++ a) (p ++ b) = bytes.compareList a b := by
  induction p with
  | nil => rfl
  | cons x xs ih => simp [bytes.compareList, ih]

theorem compareList_nil_right (a : List Byte) : 0 ≤ bytes.compareList a [] := by
  cases a <;> simp [bytes.compareList]

theorem compareList_nil_left (a : List Byte) : bytes.compareList [] a ≤ 0 := by
  cases a <;> simp [bytes.compareList]

theorem compareList_append_self (p k : List Byte) : 0 ≤ bytes.compareList (p ++ k) p := by
  have h := compareList_append_left p k []
  rw [List.append_nil] at h
  rw [h]
  exact compareList_nil_right k

/-- A sequence below a run of zero bytes is a shorter run of zero bytes. -/
theorem compareList_zeros_pos (n : Nat) :
    ∀ u : List Byte, 0 < bytes.compareList (List.replicate n 0) u →
      ∃ m, m < n ∧ u = List.replicate m 0 := by
  induction n with
  | zero =>
    intro u h
    have := compareList_nil_left u
    simp only [List.replicate_zero] at h
    omega
  | succ n ih =>
    intro u h
    cases u with
    | nil => exact ⟨0, Nat.succ_pos n, rfl⟩
    | cons c u =>
      rw [List.replicate_succ, bytes.compareList] at h
      by_cases h1 : (0 : Byte) < c
      · simp [h1] at h
      · have hc : c = 0 := le_antisymm (not_lt.mp h1) (Fin.zero_le c)
        subst hc
        simp only [lt_self_iff_false, if_false] at h
        obtain ⟨m, hm, hu⟩ := ih u h
        exact ⟨m + 1, Nat.succ_lt_succ hm, by rw [hu, List.replicate_succ]⟩

theorem incrSpec_none_iff (p : List Byte) : incrSpec p = none ↔ ∀ b ∈ p, b = 0xFF := by
  induction p with
  | nil => simp [incrSpec]
  | cons x xs ih =>
    rw [incrSpec]
    cases h : incrSpec xs with
    | some r =>
      have : ¬ ∀ b ∈ xs, b = 0xFF := fun hall => by
        rw [ih.mpr hall] at h; cases h
      simp only [List.mem_cons, forall_eq_or_imp]
      constructor
      · intro h2; cases h2
      · intro h2; exact absurd h2.2 this
    | none =>
      have hall := ih.mp h
      simp only [List.mem_cons, forall_eq_or_imp]
      by_cases hx : x < 0xFF
      · simp only [hx, if_true]
        constructor
        · intro h2; cases h2
        · intro h2; rw [h2.1] at hx; exact absurd hx (lt_irrefl _)
      · simp only [hx, if_false, true_iff]
        exact ⟨byte_eq_ff x hx, hall⟩

theorem eq_replicate_of_all_ff (p : List Byte) (h : ∀ b ∈ p, b = 0xFF) :
    p = List.replicate p.length 0xFF :=
  List.eq_replicate_iff.mpr ⟨rfl, h⟩

/-- The shape of a successor: the last byte below `0xFF` is incremented and the
bytes after it go from `0xFF` to `0x00`. -/
theorem incrSpec_some_shape (p : List Byte) :
    ∀ q, incrSpec p = some q →
      ∃ pre b n, p = pre ++ b :: List.replicate n 0xFF ∧ b < 0xFF ∧
        q = pre ++ (b + 1) :: List.replicate n 0 := by
  induction p with
  | nil => intro q h; simp [incrSpec] at h
  | cons x xs ih =>
    intro q h
    rw [incrSpec] at h
    cases hxs : incrSpec xs with
    | some r =>
      rw [hxs] at h
      obtain ⟨pre, b, n, h1, h2, h3⟩ := ih r hxs
      refine ⟨x :: pre, b, n, ?_, h2, ?_⟩
      · rw [h1]; rfl
      · cases h; rw [h3]; rfl
    | none =>
      rw [hxs] at h
      by_cases hx : x < 0xFF
      · simp only [hx, if_true, Option.some.injEq] at h
        refine ⟨[], x, xs.length, ?_, hx, ?_⟩
        · have := eq_replicate_of_all_ff xs ((incrSpec_none_iff xs).mp hxs)
          rw [List.nil_append, ← this]
        · rw [← h]; rfl
      · simp [hx] at h

/-- With an all-`0xFF` prefix, every sequence not below the prefix begins with it. -/
theorem prefix_of_ge_of_incrSpec_none (p : List Byte) :
    ∀ x : List Byte, incrSpec p = none → 0 ≤ bytes.compareList x p → p <+: x := by
  induction p with
  | nil => intro x _ _; exact List.nil_prefix
  | cons b t ih =>
    intro x hn hge
    have hall := (incrSpec_none_iff (b :: t)).mp hn
    have hb : b = 0xFF := hall b (List.mem_cons_self b t)
    have ht : incrSpec t = none :=
      (incrSpec_none_iff t).mpr (fun c hc => hall c (List.mem_cons_of_mem b hc))
    cases x with
    | nil => simp [bytes.compareList] at hge
    | cons c u =>
      rw [bytes.compareList] at hge
      by_cases h1 : c < b
      · simp [h1] at hge
      · rw [if_neg h1] at hge
        have h2 : ¬ b < c := by rw [hb]; exact byte_not_ff_lt c
        rw [if_neg h2] at hge
        have hcb : c = b := le_antisymm (not_lt.mp h2) (not_lt.mp h1)
        subst hcb
        exact (List.prefix_cons_inj c).mpr (ih u ht hge)

/-- The keys of the range `[p, q)`, `q` the successor of `p`: those that begin
with `p`, and the keys made of the incremented head of `p` followed by fewer
zero bytes than `p` has trailing `0xFF` bytes. -/
theorem range_of_incrSpec_some (p : List Byte) :
    ∀ (q x : List Byte), incrSpec p = some q → 0 ≤ bytes.compareList x p →
      0 < bytes.compareList q x →
      p <+: x ∨ ∃ pre b n m, p = pre ++ b :: List.replicate n 0xFF ∧ b < 0xFF ∧ m < n ∧
        x = pre ++ (b + 1) :: List.replicate m 0 := by
  induction p with
  | nil => intro q x h; simp [incrSpec] at h
  | cons b t ih =>
    intro q x hq hge hlt
    cases x with
    | nil => simp [bytes.compareList] at hge
    | cons c u =>
      rw [bytes.compareList] at hge
      by_cases h1 : c < b
      · simp [h1] at hge
      · rw [if_neg h1] at hge
        rw [incrSpec] at hq
        cases ht : incrSpec t with
        | some r =>
          rw [ht] at hq
          cases hq
          rw [bytes.compareList] at hlt
          by_cases h2 : b < c
          · simp [h2] at hlt
          · rw [if_neg h2] at hge
            rw [if_neg h2, if_neg h1] at hlt
            have hcb : c = b := le_antisymm (not_lt.mp h2) (not_lt.mp h1)
            subst hcb
            rcases ih r u ht hge hlt with hpre | ⟨pre, b', n, m, e1, e2, e3, e4⟩
            · exact Or.inl ((List.prefix_cons_inj c).mpr hpre)
            · refine Or.inr ⟨c :: pre, b', n, m, ?_, e2, e3, ?_⟩
              · rw [e1]; rfl
              · rw [e4]; rfl
        | none =>
          rw [ht] at hq
          by_cases hb : b < 0xFF
          · simp only [hb, if_true, Option.some.injEq] at hq
            subst hq
            rw [bytes.compareList] at hlt
            by_cases h3 : b + 1 < c
            · simp [h3] at hlt
            · rw [if_neg h3] at hlt
              by_cases h4 : c < b + 1
              · have hcb : c = b := by
                  have hv := byte_succ_val b hb
                  rw [Fin.lt_def] at h4 h1
                  apply Fin.ext
                  omega
                subst hcb
                rw [if_neg (lt_irrefl c)] at hge
                exact Or.inl ((List.prefix_cons_inj c).mpr
                  (prefix_of_ge_of_incrSpec_none t u ht hge))
              · rw [if_neg h4] at hlt
                have hcb : c = b + 1 := le_antisymm (not_lt.mp h3) (not_lt.mp h4)
                obtain ⟨m, hm, hu⟩ := compareList_zeros_pos t.length u hlt
                refine Or.inr ⟨[], b, t.length, m, ?_, hb, hm, ?_⟩
                · have := eq_replicate_of_all_ff t ((incrSpec_none_iff t).mp ht)
                  rw [List.nil_append, ← this]
                · rw [hcb, hu]; rfl
          · simp [hb] at hq

/-- The successor of `p` is above every sequence that begins with `p`. -/
theorem incrSpec_gt_append (p : List Byte) :
    ∀ (q k : List Byte), incrSpec p = some q → 0 < bytes.compareList q (p ++ k) := by
  induction p with
  | nil => intro q k h; simp [incrSpec] at h
  | cons b t ih =>
    intro q k hq
    rw [incrSpec] at hq
    cases ht : incrSpec t with
    | some r =>
      rw [ht] at hq
      cases hq
      rw [List.cons_append, bytes.compareList]
      simp only [lt_self_iff_false, if_false]
      exact ih r k ht
    | none =>
      rw [ht] at hq
      by_cases hb : b < 0xFF
      · simp only [hb, if_true, Option.some.injEq] at hq
        subst hq
        rw [List.cons_append, bytes.compareList]
        have h1 := byte_lt_succ b hb
        rw [if_neg (not_lt.mpr (le_of_lt h1)), if_pos h1]
        exact Int.one_pos
      · simp [hb] at hq

/-- A sequence inside `[p ++ s, p ++ e)` begins with `p`. -/
theorem prefix_of_between (p : List Byte) :
    ∀ (s e x : List Byte), 0 ≤ bytes.compareList x (p ++ s) →
      0 < bytes.compareList (p ++ e) x → p <+: x := by
  induction p with
  | nil => intro s e x _ _; exact List.nil_prefix
  | cons b t ih =>
    intro s e x hge hlt
    cases x with
    | nil => simp [bytes.compareList] at hge
    | cons c u =>
      rw [List.cons_append, bytes.compareList] at hge hlt
      by_cases h1 : c < b
      · simp [h1] at hge
      · rw [if_neg h1] at hge
        by_cases h2 : b < c
        · simp [h2] at hlt
        · rw [if_neg h2] at hge
          rw [if_neg h2, if_neg h1] at hlt
          have hcb : c = b := le_antisymm (not_lt.mp h2) (not_lt.mp h1)
          subst hcb
          exact (List.prefix_cons_inj c).mpr (ih s e u hge hlt)

/-! ### The big-endian value -/

theorem foldl_value_append (a b : List Byte) (acc : Nat) :
    (a ++ b).foldl (fun acc (x : Byte) => acc * 256 + x.val) acc =
      b.foldl (fun acc (x : Byte) => acc * 256 + x.val)
        (a.foldl (fun acc (x : Byte) => acc * 256 + x.val) acc) :=
  List.foldl_append _ _ _ _

theorem foldl_value_zeros (n acc : Nat) :
    (List.replicate n (0 : Byte)).foldl (fun acc (x : Byte) => acc * 256 + x.val) acc =
      acc * 256 ^ n := by
  induction n generalizing acc with
  | zero => simp
  | succ n ih =>
    rw [List.replicate_succ, List.foldl_cons, ih]
    simp [pow_succ]
    ring

theorem foldl_value_ffs (n acc : Nat) :
    (List.replicate n (0xFF : Byte)).foldl (fun acc (x : Byte) => acc * 256 + x.val) acc + 1 =
      (acc + 1) * 256 ^ n := by
  induction n generalizing acc with
  | zero => simp
  | succ n ih =>
    rw [List.replicate_succ, List.foldl_cons, ih]
    have : ((0xFF : Byte).val) = 255 := rfl
    rw [this, pow_succ]
    ring

theorem beValue_succ (pre : List Byte) (b : Byte) (n : Nat) (hb : b < 0xFF) :
    beValue (pre ++ (b + 1) :: List.replicate n 0) =
      beValue (pre ++ b :: List.replicate n 0xFF) + 1 := by
  unfold beValue
  rw [foldl_value_append, foldl_value_append, List.foldl_cons, List.foldl_cons,
    foldl_value_zeros, foldl_value_ffs, byte_succ_val b hb]
  ring

/-! ### `IsKeyInDomain` and the iterators of `PrefixDB` -/

theorem IsKeyInDomain_iff (key start end_ : Bytes) :
    IsKeyInDomain key start end_ = true ↔
      0 ≤ bytes.Compare key start ∧ (end_ = none ∨ 0 < bytes.Compare end_ key) := by
  unfold IsKeyInDomain
  by_cases h1 : bytes.Compare key start < 0
  · simp only [h1, if_true]
    constructor
    · intro h; cases h
    · intro h; omega
  · rw [if_neg h1]
    by_cases h2 : end_ = none
    · simp only [h2, ne_eq, not_true_eq_false, false_and, if_false, true_or, and_true, true_iff]
      omega
    · by_cases h3 : bytes.Compare end_ key ≤ 0
      · simp only [ne_eq, h2, not_false_eq_true, h3, and_self, if_true, false_or]
        constructor
        · intro h; cases h
        · intro h; omega
      · simp only [ne_eq, h2, not_false_eq_true, h3, and_false, if_false, false_or, true_iff]
        omega

theorem Iterator_eval {σ ι κ : Type} (d : DB σ ι)
    (npi : Bytes → Bytes → Bytes → ι → Option κ × Option Error)
    (pdb : PrefixDB σ) (start end_ pend : Bytes)
    (hb : ¬ ((start ≠ none ∧ len start = 0) ∨ (end_ ≠ none ∧ len end_ = 0)))
    (hpend : (if end_ = none then cpIncr pdb.pfx else .ok (append (cp pdb.pfx) end_)) =
      Except.ok pend) :
    (∀ itr, d.Iterator pdb.db (append (cp pdb.pfx) start) pend = (itr, none) →
      PrefixDB.Iterator d npi pdb start end_ = .ok (npi pdb.pfx start end_ itr)) ∧
    (∀ itr err, d.Iterator pdb.db (append (cp pdb.pfx) start) pend = (itr, some err) →
      PrefixDB.Iterator d npi pdb start end_ = .ok (none, some err)) := by
  constructor
  · intro itr h
    unfold PrefixDB.Iterator
    simp only [if_neg hb, hpend, h]
  · intro itr err h
    unfold PrefixDB.Iterator
    simp only [if_neg hb, hpend, h]

theorem ReverseIterator_eval {σ ι κ : Type} (d : DB σ ι)
    (npi : Bytes → Bytes → Bytes → ι → Option κ × Option Error)
    (pdb : PrefixDB σ) (start end_ pend : Bytes)
    (hb : ¬ ((start ≠ none ∧ len start = 0) ∨ (end_ ≠ none ∧ len end_ = 0)))
    (hpend : (if end_ = none then cpIncr pdb.pfx else .ok (append (cp pdb.pfx) end_)) =
      Except.ok pend) :
    (∀ itr, d.ReverseIterator pdb.db (append (cp pdb.pfx) start) pend = (itr, none) →
      PrefixDB.ReverseIterator d npi pdb start end_ = .ok (npi pdb.pfx start end_ itr)) ∧
    (∀ itr err, d.ReverseIterator pdb.db (append (cp pdb.pfx) start) pend = (itr, some err) →
      PrefixDB.ReverseIterator d npi pdb start end_ = .ok (none, some err)) := by
  constructor
  · intro itr h
    unfold PrefixDB.ReverseIterator
    simp only [if_neg hb, hpend, h]
  · intro itr err h
    unfold PrefixDB.ReverseIterator
    simp only [if_neg hb, hpend, h]

/-! ### The unbounded range of a `PrefixDB` -/

theorem length_lt_of_exceptional (pre : List Byte) (b c : Byte) (n m : Nat) (h : m < n) :
    (pre ++ c :: List.replicate m (0 : Byte)).length <
      (pre ++ b :: List.replicate n (0xFF : Byte)).length := by
  simp only [List.length_append, List.length_cons, List.length_replicate]
  omega

theorem getLast?_of_trailing_ff (pre : List Byte) (b : Byte) (n : Nat) (h : 0 < n) :
    (pre ++ b :: List.replicate n (0xFF : Byte)).getLast? = some 0xFF := by
  obtain ⟨k, rfl⟩ : ∃ k, n = k + 1 := ⟨n - 1, by omega⟩
  rw [List.replicate_succ', ← List.cons_append, ← List.append_assoc]
  exact List.getLast?_concat _

/-- C1, counterexample: with the prefix `01 FF` the successor is `02 00`, and
the one-byte key `02` lies in the physical range `[01 FF, 02 00)` although it
does not begin with the prefix. -/
theorem unbounded_range_admits_foreign_key :
    cpIncr (some [0x01, 0xFF]) = .ok (some [0x02, 0x00]) ∧
    IsKeyInDomain (some [0x02]) (some [0x01, 0xFF]) (some [0x02, 0x00]) = true ∧
    ¬ ([0x01, 0xFF] <+: ([0x02] : List Byte)) := by decide

/-- C1, as amended: for a non-empty prefix `p`, `cpIncr p` returns a bound
`pend`, the unbounded iterators of the `PrefixDB` query the wrapped store with
`[p, pend)`, and every key of that range begins with `p` or is the incremented
head of `p` followed by fewer `0x00` bytes than `p` has trailing `0xFF` bytes;
so a key of the range at least as long as `p`, and any key of the range when
`p` does not end in `0xFF`, begins with `p`. -/
theorem unbounded_range_keys {σ ι κ : Type} (d : DB σ ι)
    (npi : Bytes → Bytes → Bytes → ι → Option κ × Option Error) (s : σ)
    (p : List Byte) (hp : p ≠ []) :
    ∃ pend, cpIncr (some p) = .ok pend ∧
      (∀ itr, d.Iterator s (some p) pend = (itr, none) →
        PrefixDB.Iterator d npi ⟨some p, s⟩ none none = .ok (npi (some p) none none itr)) ∧
      (∀ itr, d.ReverseIterator s (some p) pend = (itr, none) →
        PrefixDB.ReverseIterator d npi ⟨some p, s⟩ none none =
          .ok (npi (some p) none none itr)) ∧
      ∀ x : Bytes, IsKeyInDomain x (some p) pend = true →
        (p <+: x.getD [] ∨
          ∃ pre b n m, p = pre ++ b :: List.replicate n 0xFF ∧ b < 0xFF ∧ m < n ∧
            x.getD [] = pre ++ (b + 1) :: List.replicate m 0) ∧
        (p.length ≤ len x → p <+: x.getD []) ∧
        (p.getLast? ≠ some 0xFF → p <+: x.getD []) := by
  have hc := cpIncr_eq_incrSpec p hp
  have hb : ¬ (((none : Bytes) ≠ none ∧ len none = 0) ∨ ((none : Bytes) ≠ none ∧ len none = 0)) := by
    simp
  have hpend : (if (none : Bytes) = none then cpIncr (PrefixDB.mk (some p) s).pfx
      else .ok (append (cp (PrefixDB.mk (some p) s).pfx) none)) = Except.ok (incrSpec p) := by
    simp [hc]
  have hps : append (cp (some p)) none = some p := by simp [append, cp]
  refine ⟨incrSpec p, hc, ?_, ?_, ?_⟩
  · intro itr h
    have := (Iterator_eval d npi ⟨some p, s⟩ none none (incrSpec p) hb hpend).1 itr
    simp only [hps] at this
    exact this h
  · intro itr h
    have := (ReverseIterator_eval d npi ⟨some p, s⟩ none none (incrSpec p) hb hpend).1 itr
    simp only [hps] at this
    exact this h
  · intro x hx
    rw [IsKeyInDomain_iff] at hx
    obtain ⟨hge, hlt⟩ := hx
    have hge' : 0 ≤ bytes.compareList (x.getD []) p := hge
    have key : p <+: x.getD [] ∨
        ∃ pre b n m, p = pre ++ b :: List.replicate n 0xFF ∧ b < 0xFF ∧ m < n ∧
          x.getD [] = pre ++ (b + 1) :: List.replicate m 0 := by
      cases hq : incrSpec p with
      | none => exact Or.inl (prefix_of_ge_of_incrSpec_none p _ hq hge')
      | some q =>
        rw [hq] at hlt
        rcases hlt with hlt | hlt
        · cases hlt
        · exact range_of_incrSpec_some p q _ hq hge' hlt
    refine ⟨key, ?_, ?_⟩
    · intro hlen
      rcases key with h | ⟨pre, b, n, m, e1, _, e3, e4⟩
      · exact h
      · have := length_lt_of_exceptional pre b (b + 1) n m e3
        rw [← e1, ← e4] at this
        unfold len at hlen
        omega
    · intro hlast
      rcases key with h | ⟨pre, b, n, m, e1, _, e3, _⟩
      · exact h
      · exact absurd (by rw [e1]; exact getLast?_of_trailing_ff pre b n (by omega)) hlast

/-- C1, witness: prefix `"ns:"`; the key `"ns2:b"` is outside the range. -/
theorem unbounded_range_keys_witness :
    ([0x6E, 0x73, 0x3A] : List Byte) ≠ [] ∧
    IsKeyInDomain (some [0x6E, 0x73, 0x32, 0x3A, 0x62]) (some [0x6E, 0x73, 0x3A])
      (some [0x6E, 0x73, 0x3B]) = false := by
  refine ⟨by decide, ?_⟩
  obtain ⟨pend, h1, -, -, h4⟩ :=
    unbounded_range_keys mapDB recordPrefixIterator (fun _ => none) [0x6E, 0x73, 0x3A]
      (by decide)
  have h : cpIncr (some [0x6E, 0x73, 0x3A]) = .ok (some [0x6E, 0x73, 0x3B]) := by decide
  rw [h] at h1
  cases h1
  cases hk : IsKeyInDomain (some [0x6E, 0x73, 0x32, 0x3A, 0x62]) (some [0x6E, 0x73, 0x3A])
      (some [0x6E, 0x73, 0x3B]) with
  | false => rfl
  | true => exact absurd ((h4 _ hk).2.1 (by decide)) (by decide)

/-- C2: for a non-empty `bz`, `cpIncr bz` is `nil` exactly when every byte of
`bz` is `0xFF`; otherwise it is a sequence of the same length whose big-endian
value is that of `bz` plus one: the last byte that is not `0xFF` is
incremented, the bytes after it become `0x00`, the bytes before it are kept. -/
theorem cpIncr_big_endian_successor (bz : List Byte) (h : bz ≠ []) :
    (cpIncr (some bz) = .ok none ↔ ∀ b ∈ bz, b = 0xFF) ∧
    ((¬ ∀ b ∈ bz, b = 0xFF) →
      ∃ q pre b n, cpIncr (some bz) = .ok (some q) ∧ q.length = bz.length ∧
        beValue q = beValue bz + 1 ∧
        bz = pre ++ b :: List.replicate n 0xFF ∧ b < 0xFF ∧
        q = pre ++ (b + 1) :: List.replicate n 0) := by
  rw [cpIncr_eq_incrSpec bz h]
  constructor
  · rw [← incrSpec_none_iff]
    constructor
    · intro e; exact Except.ok.inj e
    · intro e; rw [e]
  · intro hne
    cases hq : incrSpec bz with
    | none => exact absurd ((incrSpec_none_iff bz).mp hq) hne
    | some q =>
      obtain ⟨pre, b, n, e1, e2, e3⟩ := incrSpec_some_shape bz q hq
      refine ⟨q, pre, b, n, rfl, ?_, ?_, e1, e2, e3⟩
      · rw [e1, e3]; simp
      · rw [e1, e3]; exact beValue_succ pre b n e2

/-- C2, witness: `cpIncr [01 FF] = [02 00]` and `cpIncr [FF FF] = nil`. -/
theorem cpIncr_big_endian_successor_witness :
    cpIncr (some [0x01, 0xFF]) = .ok (some [0x02, 0x00]) ∧
    cpIncr (some [0xFF, 0xFF]) = .ok none :=
  ⟨by decide, (cpIncr_big_endian_successor [0xFF, 0xFF] (by decide)).1.mpr (by simp)⟩

/-- C3: for a non-empty prefix `p` and any `k`, `cpIncr p` returns a bound and
the physical key `p ++ k` lies in the range from `p` to that bound. -/
theorem own_keyspace_in_unbounded_range (p : List Byte) (hp : p ≠ []) (k : List Byte) :
    ∃ pend, cpIncr (some p) = .ok pend ∧
      IsKeyInDomain (some (p ++ k)) (some p) pend = true := by
  refine ⟨incrSpec p, cpIncr_eq_incrSpec p hp, ?_⟩
  rw [IsKeyInDomain_iff]
  refine ⟨compareList_append_self p k, ?_⟩
  cases hq : incrSpec p with
  | none => exact Or.inl rfl
  | some q => exact Or.inr (incrSpec_gt_append p q k hq)

/-- C3, witness: prefix `"ns:"` and logical key `"a"`: the key `"ns:a"` lies in
the range from `"ns:"` to `"ns;"`. -/
theorem own_keyspace_in_unbounded_range_witness :
    ([0x6E, 0x73, 0x3A] : List Byte) ≠ [] ∧
    IsKeyInDomain (some [0x6E, 0x73, 0x3A, 0x61]) (some [0x6E, 0x73, 0x3A])
      (some [0x6E, 0x73, 0x3B]) = true := by
  refine ⟨by decide, ?_⟩
  obtain ⟨pend, h1, h2⟩ :=
    own_keyspace_in_unbounded_range [0x6E, 0x73, 0x3A] (by decide) [0x61]
  have h : cpIncr (some [0x6E, 0x73, 0x3A]) = .ok (some [0x6E, 0x73, 0x3B]) := by decide
  rw [h] at h1
  cases h1
  exact h2

/-- C4: for a non-empty prefix `p` of `0xFF` bytes only, `cpIncr p` is `nil`,
every sequence not below `p` in byte order begins with `p`, and the range
`[p, nil)` holds exactly the keys that begin with `p`. -/
theorem overflow_range_exact (p : List Byte) (hp : p ≠ []) (hff : ∀ b ∈ p, b = 0xFF) :
    cpIncr (some p) = .ok none ∧
    ∀ x : Bytes, (0 ≤ bytes.Compare x (some p) → p <+: x.getD []) ∧
      (IsKeyInDomain x (some p) none = true ↔ p <+: x.getD []) := by
  have hn : incrSpec p = none := (incrSpec_none_iff p).mpr hff
  refine ⟨by rw [cpIncr_eq_incrSpec p hp, hn], ?_⟩
  intro x
  have h1 : 0 ≤ bytes.Compare x (some p) → p <+: x.getD [] :=
    fun hge => prefix_of_ge_of_incrSpec_none p _ hn hge
  refine ⟨h1, ?_⟩
  rw [IsKeyInDomain_iff]
  constructor
  · intro h; exact h1 h.1
  · rintro ⟨k, hk⟩
    refine ⟨?_, Or.inl rfl⟩
    show 0 ≤ bytes.compareList (x.getD []) p
    rw [← hk]
    exact compareList_append_self p k

/-- C4, witness: prefix `FF FF`; the key `FF FF 00` is in the unbounded range. -/
theorem overflow_range_exact_witness :
    cpIncr (some [0xFF, 0xFF]) = .ok none ∧
    (IsKeyInDomain (some [0xFF, 0xFF, 0x00]) (some [0xFF, 0xFF]) none = true ↔
      [0xFF, 0xFF] <+: (some ([0xFF, 0xFF, 0x00] : List Byte)).getD []) :=
  ⟨(overflow_range_exact [0xFF, 0xFF] (by decide) (by simp)).1,
    ((overflow_range_exact [0xFF, 0xFF] (by decide) (by simp)).2
      (some [0xFF, 0xFF, 0x00])).2⟩

/-- C5: for a non-empty prefix `p`, a start that is `nil` or non-empty and a
non-empty end `e`, the iterators of the `PrefixDB` query the wrapped store with
`pstart = p ++ start` and `pend = p ++ e`, and a physical key lies in
`[pstart, pend)` exactly when it is `p ++ k` for a `k` in `[start, e)`. -/
theorem bounded_range_translation_exact {σ ι κ : Type} (d : DB σ ι)
    (npi : Bytes → Bytes → Bytes → ι → Option κ × Option Error) (s : σ)
    (p : List Byte) (hp : p ≠ []) (start : Bytes) (hs : start = none ∨ 0 < len start)
    (e : List Byte) (he : e ≠ []) :
    (∀ itr, d.Iterator s (some (p ++ start.getD [])) (some (p ++ e)) = (itr, none) →
      PrefixDB.Iterator d npi ⟨some p, s⟩ start (some e) =
        .ok (npi (some p) start (some e) itr)) ∧
    (∀ itr, d.ReverseIterator s (some (p ++ start.getD [])) (some (p ++ e)) = (itr, none) →
      PrefixDB.ReverseIterator d npi ⟨some p, s⟩ start (some e) =
        .ok (npi (some p) start (some e) itr)) ∧
    ∀ x : Bytes, IsKeyInDomain x (some (p ++ start.getD [])) (some (p ++ e)) = true ↔
      ∃ k, x = some (p ++ k) ∧ IsKeyInDomain (some k) start (some e) = true := by
  have hel : e.length ≠ 0 := by simpa using he
  have hb : ¬ ((start ≠ none ∧ len start = 0) ∨
      ((some e : Bytes) ≠ none ∧ len (some e) = 0)) := by
    rintro (⟨h1, h2⟩ | ⟨_, h2⟩)
    · rcases hs with h | h
      · exact h1 h
      · omega
    · exact hel h2
  have hpend : (if (some e : Bytes) = none then cpIncr (PrefixDB.mk (some p) s).pfx
      else .ok (append (cp (PrefixDB.mk (some p) s).pfx) (some e))) =
        Except.ok (some (p ++ e)) := by
    simp [append, cp]
  have hps : append (cp (some p)) start = some (p ++ start.getD []) := by simp [append, cp]
  refine ⟨?_, ?_, ?_⟩
  · intro itr h
    have := (Iterator_eval d npi ⟨some p, s⟩ start (some e) _ hb hpend).1 itr
    simp only [hps] at this
    exact this h
  · intro itr h
    have := (ReverseIterator_eval d npi ⟨some p, s⟩ start (some e) _ hb hpend).1 itr
    simp only [hps] at this
    exact this h
  · intro x
    rw [IsKeyInDomain_iff]
    constructor
    · rintro ⟨hge, hlt⟩
      rcases hlt with hlt | hlt
      · cases hlt
      · have hge' : 0 ≤ bytes.compareList (x.getD []) (p ++ start.getD []) := hge
        have hlt' : 0 < bytes.compareList (p ++ e) (x.getD []) := hlt
        obtain ⟨k, hk⟩ := prefix_of_between p _ e _ hge' hlt'
        refine ⟨k, ?_, ?_⟩
        · cases x with
          | none =>
            simp only [Option.getD_none] at hk
            have : p = [] := (List.append_eq_nil.mp hk).1
            exact absurd this hp
          | some l => simp only [Option.getD_some] at hk; rw [hk]
        · rw [IsKeyInDomain_iff]
          rw [← hk, compareList_append_left] at hge' hlt'
          exact ⟨hge', Or.inr hlt'⟩
    · rintro ⟨k, rfl, hk⟩
      rw [IsKeyInDomain_iff] at hk
      obtain ⟨hge, hlt⟩ := hk
      rcases hlt with hlt | hlt
      · cases hlt
      · refine ⟨?_, Or.inr ?_⟩
        · show 0 ≤ bytes.compareList (p ++ k) (p ++ start.getD [])
          rw [compareList_append_left]
          exact hge
        · show 0 < bytes.compareList (p ++ e) (p ++ k)
          rw [compareList_append_left]
          exact hlt

/-- C5, witness: prefix `"ns:"` and the logical range `["a", "d")` over the map
store: the wrapped iterator gets the domain `["ns:a", "ns:d")`, the key `"ns:b"`
is in the physical range and the key `"ns:d"` is not. -/
theorem bounded_range_translation_exact_witness :
    PrefixDB.Iterator mapDB recordPrefixIterator ⟨some [0x6E, 0x73, 0x3A], fun _ => none⟩
        (some [0x61]) (some [0x64]) =
      .ok (some (some [0x6E, 0x73, 0x3A], some [0x61], some [0x64],
        (some [0x6E, 0x73, 0x3A, 0x61], some [0x6E, 0x73, 0x3A, 0x64])), none) ∧
    IsKeyInDomain (some [0x6E, 0x73, 0x3A, 0x62]) (some [0x6E, 0x73, 0x3A, 0x61])
      (some [0x6E, 0x73, 0x3A, 0x64]) = true :=
  ⟨(bounded_range_translation_exact mapDB recordPrefixIterator (fun _ => none)
      [0x6E, 0x73, 0x3A] (by decide) (some [0x61]) (Or.inr (by decide)) [0x64]
      (by decide)).1 _ rfl,
    ((bounded_range_translation_exact mapDB recordPrefixIterator (fun _ => none)
      [0x6E, 0x73, 0x3A] (by decide) (some [0x61]) (Or.inr (by decide)) [0x64]
      (by decide)).2.2 (some [0x6E, 0x73, 0x3A, 0x62])).mpr ⟨[0x62], rfl, by decide⟩⟩

/-! ### Point operations of `PrefixDB` -/

theorem prefixed_eq {σ : Type} (pdb : PrefixDB σ) (key : Bytes) :
    pdb.prefixed key = some (pdb.pfx.getD [] ++ key.getD []) := by
  simp [PrefixDB.prefixed, append, cp]

theorem mapDB_mapLike : MapLike mapDB where
  get_set := by
    intro s s' key value hk hv h
    have hk' : len key ≠ 0 := by omega
    simp only [mapDB, if_neg hk', if_neg hv, Prod.mk.injEq, and_true] at h
    simp [mapDB, hk', ← h]
  get_set_other := by
    intro s s' key value k' h hne
    by_cases hk : len key = 0
    · simp [mapDB, hk] at h
    · by_cases hv : value = none
      · simp [mapDB, hk, hv] at h
      · simp only [mapDB, if_neg hk, if_neg hv, Prod.mk.injEq, and_true] at h
        simp [mapDB, ← h, Function.update_noteq hne]
  get_delete := by
    intro s s' key hk h
    have hk' : len key ≠ 0 := by omega
    simp only [mapDB, if_neg hk', Prod.mk.injEq, and_true] at h
    simp [mapDB, hk', ← h]
  has_delete := by
    intro s s' key hk h
    have hk' : len key ≠ 0 := by omega
    simp only [mapDB, if_neg hk', Prod.mk.injEq, and_true] at h
    simp [mapDB, hk', ← h]
  get_delete_other := by
    intro s s' key k' h hne
    by_cases hk : len key = 0
    · simp [mapDB, hk] at h
    · simp only [mapDB, if_neg hk, Prod.mk.injEq, and_true] at h
      simp [mapDB, ← h, Function.update_noteq hne]
  get_deleteSync := by
    intro s s' key hk h
    have hk' : len key ≠ 0 := by omega
    simp only [mapDB, if_neg hk', Prod.mk.injEq, and_true] at h
    simp [mapDB, hk', ← h]
  has_deleteSync := by
    intro s s' key hk h
    have hk' : len key ≠ 0 := by omega
    simp only [mapDB, if_neg hk', Prod.mk.injEq, and_true] at h
    simp [mapDB, hk', ← h]
  get_deleteSync_other := by
    intro s s' key k' h hne
    by_cases hk : len key = 0
    · simp [mapDB, hk] at h
    · simp only [mapDB, if_neg hk, Prod.mk.injEq, and_true] at h
      simp [mapDB, ← h, Function.update_noteq hne]

theorem len_prefixed_pos {σ : Type} (pdb : PrefixDB σ) (key : Bytes) (hk : 0 < len key) :
    0 < len (some (pdb.pfx.getD [] ++ key.getD [])) := by
  unfold len at hk ⊢
  simp only [Option.getD_some, List.length_append]
  omega

/-- C6: over a wrapped store that behaves as a map, after a successful
`PrefixDB.Set(k, v)` with a non-empty `k` and a `v` that is not `nil`, a direct
`Get(p ++ k)` on the wrapped store returns `v`, `PrefixDB.Get(k)` returns `v`,
and every other physical key of the wrapped store reads as before. -/
theorem prefixdb_set_then_get {σ ι : Type} (d : DB σ ι) (hd : MapLike d)
    (pdb pdb' : PrefixDB σ) (k v : Bytes) (hk : 0 < len k) (hv : v ≠ none)
    (hset : PrefixDB.Set d pdb k v = (pdb', none)) :
    pdb'.pfx = pdb.pfx ∧
    d.Get pdb'.db (some (pdb.pfx.getD [] ++ k.getD [])) = (v, none) ∧
    PrefixDB.Get d pdb' k = (v, none) ∧
    ∀ k' : Bytes, k'.getD [] ≠ pdb.pfx.getD [] ++ k.getD [] →
      d.Get pdb'.db k' = d.Get pdb.db k' := by
  have hk' : len k ≠ 0 := by omega
  unfold PrefixDB.Set at hset
  rw [if_neg hk', if_neg hv, prefixed_eq] at hset
  cases hr : d.Set pdb.db (some (pdb.pfx.getD [] ++ k.getD [])) v with
  | mk s' err =>
    simp only [hr] at hset
    cases err with
    | some e => simp at hset
    | none =>
      simp only [Prod.mk.injEq, and_true] at hset
      subst hset
      have hget := hd.get_set _ _ _ _ (len_prefixed_pos pdb k hk) hv hr
      refine ⟨rfl, hget, ?_, ?_⟩
      · unfold PrefixDB.Get
        rw [if_neg hk', prefixed_eq]
        simp only [hget]
      · intro k' hne
        exact hd.get_set_other _ _ _ _ k' hr hne

/-- C6, witness: prefix `"ns:"` over the empty map store; after `Set("a", "1")`
the wrapped `Get("ns:a")` and `PrefixDB.Get("a")` return `"1"`. -/
theorem prefixdb_set_then_get_witness :
    mapDB.Get (PrefixDB.Set mapDB ⟨some [0x6E, 0x73, 0x3A], fun _ => none⟩
        (some [0x61]) (some [0x31])).1.db (some [0x6E, 0x73, 0x3A, 0x61]) =
      (some [0x31], none) ∧
    PrefixDB.Get mapDB (PrefixDB.Set mapDB ⟨some [0x6E, 0x73, 0x3A], fun _ => none⟩
        (some [0x61]) (some [0x31])).1 (some [0x61]) = (some [0x31], none) :=
  ⟨(prefixdb_set_then_get mapDB mapDB_mapLike ⟨some [0x6E, 0x73, 0x3A], fun _ => none⟩ _
      (some [0x61]) (some [0x31]) (by decide) (by decide) rfl).2.1,
    (prefixdb_set_then_get mapDB mapDB_mapLike ⟨some [0x6E, 0x73, 0x3A], fun _ => none⟩ _
      (some [0x61]) (some [0x31]) (by decide) (by decide) rfl).2.2.1⟩

/-- C7: over a wrapped store that behaves as a map, after a successful
`PrefixDB.Delete(k)` or `DeleteSync(k)` with a non-empty `k`, `PrefixDB.Get(k)`
returns `(nil, nil)` and `PrefixDB.Has(k)` returns `false`, whatever the store
held before, and every physical key other than `p ++ k` reads as before. -/
theorem prefixdb_delete_then_absent {σ ι : Type} (d : DB σ ι) (hd : MapLike d)
    (pdb pdb' : PrefixDB σ) (k : Bytes) (hk : 0 < len k)
    (hdel : PrefixDB.Delete d pdb k = (pdb', none) ∨
      PrefixDB.DeleteSync d pdb k = (pdb', none)) :
    pdb'.pfx = pdb.pfx ∧
    PrefixDB.Get d pdb' k = (none, none) ∧
    PrefixDB.Has d pdb' k = (false, none) ∧
    ∀ k' : Bytes, k'.getD [] ≠ pdb.pfx.getD [] ++ k.getD [] →
      d.Get pdb'.db k' = d.Get pdb.db k' := by
  have hk' : len k ≠ 0 := by omega
  have hp := len_prefixed_pos pdb k hk
  rcases hdel with hdel | hdel
  · unfold PrefixDB.Delete at hdel
    rw [if_neg hk', prefixed_eq] at hdel
    cases hr : d.Delete pdb.db (some (pdb.pfx.getD [] ++ k.getD [])) with
    | mk s' err =>
      rw [hr] at hdel
      simp only [Prod.mk.injEq] at hdel
      obtain ⟨h1, h2⟩ := hdel
      subst h1
      subst h2
      refine ⟨rfl, ?_, ?_, ?_⟩
      · unfold PrefixDB.Get
        rw [if_neg hk', prefixed_eq]
        simp only [hd.get_delete _ _ _ hp hr]
      · unfold PrefixDB.Has
        rw [if_neg hk', prefixed_eq]
        simp only [hd.has_delete _ _ _ hp hr]
      · intro k' hne
        exact hd.get_delete_other _ _ _ k' hr hne
  · unfold PrefixDB.DeleteSync at hdel
    rw [if_neg hk', prefixed_eq] at hdel
    cases hr : d.DeleteSync pdb.db (some (pdb.pfx.getD [] ++ k.getD [])) with
    | mk s' err =>
      rw [hr] at hdel
      simp only [Prod.mk.injEq] at hdel
      obtain ⟨h1, h2⟩ := hdel
      subst h1
      subst h2
      refine ⟨rfl, ?_, ?_, ?_⟩
      · unfold PrefixDB.Get
        rw [if_neg hk', prefixed_eq]
        simp only [hd.get_deleteSync _ _ _ hp hr]
      · unfold PrefixDB.Has
        rw [if_neg hk', prefixed_eq]
        simp only [hd.has_deleteSync _ _ _ hp hr]
      · intro k' hne
        exact hd.get_deleteSync_other _ _ _ k' hr hne

/-- C7, witness: prefix `"ns:"` over a map store that holds `"ns:a"`; after
`Delete("a")` the key reads as absent. -/
theorem prefixdb_delete_then_absent_witness :
    PrefixDB.Get mapDB (PrefixDB.Delete mapDB
        ⟨some [0x6E, 0x73, 0x3A], fun k => if k = [0x6E, 0x73, 0x3A, 0x61] then some [0x31] else none⟩
        (some [0x61])).1 (some [0x61]) = (none, none) ∧
    PrefixDB.Has mapDB (PrefixDB.Delete mapDB
        ⟨some [0x6E, 0x73, 0x3A], fun k => if k = [0x6E, 0x73, 0x3A, 0x61] then some [0x31] else none⟩
        (some [0x61])).1 (some [0x61]) = (false, none) :=
  ⟨(prefixdb_delete_then_absent mapDB mapDB_mapLike
      ⟨some [0x6E, 0x73, 0x3A], fun k => if k = [0x6E, 0x73, 0x3A, 0x61] then some [0x31] else none⟩
      _ (some [0x61]) (by decide) (Or.inl rfl)).2.1,
    (prefixdb_delete_then_absent mapDB mapDB_mapLike
      ⟨some [0x6E, 0x73, 0x3A], fun k => if k = [0x6E, 0x73, 0x3A, 0x61] then some [0x31] else none⟩
      _ (some [0x61]) (by decide) (Or.inl rfl)).2.2.1⟩

/-! ### The `pebble` backend -/

/-- C8, evaluation at the failing input: a forward `pebble` iterator whose
cursor is on the key `D` and whose end bound is `D` answers `Valid() = true`,
and over the keys `A, B, C, D, E` the forward iteration of `[A, D)` visits
`A, B, C, D`. -/
theorem pebble_forward_iterator_includes_end :
    (pebble.pebbleDBIterator.Valid
      { iter := { entries := [([0x43], [0x03]), ([0x44], [0x04])], pos := 1, err := none },
        start := some [0x41], end_ := some [0x44], isReverse := false,
        isInvalid := false }).1 = true ∧
    (pebble.pebbleDB.Iterator
      ⟨⟨[([0x41], [0x01]), ([0x42], [0x02]), ([0x43], [0x03]), ([0x44], [0x04]),
        ([0x45], [0x05])], none⟩⟩ (some [0x41]) (some [0x44])).1.bind
        (pebble.pebbleDBIterator.drain 8) =
      some (.ok [some [0x41], some [0x42], some [0x43], some [0x44]]) := by
  decide

theorem pebble_write_keeps_store (b : pebble.pebbleDBBatch) (db : pebble.pebbleDB)
    (sync : Bool) : (b.write db sync).2.1 = db := by
  unfold pebble.pebbleDBBatch.write Engine.Flush
  cases b.batch with
  | none => rfl
  | some ops => cases db.db.fault <;> rfl

/-- C9, evaluation at the failing input: on an empty `pebble` store, a batch
holding only `Set("a", "1")` is written without error, the store is what it
was before, and `Get("a")` returns `(nil, nil)`. -/
theorem pebble_batch_write_applies_nothing :
    ((pebble.newPebbleDBBatch.Set (some [0x61]) (some [0x31])).1.Write ⟨⟨[], none⟩⟩).2.2 = none ∧
    ((pebble.newPebbleDBBatch.Set (some [0x61]) (some [0x31])).1.Write ⟨⟨[], none⟩⟩).2.1.db.entries
      = [] ∧
    pebble.pebbleDB.Get
      ((pebble.newPebbleDBBatch.Set (some [0x61]) (some [0x31])).1.Write ⟨⟨[], none⟩⟩).2.1
      (some [0x61]) = (none, none) := by
  decide

/-! ### The batch of the `boltdb` backend -/

theorem Entries.get_put_same (es : Entries) (k v : List Byte) :
    (es.put k v).get k = some v := by
  induction es with
  | nil => simp [Entries.put, Entries.get]
  | cons e rest ih =>
    obtain ⟨k', v'⟩ := e
    unfold Entries.put
    by_cases h1 : k = k'
    · simp [h1, Entries.get]
    · rw [if_neg h1]
      by_cases h2 : bytes.compareList k k' < 0
      · simp [h2, Entries.get]
      · rw [if_neg h2, Entries.get, if_neg h1]
        exact ih

theorem Entries.get_put_other (es : Entries) (k v k2 : List Byte) (hne : k2 ≠ k) :
    (es.put k v).get k2 = es.get k2 := by
  induction es with
  | nil => simp [Entries.put, Entries.get, hne]
  | cons e rest ih =>
    obtain ⟨k', v'⟩ := e
    unfold Entries.put
    by_cases h1 : k = k'
    · subst h1
      simp [Entries.get, hne]
    · rw [if_neg h1]
      by_cases h2 : bytes.compareList k k' < 0
      · simp [h2, Entries.get, hne]
      · rw [if_neg h2, Entries.get, Entries.get, ih]

theorem Entries.get_erase_same (es : Entries) (k : List Byte) :
    (es.erase k).get k = none := by
  induction es with
  | nil => rfl
  | cons e rest ih =>
    obtain ⟨k', v'⟩ := e
    unfold Entries.erase at ih ⊢
    by_cases h : k' = k
    · simpa [List.filter, h] using ih
    · have h' : ¬ k = k' := fun e => h e.symm
      simpa [List.filter, h, Entries.get, h'] using ih

theorem Entries.get_erase_other (es : Entries) (k k2 : List Byte) (hne : k2 ≠ k) :
    (es.erase k).get k2 = es.get k2 := by
  induction es with
  | nil => rfl
  | cons e rest ih =>
    obtain ⟨k', v'⟩ := e
    unfold Entries.erase at ih ⊢
    by_cases h : k' = k
    · subst h
      simpa [List.filter, Entries.get, hne] using ih
    · by_cases h3 : k2 = k'
      · simp [List.filter, h, Entries.get, h3]
      · simpa [List.filter, h, Entries.get, h3] using ih

theorem applyOps_eq_replay (ops : List boltdb.operation) :
    ∀ es es' : Entries, boltdb.applyOps ops es = .ok es' → es' = boltdb.replay ops es := by
  induction ops with
  | nil =>
    intro es es' h
    simp only [boltdb.applyOps, Except.ok.injEq] at h
    simp [boltdb.replay, h]
  | cons op ops ih =>
    intro es es' h
    unfold boltdb.applyOps at h
    unfold boltdb.replay
    rw [List.foldl_cons]
    cases hty : op.opType with
    | opTypeSet =>
      simp only [hty] at h ⊢
      unfold Engine.bucketPut at h
      by_cases hk : len op.key = 0
      · simp [hk] at h
      · simp only [if_neg hk] at h
        exact ih _ _ h
    | opTypeDelete =>
      simp only [hty] at h ⊢
      unfold Engine.bucketDelete at h
      exact ih _ _ h

theorem replay_snoc (ops : List boltdb.operation) (op : boltdb.operation) (es : Entries) :
    boltdb.replay (ops ++ [op]) es =
      match op.opType with
      | boltdb.opType.opTypeSet => (boltdb.replay ops es).put (op.key.getD []) (op.value.getD [])
      | boltdb.opType.opTypeDelete => (boltdb.replay ops es).erase (op.key.getD []) := by
  unfold boltdb.replay
  rw [List.foldl_append]
  rfl

theorem lastOp_snoc (ops : List boltdb.operation) (op : boltdb.operation) (k : List Byte) :
    boltdb.lastOp (ops ++ [op]) k =
      if op.key.getD [] = k then some op else boltdb.lastOp ops k := by
  unfold boltdb.lastOp
  rw [List.reverse_append, List.reverse_singleton, List.singleton_append, List.find?_cons]
  by_cases h : op.key.getD [] = k <;> simp [h]

theorem get_replay (ops : List boltdb.operation) (es : Entries) (k : List Byte) :
    (boltdb.replay ops es).get k = boltdb.lastWins ops es k := by
  induction ops using List.reverseRecOn with
  | nil => simp [boltdb.replay, boltdb.lastWins, boltdb.lastOp]
  | append_singleton ops op ih =>
    unfold boltdb.lastWins at ih ⊢
    rw [replay_snoc, lastOp_snoc]
    by_cases hk : op.key.getD [] = k
    · rw [if_pos hk]
      cases hty : op.opType with
      | opTypeSet => simp only [hk, hty]; exact Entries.get_put_same _ _ _
      | opTypeDelete => simp only [hk, hty]; exact Entries.get_erase_same _ _
    · rw [if_neg hk]
      have hne : k ≠ op.key.getD [] := fun e => hk e.symm
      cases hty : op.opType with
      | opTypeSet => simp only [hty]; rw [Entries.get_put_other _ _ _ _ hne]; exact ih
      | opTypeDelete => simp only [hty]; rw [Entries.get_erase_other _ _ _ hne]; exact ih

/-- C10: a `Write()` of the `boltdb` batch that returns `nil` leaves the bucket
equal to the replay of the enqueued operations, left to right, on the previous
contents, and closes the batch; a read of any key then sees the last operation
on that key, or the previous value when the batch has no operation on it. -/
theorem boltdb_write_replays_ops (b b' : boltdb.boltDBBatch) (db db' : boltdb.boltDB)
    (h : b.Write db = (b', db', none)) :
    ∃ ops, b.ops = some ops ∧
      db'.db.entries = boltdb.replay ops db.db.entries ∧
      b'.ops = none ∧
      (∀ k : List Byte, db'.db.entries.get k = boltdb.lastWins ops db.db.entries k) ∧
      ∀ key : Bytes, 0 < len key →
        db'.Get key = (boltdb.lastWins ops db.db.entries (key.getD []), none) := by
  unfold boltdb.boltDBBatch.Write at h
  cases hops : b.ops with
  | none => simp [hops] at h
  | some ops =>
    simp only [hops, Engine.Batch] at h
    cases hf : db.db.fault with
    | some err => simp [hf] at h
    | none =>
      simp only [hf] at h
      cases ha : boltdb.applyOps ops db.db.entries with
      | error err => simp [ha] at h
      | ok es =>
        simp only [ha, boltdb.boltDBBatch.Close, Prod.mk.injEq, and_true] at h
        obtain ⟨hb, hdb⟩ := h
        have hes := applyOps_eq_replay ops _ _ ha
        subst hb
        subst hdb
        subst hes
        refine ⟨ops, rfl, rfl, rfl, fun k => get_replay ops _ k, ?_⟩
        intro key hk
        have hk' : len key ≠ 0 := by omega
        simp only [boltdb.boltDB.Get, if_neg hk', hf]
        rw [get_replay]

/-- C10, witness: on a bucket holding `k2`, the batch `Set(k1, v1)`,
`Delete(k2)`, `Set(k1, v2)` is written without error; then `Get(k1)` is `v2` and
`Get(k2)` is absent. -/
theorem boltdb_write_replays_ops_witness :
    ((((boltdb.newBoltDBBatch.Set (some [0x01]) (some [0x11])).1.Delete (some [0x02])).1.Set
        (some [0x01]) (some [0x12])).1.Write ⟨⟨[([0x02], [0x22])], none⟩⟩).2.2 = none ∧
    boltdb.boltDB.Get
      ((((boltdb.newBoltDBBatch.Set (some [0x01]) (some [0x11])).1.Delete (some [0x02])).1.Set
        (some [0x01]) (some [0x12])).1.Write ⟨⟨[([0x02], [0x22])], none⟩⟩).2.1
      (some [0x01]) = (some [0x12], none) ∧
    boltdb.boltDB.Get
      ((((boltdb.newBoltDBBatch.Set (some [0x01]) (some [0x11])).1.Delete (some [0x02])).1.Set
        (some [0x01]) (some [0x12])).1.Write ⟨⟨[([0x02], [0x22])], none⟩⟩).2.1
      (some [0x02]) = (none, none) := by
  obtain ⟨ops, hops, -, -, -, hget⟩ :=
    boltdb_write_replays_ops
      (((boltdb.newBoltDBBatch.Set (some [0x01]) (some [0x11])).1.Delete (some [0x02])).1.Set
        (some [0x01]) (some [0x12])).1
      ((((boltdb.newBoltDBBatch.Set (some [0x01]) (some [0x11])).1.Delete (some [0x02])).1.Set
        (some [0x01]) (some [0x12])).1.Write ⟨⟨[([0x02], [0x22])], none⟩⟩).1
      ⟨⟨[([0x02], [0x22])], none⟩⟩
      ((((boltdb.newBoltDBBatch.Set (some [0x01]) (some [0x11])).1.Delete (some [0x02])).1.Set
        (some [0x01]) (some [0x12])).1.Write ⟨⟨[([0x02], [0x22])], none⟩⟩).2.1 rfl
  have h0 : (((boltdb.newBoltDBBatch.Set (some [0x01]) (some [0x11])).1.Delete
      (some [0x02])).1.Set (some [0x01]) (some [0x12])).1.ops =
      some [⟨boltdb.opType.opTypeSet, some [0x01], some [0x11]⟩,
        ⟨boltdb.opType.opTypeDelete, some [0x02], none⟩,
        ⟨boltdb.opType.opTypeSet, some [0x01], some [0x12]⟩] := by decide
  rw [h0] at hops
  cases hops
  refine ⟨by decide, ?_, ?_⟩
  · rw [hget (some [0x01]) (by decide)]; decide
  · rw [hget (some [0x02]) (by decide)]; decide

/-! ### Closed batches -/

theorem boltdb_closed_batch (b : boltdb.boltDBBatch) (hb : b.ops = none) (db : boltdb.boltDB) :
    b.Write db = (b, db, some Error.ErrBatchClosed) ∧
    b.WriteSync db = (b, db, some Error.ErrBatchClosed) ∧
    (∀ key value : Bytes, 0 < len key → value ≠ none →
      b.Set key value = (b, some Error.ErrBatchClosed)) ∧
    (∀ key : Bytes, 0 < len key → b.Delete key = (b, some Error.ErrBatchClosed)) := by
  refine ⟨?_, ?_, ?_, ?_⟩
  · simp [boltdb.boltDBBatch.Write, hb]
  · simp [boltdb.boltDBBatch.WriteSync, boltdb.boltDBBatch.Write, hb]
  · intro key value hk hv
    have hk' : len key ≠ 0 := by omega
    simp [boltdb.boltDBBatch.Set, hk', hv, hb]
  · intro key hk
    have hk' : len key ≠ 0 := by omega
    simp [boltdb.boltDBBatch.Delete, hk', hb]

theorem goleveldb_closed_batch (b : goleveldb.goLevelDBBatch) (hb : b.batch = none)
    (db : goleveldb.goLevelDB) :
    b.Write db = (b, db, some Error.ErrBatchClosed) ∧
    b.WriteSync db = (b, db, some Error.ErrBatchClosed) ∧
    (∀ key value : Bytes, 0 < len key → value ≠ none →
      b.Set key value = (b, some Error.ErrBatchClosed)) ∧
    (∀ key : Bytes, 0 < len key → b.Delete key = (b, some Error.ErrBatchClosed)) := by
  refine ⟨?_, ?_, ?_, ?_⟩
  · simp [goleveldb.goLevelDBBatch.Write, goleveldb.goLevelDBBatch.write, hb]
  · simp [goleveldb.goLevelDBBatch.WriteSync, goleveldb.goLevelDBBatch.write, hb]
  · intro key value hk hv
    have hk' : len key ≠ 0 := by omega
    simp [goleveldb.goLevelDBBatch.Set, hk', hv, hb]
  · intro key hk
    have hk' : len key ≠ 0 := by omega
    simp [goleveldb.goLevelDBBatch.Delete, hk', hb]

theorem pebble_closed_batch (b : pebble.pebbleDBBatch) (hb : b.batch = none)
    (db : pebble.pebbleDB) :
    b.Write db = (b, db, some Error.ErrBatchClosed) ∧
    b.WriteSync db = (b, db, some Error.ErrBatchClosed) ∧
    (∀ key value : Bytes, 0 < len key → value ≠ none →
      b.Set key value = (b, some Error.ErrBatchClosed)) ∧
    (∀ key : Bytes, 0 < len key → b.Delete key = (b, some Error.ErrBatchClosed)) := by
  refine ⟨?_, ?_, ?_, ?_⟩
  · simp [pebble.pebbleDBBatch.Write, pebble.pebbleDBBatch.write, hb]
  · simp [pebble.pebbleDBBatch.WriteSync, pebble.pebbleDBBatch.write, hb]
  · intro key value hk hv
    have hk' : len key ≠ 0 := by omega
    simp [pebble.pebbleDBBatch.Set, hk', hv, hb]
  · intro key hk
    have hk' : len key ≠ 0 := by omega
    simp [pebble.pebbleDBBatch.Delete, hk', hb]

theorem boltdb_write_closes (b b' : boltdb.boltDBBatch) (db db' : boltdb.boltDB)
    (h : b.Write db = (b', db', none)) : b'.ops = none := by
  unfold boltdb.boltDBBatch.Write at h
  cases hops : b.ops with
  | none => simp [hops] at h
  | some ops =>
    simp only [hops] at h
    cases hr : db.db.Batch (boltdb.applyOps ops) with
    | mk e err =>
      cases err with
      | some x => simp [hr] at h
      | none =>
        simp only [hr, boltdb.boltDBBatch.Close, Prod.mk.injEq, and_true] at h
        rw [← h.1]

theorem goleveldb_write_closes (b b' : goleveldb.goLevelDBBatch) (db db' : goleveldb.goLevelDB)
    (sync : Bool) (h : b.write db sync = (b', db', none)) : b'.batch = none := by
  unfold goleveldb.goLevelDBBatch.write at h
  cases hops : b.batch with
  | none => simp [hops] at h
  | some ops =>
    simp only [hops] at h
    cases hr : db.db.Write ops with
    | mk e err =>
      cases err with
      | some x => simp [hr] at h
      | none =>
        simp only [hr, goleveldb.goLevelDBBatch.Close, hops, Prod.mk.injEq, and_true] at h
        rw [← h.1]

theorem pebble_write_closes (b b' : pebble.pebbleDBBatch) (db db' : pebble.pebbleDB)
    (sync : Bool) (h : b.write db sync = (b', db', none)) : b'.batch = none := by
  unfold pebble.pebbleDBBatch.write at h
  cases hops : b.batch with
  | none => simp [hops] at h
  | some ops =>
    simp only [hops] at h
    cases hr : db.db.Flush with
    | mk e err =>
      cases err with
      | some x => simp [hr] at h
      | none =>
        simp only [hr, pebble.pebbleDBBatch.Close, hops, Prod.mk.injEq, and_true] at h
        rw [← h.1]

theorem goleveldb_close_closes (b : goleveldb.goLevelDBBatch) :
    (b.Close).1.batch = none ∧ (b.Close).2 = none := by
  unfold goleveldb.goLevelDBBatch.Close
  cases h : b.batch <;> simp [h]

theorem pebble_close_closes (b : pebble.pebbleDBBatch) :
    (b.Close).1.batch = none ∧ (b.Close).2 = none := by
  unfold pebble.pebbleDBBatch.Close
  cases h : b.batch <;> simp [h]

/-- C11: for the `boltdb`, `goleveldb` and `pebble` batches, after a `Write()`
or `WriteSync()` that returned `nil`, or after `Close()`, every further
`Write()` and `WriteSync()` returns `ErrBatchClosed` and leaves the store as it
is, and every further `Set` (non-empty key, value not `nil`) and `Delete`
(non-empty key) returns `ErrBatchClosed` and leaves the batch as it is. The
operations are total functions of the model: none of them panics. -/
theorem batch_at_most_once_commit :
    (∀ (b b' : boltdb.boltDBBatch) (db db' db2 : boltdb.boltDB),
      (b.Write db = (b', db', none) ∨ b.WriteSync db = (b', db', none) ∨ b' = (b.Close).1) →
      b'.Write db2 = (b', db2, some Error.ErrBatchClosed) ∧
      b'.WriteSync db2 = (b', db2, some Error.ErrBatchClosed) ∧
      (∀ key value : Bytes, 0 < len key → value ≠ none →
        b'.Set key value = (b', some Error.ErrBatchClosed)) ∧
      (∀ key : Bytes, 0 < len key → b'.Delete key = (b', some Error.ErrBatchClosed))) ∧
    (∀ (b b' : goleveldb.goLevelDBBatch) (db db' db2 : goleveldb.goLevelDB),
      (b.Write db = (b', db', none) ∨ b.WriteSync db = (b', db', none) ∨ b' = (b.Close).1) →
      b'.Write db2 = (b', db2, some Error.ErrBatchClosed) ∧
      b'.WriteSync db2 = (b', db2, some Error.ErrBatchClosed) ∧
      (∀ key value : Bytes, 0 < len key → value ≠ none →
        b'.Set key value = (b', some Error.ErrBatchClosed)) ∧
      (∀ key : Bytes, 0 < len key → b'.Delete key = (b', some Error.ErrBatchClosed))) ∧
    (∀ (b b' : pebble.pebbleDBBatch) (db db' db2 : pebble.pebbleDB),
      (b.Write db = (b', db', none) ∨ b.WriteSync db = (b', db', none) ∨ b' = (b.Close).1) →
      b'.Write db2 = (b', db2, some Error.ErrBatchClosed) ∧
      b'.WriteSync db2 = (b', db2, some Error.ErrBatchClosed) ∧
      (∀ key value : Bytes, 0 < len key → value ≠ none →
        b'.Set key value = (b', some Error.ErrBatchClosed)) ∧
      (∀ key : Bytes, 0 < len key → b'.Delete key = (b', some Error.ErrBatchClosed))) := by
  refine ⟨?_, ?_, ?_⟩
  · intro b b' db db' db2 h
    apply boltdb_closed_batch
    rcases h with h | h | h
    · exact boltdb_write_closes b b' db db' h
    · exact boltdb_write_closes b b' db db' h
    · rw [h]; rfl
  · intro b b' db db' db2 h
    apply goleveldb_closed_batch
    rcases h with h | h | h
    · exact goleveldb_write_closes b b' db db' false h
    · exact goleveldb_write_closes b b' db db' true h
    · rw [h]; exact (goleveldb_close_closes b).1
  · intro b b' db db' db2 h
    apply pebble_closed_batch
    rcases h with h | h | h
    · exact pebble_write_closes b b' db db' false h
    · exact pebble_write_closes b b' db db' true h
    · rw [h]; exact (pebble_close_closes b).1

/-- C11, witness: a `boltdb` batch with one `Set`, written once on an empty
store; the second `Write()` returns `ErrBatchClosed` and the store keeps the
entry of the first one. -/
theorem batch_at_most_once_commit_witness :
    ((boltdb.newBoltDBBatch.Set (some [0x01]) (some [0x11])).1.Write ⟨⟨[], none⟩⟩).2.2 = none ∧
    (((boltdb.newBoltDBBatch.Set (some [0x01]) (some [0x11])).1.Write ⟨⟨[], none⟩⟩).1.Write
      ((boltdb.newBoltDBBatch.Set (some [0x01]) (some [0x11])).1.Write ⟨⟨[], none⟩⟩).2.1).2.2 =
      some Error.ErrBatchClosed :=
  ⟨by decide,
    by
      rw [(batch_at_most_once_commit.1
        (boltdb.newBoltDBBatch.Set (some [0x01]) (some [0x11])).1
        ((boltdb.newBoltDBBatch.Set (some [0x01]) (some [0x11])).1.Write ⟨⟨[], none⟩⟩).1
        ⟨⟨[], none⟩⟩
        ((boltdb.newBoltDBBatch.Set (some [0x01]) (some [0x11])).1.Write ⟨⟨[], none⟩⟩).2.1
        ((boltdb.newBoltDBBatch.Set (some [0x01]) (some [0x11])).1.Write ⟨⟨[], none⟩⟩).2.1
        (Or.inl rfl)).1]⟩

/-- C13: for the `boltdb`, `goleveldb` and `pebble` batches and any enqueued
operations `ops` of a batch that was not written, `Close()` called twice
returns `nil` both times and leaves the batch closed; `Close()` has no access to
the store, and a `Write()` after it returns `ErrBatchClosed` with the store
unchanged, so no enqueued operation is applied. -/
theorem batch_close_idempotent :
    (∀ (ops : List boltdb.operation) (db : boltdb.boltDB),
      (boltdb.boltDBBatch.Close ⟨some ops⟩).2 = none ∧
      ((boltdb.boltDBBatch.Close ⟨some ops⟩).1.Close).2 = none ∧
      ((boltdb.boltDBBatch.Close ⟨some ops⟩).1.Close).1.ops = none ∧
      ((boltdb.boltDBBatch.Close ⟨some ops⟩).1.Close).1.Write db =
        (⟨none⟩, db, some Error.ErrBatchClosed)) ∧
    (∀ (ops : List BatchOp) (db : goleveldb.goLevelDB),
      (goleveldb.goLevelDBBatch.Close ⟨some ops⟩).2 = none ∧
      ((goleveldb.goLevelDBBatch.Close ⟨some ops⟩).1.Close).2 = none ∧
      ((goleveldb.goLevelDBBatch.Close ⟨some ops⟩).1.Close).1.batch = none ∧
      ((goleveldb.goLevelDBBatch.Close ⟨some ops⟩).1.Close).1.Write db =
        (⟨none⟩, db, some Error.ErrBatchClosed)) ∧
    (∀ (ops : List BatchOp) (db : pebble.pebbleDB),
      (pebble.pebbleDBBatch.Close ⟨some ops⟩).2 = none ∧
      ((pebble.pebbleDBBatch.Close ⟨some ops⟩).1.Close).2 = none ∧
      ((pebble.pebbleDBBatch.Close ⟨some ops⟩).1.Close).1.batch = none ∧
      ((pebble.pebbleDBBatch.Close ⟨some ops⟩).1.Close).1.Write db =
        (⟨none⟩, db, some Error.ErrBatchClosed)) := by
  refine ⟨?_, ?_, ?_⟩
  · intro ops db
    exact ⟨rfl, rfl, rfl, rfl⟩
  · intro ops db
    exact ⟨rfl, rfl, rfl, rfl⟩
  · intro ops db
    exact ⟨rfl, rfl, rfl, rfl⟩

/-! ### Validity of the iterators -/

theorem pebble_Valid_of_isInvalid (it : pebble.pebbleDBIterator) (h : it.isInvalid = true) :
    it.Valid = (false, it) := by
  simp [pebble.pebbleDBIterator.Valid, h]

theorem pebble_isInvalid_of_Valid_false (it : pebble.pebbleDBIterator)
    (h : (it.Valid).1 = false) : (it.Valid).2.isInvalid = true := by
  unfold pebble.pebbleDBIterator.Valid at h ⊢
  by_cases h0 : it.isInvalid = true
  · simp [h0]
  · by_cases h1 : it.Error ≠ none
    · simp [h0, h1]
    · by_cases h2 : (!it.iter.Valid) = true
      · simp [h0, h1, h2]
      · by_cases h3 : it.isReverse = true
        · by_cases h4 : it.start ≠ none ∧ bytes.Compare it.iter.Key it.start < 0
          · simp [h0, h1, h2, h3, h4]
          · simp [h0, h1, h2, h3, h4] at h
        · by_cases h4 : it.end_ ≠ none ∧ bytes.Compare it.end_ it.iter.Key < 0
          · simp [h0, h1, h2, h3, h4]
          · simp [h0, h1, h2, h3, h4] at h

theorem pebble_Valid_snd_iter (it : pebble.pebbleDBIterator) :
    (it.Valid).2.iter = it.iter ∧ (it.Valid).2.start = it.start ∧
      (it.Valid).2.end_ = it.end_ ∧ (it.Valid).2.isReverse = it.isReverse := by
  unfold pebble.pebbleDBIterator.Valid
  dsimp only
  repeat' split
  all_goals exact ⟨rfl, rfl, rfl, rfl⟩

theorem pebble_step_isInvalid (it : pebble.pebbleDBIterator) (h : it.isInvalid = true)
    (ev : IterEvent) : (it.step ev).isInvalid = true := by
  cases ev with
  | valid => simp [pebble.pebbleDBIterator.step, pebble_Valid_of_isInvalid it h, h]
  | next =>
    simp [pebble.pebbleDBIterator.step, pebble.pebbleDBIterator.Next,
      pebble.pebbleDBIterator.assertIsValid, pebble_Valid_of_isInvalid it h, h]
  | key => simpa [pebble.pebbleDBIterator.step] using h
  | value => simpa [pebble.pebbleDBIterator.step] using h
  | engine c => simpa [pebble.pebbleDBIterator.step] using h

theorem pebble_foldl_isInvalid (evs : List IterEvent) :
    ∀ it : pebble.pebbleDBIterator, it.isInvalid = true →
      (evs.foldl pebble.pebbleDBIterator.step it).isInvalid = true := by
  induction evs with
  | nil => intro it h; exact h
  | cons ev evs ih => intro it h; exact ih _ (pebble_step_isInvalid it h ev)

theorem goleveldb_Valid_of_isInvalid (it : goleveldb.goLevelDBIterator)
    (h : it.isInvalid = true) : it.Valid = (false, it) := by
  simp [goleveldb.goLevelDBIterator.Valid, h]

theorem goleveldb_isInvalid_of_Valid_false (it : goleveldb.goLevelDBIterator)
    (h : (it.Valid).1 = false) : (it.Valid).2.isInvalid = true := by
  unfold goleveldb.goLevelDBIterator.Valid at h ⊢
  by_cases h0 : it.isInvalid = true
  · simp [h0]
  · by_cases h1 : it.Error ≠ none
    · simp [h0, h1]
    · by_cases h2 : (!it.iter.Valid) = true
      · simp [h0, h1, h2]
      · by_cases h3 : it.isReverse = true
        · by_cases h4 : it.start ≠ none ∧ bytes.Compare it.iter.Key it.start < 0
          · simp [h0, h1, h2, h3, h4]
          · simp [h0, h1, h2, h3, h4] at h
        · by_cases h4 : it.end_ ≠ none ∧ bytes.Compare it.end_ it.iter.Key ≤ 0
          · simp [h0, h1, h2, h3, h4]
          · simp [h0, h1, h2, h3, h4] at h

theorem goleveldb_step_isInvalid (it : goleveldb.goLevelDBIterator) (h : it.isInvalid = true)
    (ev : IterEvent) : (it.step ev).isInvalid = true := by
  cases ev with
  | valid => simp [goleveldb.goLevelDBIterator.step, goleveldb_Valid_of_isInvalid it h, h]
  | next =>
    simp [goleveldb.goLevelDBIterator.step, goleveldb.goLevelDBIterator.Next,
      goleveldb.goLevelDBIterator.assertIsValid, goleveldb_Valid_of_isInvalid it h, h]
  | key => simpa [goleveldb.goLevelDBIterator.step] using h
  | value => simpa [goleveldb.goLevelDBIterator.step] using h
  | engine c => simpa [goleveldb.goLevelDBIterator.step] using h

theorem goleveldb_foldl_isInvalid (evs : List IterEvent) :
    ∀ it : goleveldb.goLevelDBIterator, it.isInvalid = true →
      (evs.foldl goleveldb.goLevelDBIterator.step it).isInvalid = true := by
  induction evs with
  | nil => intro it h; exact h
  | cons ev evs ih => intro it h; exact ih _ (goleveldb_step_isInvalid it h ev)

theorem boltdb_Valid_of_isInvalid (it : boltdb.boltDBIterator) (h : it.isInvalid = true) :
    it.Valid = (false, it) := by
  simp [boltdb.boltDBIterator.Valid, h]

theorem boltdb_isInvalid_of_Valid_false (it : boltdb.boltDBIterator)
    (h : (it.Valid).1 = false) : (it.Valid).2.isInvalid = true := by
  unfold boltdb.boltDBIterator.Valid at h ⊢
  by_cases h0 : it.isInvalid = true
  · simp [h0]
  · by_cases h1 : it.Error ≠ none
    · simp [h0, h1]
    · by_cases h2 : it.currentKey = none
      · simp [h0, h1, h2]
      · by_cases h3 : it.isReverse = true
        · by_cases h4 : it.start ≠ none ∧ bytes.Compare it.currentKey it.start < 0
          · simp [h0, h1, h2, h3, h4]
          · simp [h0, h1, h2, h3, h4] at h
        · by_cases h4 : it.end_ ≠ none ∧ bytes.Compare it.end_ it.currentKey ≤ 0
          · simp [h0, h1, h2, h3, h4]
          · simp [h0, h1, h2, h3, h4] at h

theorem boltdb_step_isInvalid (it : boltdb.boltDBIterator) (h : it.isInvalid = true)
    (ev : IterEvent) : (it.step ev).isInvalid = true := by
  cases ev with
  | valid => simp [boltdb.boltDBIterator.step, boltdb_Valid_of_isInvalid it h, h]
  | next =>
    simp [boltdb.boltDBIterator.step, boltdb.boltDBIterator.Next,
      boltdb.boltDBIterator.assertIsValid, boltdb_Valid_of_isInvalid it h, h]
  | key =>
    simp [boltdb.boltDBIterator.step, boltdb.boltDBIterator.Key,
      boltdb.boltDBIterator.assertIsValid, boltdb_Valid_of_isInvalid it h, h]
  | value =>
    simp [boltdb.boltDBIterator.step, boltdb.boltDBIterator.Value,
      boltdb.boltDBIterator.assertIsValid, boltdb_Valid_of_isInvalid it h, h]
  | engine c => simpa [boltdb.boltDBIterator.step] using h

theorem boltdb_foldl_isInvalid (evs : List IterEvent) :
    ∀ it : boltdb.boltDBIterator, it.isInvalid = true →
      (evs.foldl boltdb.boltDBIterator.step it).isInvalid = true := by
  induction evs with
  | nil => intro it h; exact h
  | cons ev evs ih => intro it h; exact ih _ (boltdb_step_isInvalid it h ev)

/-- C16: for the `boltdb`, `goleveldb` and `pebble` iterators, once `Valid()`
has returned `false`, it returns `false` after any later history of calls and
of changes of the engine cursor (its position and its error state). -/
theorem iterator_validity_monotonic :
    (∀ (it : boltdb.boltDBIterator) (evs : List IterEvent), (it.Valid).1 = false →
      ((evs.foldl boltdb.boltDBIterator.step (it.Valid).2).Valid).1 = false) ∧
    (∀ (it : goleveldb.goLevelDBIterator) (evs : List IterEvent), (it.Valid).1 = false →
      ((evs.foldl goleveldb.goLevelDBIterator.step (it.Valid).2).Valid).1 = false) ∧
    (∀ (it : pebble.pebbleDBIterator) (evs : List IterEvent), (it.Valid).1 = false →
      ((evs.foldl pebble.pebbleDBIterator.step (it.Valid).2).Valid).1 = false) := by
  refine ⟨?_, ?_, ?_⟩
  · intro it evs h
    rw [boltdb_Valid_of_isInvalid _
      (boltdb_foldl_isInvalid evs _ (boltdb_isInvalid_of_Valid_false it h))]
  · intro it evs h
    rw [goleveldb_Valid_of_isInvalid _
      (goleveldb_foldl_isInvalid evs _ (goleveldb_isInvalid_of_Valid_false it h))]
  · intro it evs h
    rw [pebble_Valid_of_isInvalid _
      (pebble_foldl_isInvalid evs _ (pebble_isInvalid_of_Valid_false it h))]

/-- C16, witness: a forward `goleveldb` iterator past its end bound `D`; after
`Valid()` returned `false` the engine cursor is moved back onto the key `C`,
inside the range, and `Valid()` is still `false`. -/
theorem iterator_validity_monotonic_witness :
    ((goleveldb.goLevelDBIterator.Valid
      { iter := { entries := [([0x43], [0x03]), ([0x44], [0x04])], pos := 1, err := none },
        start := some [0x41], end_ := some [0x44], isReverse := false,
        isInvalid := false }).1 = false) ∧
    ((([IterEvent.engine
          { entries := [([0x43], [0x03]), ([0x44], [0x04])], pos := 0, err := none }].foldl
        goleveldb.goLevelDBIterator.step
        (goleveldb.goLevelDBIterator.Valid
          { iter := { entries := [([0x43], [0x03]), ([0x44], [0x04])], pos := 1, err := none },
            start := some [0x41], end_ := some [0x44], isReverse := false,
            isInvalid := false }).2).Valid).1 = false) :=
  ⟨by decide, iterator_validity_monotonic.2.1 _ _ (by decide)⟩

theorem boltdb_Valid_snd_cursor (it : boltdb.boltDBIterator) :
    (it.Valid).2.iter = it.iter ∧ (it.Valid).2.currentKey = it.currentKey ∧
      (it.Valid).2.currentValue = it.currentValue := by
  unfold boltdb.boltDBIterator.Valid
  repeat' split
  all_goals exact ⟨rfl, rfl, rfl⟩

/-- C17: for the iterators of the four backends, when `Valid()` answers `false`
each of `Next()`, `Key()` and `Value()` panics with "iterator is invalid" and
the engine cursor stays where it is: for `pebble`, `goleveldb` and `badgerdb`
the panic leaves the iterator untouched, for `boltdb` it leaves the iterator as
`Valid()` left it, with the same cursor, key and value. -/
theorem invalid_iterator_panics :
    (∀ it : boltdb.boltDBIterator, (it.Valid).1 = false →
      it.Next = (.error Panic.iteratorInvalid, (it.Valid).2) ∧
      it.Key = (.error Panic.iteratorInvalid, (it.Valid).2) ∧
      it.Value = (.error Panic.iteratorInvalid, (it.Valid).2) ∧
      (it.Valid).2.iter = it.iter ∧ (it.Valid).2.currentKey = it.currentKey ∧
      (it.Valid).2.currentValue = it.currentValue) ∧
    (∀ it : goleveldb.goLevelDBIterator, (it.Valid).1 = false →
      it.Next = .error Panic.iteratorInvalid ∧
      it.Key = .error Panic.iteratorInvalid ∧
      it.Value = .error Panic.iteratorInvalid ∧
      it.step IterEvent.next = it) ∧
    (∀ it : pebble.pebbleDBIterator, (it.Valid).1 = false →
      it.Next = .error Panic.iteratorInvalid ∧
      it.Key = .error Panic.iteratorInvalid ∧
      it.Value = .error Panic.iteratorInvalid ∧
      it.step IterEvent.next = it) ∧
    (∀ i : badgerdb.badgerDBIterator, i.Valid = false →
      i.Next = .error Panic.iteratorInvalid ∧
      i.Key = .error Panic.iteratorInvalid ∧
      i.Value = .error Panic.iteratorInvalid) := by
  refine ⟨?_, ?_, ?_, ?_⟩
  · intro it h
    have hc := boltdb_Valid_snd_cursor it
    refine ⟨?_, ?_, ?_, hc.1, hc.2.1, hc.2.2⟩
    · simp [boltdb.boltDBIterator.Next, boltdb.boltDBIterator.assertIsValid, h]
    · simp [boltdb.boltDBIterator.Key, boltdb.boltDBIterator.assertIsValid, h]
    · simp [boltdb.boltDBIterator.Value, boltdb.boltDBIterator.assertIsValid, h]
  · intro it h
    have hn : it.Next = .error Panic.iteratorInvalid := by
      simp [goleveldb.goLevelDBIterator.Next, goleveldb.goLevelDBIterator.assertIsValid, h]
    refine ⟨hn, ?_, ?_, ?_⟩
    · simp [goleveldb.goLevelDBIterator.Key, goleveldb.goLevelDBIterator.assertIsValid, h]
    · simp [goleveldb.goLevelDBIterator.Value, goleveldb.goLevelDBIterator.assertIsValid, h]
    · simp [goleveldb.goLevelDBIterator.step, hn]
  · intro it h
    have hn : it.Next = .error Panic.iteratorInvalid := by
      simp [pebble.pebbleDBIterator.Next, pebble.pebbleDBIterator.assertIsValid, h]
    refine ⟨hn, ?_, ?_, ?_⟩
    · simp [pebble.pebbleDBIterator.Key, pebble.pebbleDBIterator.assertIsValid, h]
    · simp [pebble.pebbleDBIterator.Value, pebble.pebbleDBIterator.assertIsValid, h]
    · simp [pebble.pebbleDBIterator.step, hn]
  · intro i h
    refine ⟨?_, ?_, ?_⟩
    · simp [badgerdb.badgerDBIterator.Next, h]
    · simp [badgerdb.badgerDBIterator.Key, h]
    · simp [badgerdb.badgerDBIterator.Value, h]

/-- C17, witness: a forward `boltdb` iterator of `[A, C)` standing on the key
`C`: `Valid()` is `false` and `Next()` panics, the cursor still on `C`. -/
theorem invalid_iterator_panics_witness :
    ((boltdb.boltDBIterator.Valid
      { iter := { entries := [([0x41], [0x01]), ([0x43], [0x03])], pos := 1, err := none },
        start := some [0x41], end_ := some [0x43], currentKey := some [0x43],
        currentValue := some [0x03], isReverse := false, isInvalid := false }).1 = false) ∧
    ((boltdb.boltDBIterator.Next
      { iter := { entries := [([0x41], [0x01]), ([0x43], [0x03])], pos := 1, err := none },
        start := some [0x41], end_ := some [0x43], currentKey := some [0x43],
        currentValue := some [0x03], isReverse := false, isInvalid := false }).1 =
      .error Panic.iteratorInvalid) :=
  ⟨by decide, by rw [(invalid_iterator_panics.1 _ (by decide)).1]⟩

/-! ### Precondition checks of the stores -/

/-- C19: in `PrefixDB` and in the four backends, `Get`, `Has`, `Set`, `SetSync`,
`Delete` and `DeleteSync` called with a zero-length key return `ErrKeyEmpty`
(`Get` with a `nil` value, `Has` with `false`), whatever the value argument, the
wrapped store or the state of the engine, and leave the store as it is. -/
theorem empty_key_rejected {σ ι : Type} (d : DB σ ι) (pdb : PrefixDB σ)
    (bdb : boltdb.boltDB) (gdb : goleveldb.goLevelDB) (pb : pebble.pebbleDB)
    (bg : badgerdb.badgerDB) (key value : Bytes) (hk : len key = 0) :
    (PrefixDB.Get d pdb key = (none, some Error.ErrKeyEmpty) ∧
      PrefixDB.Has d pdb key = (false, some Error.ErrKeyEmpty) ∧
      PrefixDB.Set d pdb key value = (pdb, some Error.ErrKeyEmpty) ∧
      PrefixDB.SetSync d pdb key value = (pdb, some Error.ErrKeyEmpty) ∧
      PrefixDB.Delete d pdb key = (pdb, some Error.ErrKeyEmpty) ∧
      PrefixDB.DeleteSync d pdb key = (pdb, some Error.ErrKeyEmpty)) ∧
    (bdb.Get key = (none, some Error.ErrKeyEmpty) ∧
      bdb.Has key = (false, some Error.ErrKeyEmpty) ∧
      bdb.Set key value = (bdb, some Error.ErrKeyEmpty) ∧
      bdb.SetSync key value = (bdb, some Error.ErrKeyEmpty) ∧
      bdb.Delete key = (bdb, some Error.ErrKeyEmpty) ∧
      bdb.DeleteSync key = (bdb, some Error.ErrKeyEmpty)) ∧
    (gdb.Get key = (none, some Error.ErrKeyEmpty) ∧
      gdb.Has key = (false, some Error.ErrKeyEmpty) ∧
      gdb.Set key value = (gdb, some Error.ErrKeyEmpty) ∧
      gdb.SetSync key value = (gdb, some Error.ErrKeyEmpty) ∧
      gdb.Delete key = (gdb, some Error.ErrKeyEmpty) ∧
      gdb.DeleteSync key = (gdb, some Error.ErrKeyEmpty)) ∧
    (pb.Get key = (none, some Error.ErrKeyEmpty) ∧
      pb.Has key = (false, some Error.ErrKeyEmpty) ∧
      pb.Set key value = (pb, some Error.ErrKeyEmpty) ∧
      pb.SetSync key value = (pb, some Error.ErrKeyEmpty) ∧
      pb.Delete key = (pb, some Error.ErrKeyEmpty) ∧
      pb.DeleteSync key = (pb, some Error.ErrKeyEmpty)) ∧
    (bg.Get key = (none, some Error.ErrKeyEmpty) ∧
      bg.Has key = (false, some Error.ErrKeyEmpty) ∧
      bg.Set key value = (bg, some Error.ErrKeyEmpty) ∧
      bg.SetSync key value = (bg, some Error.ErrKeyEmpty) ∧
      bg.Delete key = (bg, some Error.ErrKeyEmpty) ∧
      bg.DeleteSync key = (bg, some Error.ErrKeyEmpty)) := by
  refine ⟨⟨?_, ?_, ?_, ?_, ?_, ?_⟩, ⟨?_, ?_, ?_, ?_, ?_, ?_⟩, ⟨?_, ?_, ?_, ?_, ?_, ?_⟩,
    ⟨?_, ?_, ?_, ?_, ?_, ?_⟩, ⟨?_, ?_, ?_, ?_, ?_, ?_⟩⟩
  · simp [PrefixDB.Get, hk]
  · simp [PrefixDB.Has, hk]
  · simp [PrefixDB.Set, hk]
  · simp [PrefixDB.SetSync, hk]
  · simp [PrefixDB.Delete, hk]
  · simp [PrefixDB.DeleteSync, hk]
  · simp [boltdb.boltDB.Get, hk]
  · simp [boltdb.boltDB.Has, boltdb.boltDB.Get, hk]
  · simp [boltdb.boltDB.Set, hk]
  · simp [boltdb.boltDB.SetSync, boltdb.boltDB.Set, hk]
  · simp [boltdb.boltDB.Delete, hk]
  · simp [boltdb.boltDB.DeleteSync, boltdb.boltDB.Delete, hk]
  · simp [goleveldb.goLevelDB.Get, hk]
  · simp [goleveldb.goLevelDB.Has, goleveldb.goLevelDB.Get, hk]
  · simp [goleveldb.goLevelDB.Set, hk]
  · simp [goleveldb.goLevelDB.SetSync, hk]
  · simp [goleveldb.goLevelDB.Delete, hk]
  · simp [goleveldb.goLevelDB.DeleteSync, hk]
  · simp [pebble.pebbleDB.Get, hk]
  · simp [pebble.pebbleDB.Has, pebble.pebbleDB.Get, hk]
  · simp [pebble.pebbleDB.Set, hk]
  · simp [pebble.pebbleDB.SetSync, hk]
  · simp [pebble.pebbleDB.Delete, hk]
  · simp [pebble.pebbleDB.DeleteSync, hk]
  · simp [badgerdb.badgerDB.Get, hk]
  · simp [badgerdb.badgerDB.Has, hk]
  · simp [badgerdb.badgerDB.Set, hk]
  · simp [badgerdb.badgerDB.SetSync, badgerdb.badgerDB.Set, badgerdb.withSync, hk]
  · simp [badgerdb.badgerDB.Delete, hk]
  · simp [badgerdb.badgerDB.DeleteSync, badgerdb.badgerDB.Delete, badgerdb.withSync, hk]

/-- C19, witness: the empty key on a `badgerdb` store whose engine is failing:
`SetSync` returns `ErrKeyEmpty`, not the error of the engine. -/
theorem empty_key_rejected_witness :
    len (some []) = 0 ∧
    (badgerdb.badgerDB.SetSync ⟨⟨[], some (Error.engine 7)⟩⟩ (some []) (some [0x31])).2 =
      some Error.ErrKeyEmpty :=
  ⟨by decide, by
    rw [(empty_key_rejected mapDB ⟨some [0x6E], fun _ => none⟩ ⟨⟨[], none⟩⟩ ⟨⟨[], none⟩⟩
      ⟨⟨[], none⟩⟩ ⟨⟨[], some (Error.engine 7)⟩⟩ (some []) (some [0x31])
      (by decide)).2.2.2.2.2.2.2.1]⟩

/-- C20: in `PrefixDB` and in the four backends, for a non-empty key, `Set` and
`SetSync` with a `nil` value return `ErrValueNil` and leave the store as it is,
whatever the wrapped store or the state of the engine; with a zero-length value
that is not `nil` they pass the checks and return what the wrapped store or the
engine answers to the write. -/
theorem nil_value_rejected {σ ι : Type} (d : DB σ ι) (pdb : PrefixDB σ)
    (bdb : boltdb.boltDB) (gdb : goleveldb.goLevelDB) (pb : pebble.pebbleDB)
    (bg : badgerdb.badgerDB) (key : Bytes) (hk : 0 < len key) :
    (PrefixDB.Set d pdb key none = (pdb, some Error.ErrValueNil) ∧
      PrefixDB.SetSync d pdb key none = (pdb, some Error.ErrValueNil) ∧
      PrefixDB.Set d pdb key (some []) =
        ({ pdb with db := (d.Set pdb.db (pdb.prefixed key) (some [])).1 },
          (d.Set pdb.db (pdb.prefixed key) (some [])).2) ∧
      PrefixDB.SetSync d pdb key (some []) =
        ({ pdb with db := (d.SetSync pdb.db (pdb.prefixed key) (some [])).1 },
          (d.SetSync pdb.db (pdb.prefixed key) (some [])).2)) ∧
    (bdb.Set key none = (bdb, some Error.ErrValueNil) ∧
      bdb.SetSync key none = (bdb, some Error.ErrValueNil) ∧
      bdb.Set key (some []) =
        (⟨(bdb.db.Batch (fun es => Engine.bucketPut es key (some []))).1⟩,
          (bdb.db.Batch (fun es => Engine.bucketPut es key (some []))).2) ∧
      bdb.SetSync key (some []) =
        (⟨(bdb.db.Batch (fun es => Engine.bucketPut es key (some []))).1⟩,
          (bdb.db.Batch (fun es => Engine.bucketPut es key (some []))).2)) ∧
    (gdb.Set key none = (gdb, some Error.ErrValueNil) ∧
      gdb.SetSync key none = (gdb, some Error.ErrValueNil) ∧
      gdb.Set key (some []) = (⟨(gdb.db.Put key (some [])).1⟩, (gdb.db.Put key (some [])).2) ∧
      gdb.SetSync key (some []) =
        (⟨(gdb.db.Put key (some [])).1⟩, (gdb.db.Put key (some [])).2)) ∧
    (pb.Set key none = (pb, some Error.ErrValueNil) ∧
      pb.SetSync key none = (pb, some Error.ErrValueNil) ∧
      pb.Set key (some []) = (⟨(pb.db.Put key (some [])).1⟩, (pb.db.Put key (some [])).2) ∧
      pb.SetSync key (some []) =
        (⟨(pb.db.Put key (some [])).1⟩, (pb.db.Put key (some [])).2)) ∧
    (bg.Set key none = (bg, some Error.ErrValueNil) ∧
      bg.SetSync key none = (bg, some Error.ErrValueNil) ∧
      bg.Set key (some []) = (⟨(bg.db.Put key (some [])).1⟩, (bg.db.Put key (some [])).2) ∧
      bg.SetSync key (some []) =
        (⟨(bg.db.Put key (some [])).1⟩,
          badgerdb.withSync (bg.db.Put key (some [])).1 (bg.db.Put key (some [])).2)) := by
  have hk' : len key ≠ 0 := by omega
  refine ⟨⟨?_, ?_, ?_, ?_⟩, ⟨?_, ?_, ?_, ?_⟩, ⟨?_, ?_, ?_, ?_⟩, ⟨?_, ?_, ?_, ?_⟩,
    ⟨?_, ?_, ?_, ?_⟩⟩
  · simp [PrefixDB.Set, hk']
  · simp [PrefixDB.SetSync, hk']
  · simp only [PrefixDB.Set, if_neg hk']
    cases hr : d.Set pdb.db (pdb.prefixed key) (some []) with
    | mk s err => cases err <;> simp
  · simp [PrefixDB.SetSync, hk']
  · simp [boltdb.boltDB.Set, hk']
  · simp [boltdb.boltDB.SetSync, boltdb.boltDB.Set, hk']
  · simp [boltdb.boltDB.Set, hk']
  · simp [boltdb.boltDB.SetSync, boltdb.boltDB.Set, hk']
  · simp [goleveldb.goLevelDB.Set, hk']
  · simp [goleveldb.goLevelDB.SetSync, hk']
  · simp [goleveldb.goLevelDB.Set, hk']
  · simp [goleveldb.goLevelDB.SetSync, hk']
  · simp [pebble.pebbleDB.Set, hk']
  · simp [pebble.pebbleDB.SetSync, hk']
  · simp only [pebble.pebbleDB.Set, if_neg hk', Engine.Put]
    cases pb.db.fault <;> simp
  · simp [pebble.pebbleDB.SetSync, hk']
  · simp [badgerdb.badgerDB.Set, hk']
  · simp [badgerdb.badgerDB.SetSync, badgerdb.badgerDB.Set, badgerdb.withSync, hk']
  · simp [badgerdb.badgerDB.Set, hk']
  · simp [badgerdb.badgerDB.SetSync, badgerdb.badgerDB.Set, hk']

/-- C20, witness: on an empty `goleveldb` store, `Set("a", nil)` returns
`ErrValueNil` and `Set("a", "")` stores the empty value: `Has("a")` is then
`true`. -/
theorem nil_value_rejected_witness :
    (goleveldb.goLevelDB.Set ⟨⟨[], none⟩⟩ (some [0x61]) none).2 = some Error.ErrValueNil ∧
    goleveldb.goLevelDB.Has (goleveldb.goLevelDB.Set ⟨⟨[], none⟩⟩ (some [0x61]) (some [])).1
      (some [0x61]) = (true, none) :=
  ⟨by
    rw [(nil_value_rejected mapDB ⟨some [0x6E], fun _ => none⟩ ⟨⟨[], none⟩⟩ ⟨⟨[], none⟩⟩
      ⟨⟨[], none⟩⟩ ⟨⟨[], none⟩⟩ (some [0x61]) (by decide)).2.2.1.1],
   by
    rw [(nil_value_rejected mapDB ⟨some [0x6E], fun _ => none⟩ ⟨⟨[], none⟩⟩ ⟨⟨[], none⟩⟩
      ⟨⟨[], none⟩⟩ ⟨⟨[], none⟩⟩ (some [0x61]) (by decide)).2.2.1.2.2.1]
    decide⟩

/-! ### The batch and the iterator of the `badgerdb` backend -/

/-- C12, counterexample: on a `badgerdb` store, the second `Write()` of a batch
returns the error "batch already flushed", which is not `ErrBatchClosed`; and a
`Set("a", "1")` after `Close()` reaches the write batch of the engine, which
records the call and answers with its own error. -/
theorem badger_batch_no_batch_closed :
    (badgerdb.badgerDB.NewBatch ⟨⟨[], none⟩⟩).Write ⟨⟨[], none⟩⟩ =
      .ok (⟨⟨[WbCall.flush]⟩, false⟩, ⟨⟨[], none⟩⟩, none) ∧
    badgerdb.badgerDBBatch.Write ⟨⟨[WbCall.flush]⟩, false⟩ ⟨⟨[], none⟩⟩ =
      .ok (⟨⟨[WbCall.flush]⟩, false⟩, ⟨⟨[], none⟩⟩, some Error.batchAlreadyFlushed) ∧
    Error.batchAlreadyFlushed ≠ Error.ErrBatchClosed ∧
    ((badgerdb.badgerDB.NewBatch ⟨⟨[], none⟩⟩).Close).1.Set (some [0x61]) (some [0x31]) =
      (⟨⟨[WbCall.cancel, WbCall.set (some [0x61]) (some [0x31])]⟩, false⟩,
        some (Error.engine 2)) := by
  refine ⟨rfl, rfl, by decide, by decide⟩

theorem WriteBatch_answers (wb : WriteBatch) (key value : Bytes) :
    (wb.Set key value).2 ≠ some Error.ErrBatchClosed ∧
      (wb.Delete key).2 ≠ some Error.ErrBatchClosed := by
  unfold WriteBatch.Set WriteBatch.Delete
  cases wb.finished <;> simp

/-- C12, as amended: for the `badgerdb` batch, a `Write()` or `WriteSync()`
after a first `Write()`, `WriteSync()` or `Close()` fails with the error "batch
already flushed" and touches neither the batch nor the store; `Set` and `Delete`
with valid arguments make no check of the state of the batch: they hand the
call to the write batch of the engine and return its answer, which is never
`ErrBatchClosed`. -/
theorem badger_batch_after_write (b : badgerdb.badgerDBBatch) (db : badgerdb.badgerDB) :
    (∀ (b' : badgerdb.badgerDBBatch) (db' db2 : badgerdb.badgerDB) (err : Option Error),
      (b.Write db = .ok (b', db', err) ∨ b.WriteSync db = .ok (b', db', err) ∨
        b' = (b.Close).1) →
      b'.Write db2 = .ok (b', db2, some Error.batchAlreadyFlushed) ∧
      b'.WriteSync db2 = .ok (b', db2, some Error.batchAlreadyFlushed)) ∧
    (∀ key value : Bytes, 0 < len key → value ≠ none →
      b.Set key value = ({ b with wb := (b.wb.Set key value).1 }, (b.wb.Set key value).2) ∧
      (b.Set key value).2 ≠ some Error.ErrBatchClosed) ∧
    (∀ key : Bytes, 0 < len key →
      b.Delete key = ({ b with wb := (b.wb.Delete key).1 }, (b.wb.Delete key).2) ∧
      (b.Delete key).2 ≠ some Error.ErrBatchClosed) := by
  have hW : ∀ (b' : badgerdb.badgerDBBatch) (db' : badgerdb.badgerDB) (err : Option Error),
      b.Write db = .ok (b', db', err) → b'.firstFlush = false := by
    intro b' db' err h
    unfold badgerdb.badgerDBBatch.Write at h
    by_cases hf : b.firstFlush = true
    · rw [if_pos hf] at h
      cases hr : b.wb.Flush db.db with
      | error p => rw [hr] at h; cases h
      | ok r =>
        obtain ⟨wb, e, er⟩ := r
        rw [hr] at h
        simp only [Except.ok.injEq, Prod.mk.injEq] at h
        rw [← h.1]
    · rw [if_neg hf] at h
      simp only [Except.ok.injEq, Prod.mk.injEq] at h
      rw [← h.1]
      simpa using hf
  have hclosed : ∀ (b' : badgerdb.badgerDBBatch) (db2 : badgerdb.badgerDB),
      b'.firstFlush = false →
      b'.Write db2 = .ok (b', db2, some Error.batchAlreadyFlushed) ∧
      b'.WriteSync db2 = .ok (b', db2, some Error.batchAlreadyFlushed) := by
    intro b' db2 hf
    have h1 : b'.Write db2 = .ok (b', db2, some Error.batchAlreadyFlushed) := by
      simp [badgerdb.badgerDBBatch.Write, hf]
    refine ⟨h1, ?_⟩
    simp [badgerdb.badgerDBBatch.WriteSync, h1, badgerdb.withSync]
  refine ⟨?_, ?_, ?_⟩
  · intro b' db' db2 err h
    apply hclosed
    rcases h with h | h | h
    · exact hW b' db' err h
    · unfold badgerdb.badgerDBBatch.WriteSync at h
      cases hr : b.Write db with
      | error p => rw [hr] at h; cases h
      | ok r =>
        obtain ⟨b1, db1, e1⟩ := r
        rw [hr] at h
        simp only [Except.ok.injEq, Prod.mk.injEq] at h
        rw [← h.1]
        exact hW b1 db1 e1 hr
    · rw [h]; rfl
  · intro key value hk hv
    have hk' : len key ≠ 0 := by omega
    have h1 : b.Set key value =
        ({ b with wb := (b.wb.Set key value).1 }, (b.wb.Set key value).2) := by
      simp [badgerdb.badgerDBBatch.Set, hk', hv]
    exact ⟨h1, by rw [h1]; exact (WriteBatch_answers b.wb key value).1⟩
  · intro key hk
    have hk' : len key ≠ 0 := by omega
    have h1 : b.Delete key =
        ({ b with wb := (b.wb.Delete key).1 }, (b.wb.Delete key).2) := by
      simp [badgerdb.badgerDBBatch.Delete, hk']
    exact ⟨h1, by rw [h1]; exact (WriteBatch_answers b.wb key none).2⟩

/-- C12, witness: a new batch closed at once; `Write()` then returns "batch
already flushed". -/
theorem badger_batch_after_write_witness :
    ((badgerdb.badgerDB.NewBatch ⟨⟨[], none⟩⟩).Close).1.Write ⟨⟨[], none⟩⟩ =
      .ok (((badgerdb.badgerDB.NewBatch ⟨⟨[], none⟩⟩).Close).1, ⟨⟨[], none⟩⟩,
        some Error.batchAlreadyFlushed) :=
  ((badger_batch_after_write (badgerdb.badgerDB.NewBatch ⟨⟨[], none⟩⟩) ⟨⟨[], none⟩⟩).1
    _ ⟨⟨[], none⟩⟩ ⟨⟨[], none⟩⟩ none (Or.inr (Or.inr rfl))).1

/-- A forward `badgerdb` iterator without end bound on the only key `A`, in the
case where the engine answers the read of the value with an error: `Value()`
stores the error of the engine, `Error()` returns it, and `Valid()` still
answers `true`. -/
theorem badger_valid_ignores_error :
    badgerdb.badgerDBIterator.Value
      { reverse := false, start := none, end_ := none,
        iter :=
          { cur := { entries := [([0x41], [0x01])], pos := 0, err := none },
            reverse := false, valueErr := some (Error.engine 5) },
        lastErr := none } =
      .ok (none,
        { reverse := false, start := none, end_ := none,
          iter :=
            { cur := { entries := [([0x41], [0x01])], pos := 0, err := none },
              reverse := false, valueErr := some (Error.engine 5) },
          lastErr := some (Error.engine 5) }) ∧
    badgerdb.badgerDBIterator.Error
      { reverse := false, start := none, end_ := none,
        iter :=
          { cur := { entries := [([0x41], [0x01])], pos := 0, err := none },
            reverse := false, valueErr := some (Error.engine 5) },
        lastErr := some (Error.engine 5) } = some (Error.engine 5) ∧
    badgerdb.badgerDBIterator.Valid
      { reverse := false, start := none, end_ := none,
        iter :=
          { cur := { entries := [([0x41], [0x01])], pos := 0, err := none },
            reverse := false, valueErr := some (Error.engine 5) },
        lastErr := some (Error.engine 5) } = true := by
  refine ⟨rfl, rfl, by decide⟩

/-- The error state of the `badgerdb` iterator: `Valid()` does not look at the
stored error, it answers as it would without it; when the engine answers the
read of the value under a valid cursor with an error, `Value()` stores that
error and `Error()` returns it; and a stored error stays (a later `Next()`
keeps it, a later `Value()` keeps it or replaces it by a newer one). -/
theorem badger_error_captured_not_invalidating (i : badgerdb.badgerDBIterator) :
    (∀ e : Option Error, badgerdb.badgerDBIterator.Valid { i with lastErr := e } = i.Valid) ∧
    (∀ (val : Bytes) (err : Error), i.Valid = true → i.iter.ValueCopy = (val, some err) →
      i.Value = .ok (val, { i with lastErr := some err }) ∧
      badgerdb.badgerDBIterator.Error { i with lastErr := some err } = some err) ∧
    (i.Error ≠ none →
      (∀ i', i.Next = .ok i' → i'.Error = i.Error) ∧
      (∀ v i', i.Value = .ok (v, i') → i'.Error ≠ none)) := by
  refine ⟨?_, ?_, ?_⟩
  · intro e
    rfl
  · intro val err hv hc
    refine ⟨?_, rfl⟩
    simp [badgerdb.badgerDBIterator.Value, hv, hc]
  · intro he
    refine ⟨?_, ?_⟩
    · intro i' h
      unfold badgerdb.badgerDBIterator.Next at h
      by_cases hv : (!i.Valid) = true
      · rw [if_pos hv] at h; cases h
      · rw [if_neg hv] at h
        cases h
        rfl
    · intro v i' h
      unfold badgerdb.badgerDBIterator.Value at h
      by_cases hv : (!i.Valid) = true
      · rw [if_pos hv] at h; cases h
      · rw [if_neg hv] at h
        cases hc : i.iter.ValueCopy with
        | mk val er =>
          cases er with
          | some x =>
            simp only [hc, Except.ok.injEq, Prod.mk.injEq] at h
            rw [← h.2]
            simp [badgerdb.badgerDBIterator.Error]
          | none =>
            simp only [hc, Except.ok.injEq, Prod.mk.injEq] at h
            rw [← h.2]
            exact he

/-- The iterator of `badger_valid_ignores_error`, before the read of the
value. -/
theorem badger_error_captured_not_invalidating_witness :
    badgerdb.badgerDBIterator.Value
      { reverse := false, start := none, end_ := none,
        iter :=
          { cur := { entries := [([0x41], [0x01])], pos := 0, err := none },
            reverse := false, valueErr := some (Error.engine 5) },
        lastErr := none } =
      .ok (none,
        { reverse := false, start := none, end_ := none,
          iter :=
            { cur := { entries := [([0x41], [0x01])], pos := 0, err := none },
              reverse := false, valueErr := some (Error.engine 5) },
          lastErr := some (Error.engine 5) }) :=
  ((badger_error_captured_not_invalidating
      { reverse := false, start := none, end_ := none,
        iter :=
          { cur := { entries := [([0x41], [0x01])], pos := 0, err := none },
            reverse := false, valueErr := some (Error.engine 5) },
        lastErr := none }).2.1 none (Error.engine 5) (by decide) rfl).1

/-! ### The byte order is the lexicographic order -/

theorem compareList_swap (a : List Byte) :
    ∀ b : List Byte, bytes.compareList b a = - bytes.compareList a b := by
  induction a with
  | nil => intro b; cases b <;> simp [bytes.compareList]
  | cons x xs ih =>
    intro b
    cases b with
    | nil => simp [bytes.compareList]
    | cons y ys =>
      rw [bytes.compareList, bytes.compareList]
      by_cases h1 : y < x
      · have h2 : ¬ x < y := not_lt.mpr (le_of_lt h1)
        simp [h1, h2]
      · by_cases h2 : x < y
        · simp [h1, h2]
        · simp [h1, h2, ih ys]

theorem compareList_lt_iff (a : List Byte) :
    ∀ b : List Byte, bytes.compareList a b < 0 ↔ a < b := by
  induction a with
  | nil =>
    intro b
    cases b with
    | nil => simp [bytes.compareList]
    | cons y ys =>
      simp only [bytes.compareList, Int.reduceNeg, Int.reduceLT, true_iff]
      exact List.nil_lt_cons y ys
  | cons x xs ih =>
    intro b
    cases b with
    | nil =>
      simp only [bytes.compareList, Int.reduceLT, false_iff]
      exact List.Lex.not_nil_right _ _
    | cons y ys =>
      rw [bytes.compareList]
      by_cases h1 : x < y
      · simp only [h1, if_true, Int.reduceNeg, Int.reduceLT, true_iff]
        exact List.Lex.rel h1
      · by_cases h2 : y < x
        · simp only [h1, h2, if_false, if_true, Int.reduceLT, false_iff]
          intro h
          cases h with
          | cons h' => exact lt_irrefl _ h2
          | rel h' => exact h1 h'
        · have hxy : x = y := le_antisymm (not_lt.mp h2) (not_lt.mp h1)
          subst hxy
          simp only [lt_self_iff_false, if_false]
          rw [ih ys]
          exact (List.Lex.cons_iff).symm

theorem compareList_gt_iff (a b : List Byte) : 0 < bytes.compareList a b ↔ b < a := by
  rw [← compareList_lt_iff b a, compareList_swap a b]
  omega

theorem compareList_ge_iff (a b : List Byte) : 0 ≤ bytes.compareList a b ↔ b ≤ a := by
  have h := compareList_lt_iff a b
  constructor
  · intro h1
    exact not_lt.mp (fun h2 => by have := h.mpr h2; omega)
  · intro h1
    by_contra h2
    exact absurd (h.mp (by omega)) (not_lt.mpr h1)

theorem compareList_le_iff (a b : List Byte) : bytes.compareList a b ≤ 0 ↔ a ≤ b := by
  have h := compareList_gt_iff a b
  constructor
  · intro h1
    exact not_lt.mp (fun h2 => by have := h.mpr h2; omega)
  · intro h1
    by_contra h2
    exact absurd (h.mp (by omega)) (not_lt.mpr h1)

/-! ### Filters of an ordered list -/

theorem filter_eq_takeWhile_of_pairwise {α : Type} (R : α → α → Prop) (p : α → Bool)
    (hp : ∀ a b, R a b → p b = true → p a = true) :
    ∀ l : List α, l.Pairwise R → l.filter p = l.takeWhile p := by
  intro l
  induction l with
  | nil => intro _; rfl
  | cons e t ih =>
    intro h
    rw [List.pairwise_cons] at h
    by_cases he : p e = true
    · rw [List.filter_cons_of_pos he, List.takeWhile_cons_of_pos he, ih h.2]
    · rw [List.filter_cons_of_neg he, List.takeWhile_cons_of_neg he]
      rw [List.filter_eq_nil_iff]
      intro x hx hpx
      exact he (hp e x (h.1 x hx) hpx)

theorem dropWhile_takeWhile_eq_filter {α : Type} (R : α → α → Prop) (q p : α → Bool)
    (hq : ∀ a b, R a b → q b = true → q a = true)
    (hp : ∀ a b, R a b → p b = true → p a = true) :
    ∀ l : List α, l.Pairwise R →
      (l.dropWhile q).takeWhile p = l.filter (fun x => !q x && p x) := by
  intro l
  induction l with
  | nil => intro _; rfl
  | cons e t ih =>
    intro h
    have h' := h
    rw [List.pairwise_cons] at h
    by_cases he : q e = true
    · rw [List.dropWhile_cons_of_pos he, ih h.2]
      have : (!q e && p e) = false := by simp [he]
      rw [List.filter_cons_of_neg (by simp [he])]
    · rw [List.dropWhile_cons_of_neg he]
      rw [← filter_eq_takeWhile_of_pairwise R p hp _ h']
      apply List.filter_congr
      intro x hx
      have hqx : q x = false := by
        rcases List.mem_cons.mp hx with rfl | hx'
        · simpa using he
        · cases hqx : q x with
          | false => rfl
          | true => exact absurd (hq e x (h.1 x hx') hqx) he
      simp [hqx]

theorem takeWhile_reverse_takeWhile_eq_filter {α : Type} (R : α → α → Prop) (q p : α → Bool)
    (hq : ∀ a b, R a b → q b = true → q a = true)
    (hp : ∀ a b, R a b → p b = true → p a = true) :
    ∀ l : List α, l.Pairwise R →
      ((l.takeWhile p).reverse.takeWhile (fun x => !q x)) =
        (l.filter (fun x => !q x && p x)).reverse := by
  intro l h
  rw [← filter_eq_takeWhile_of_pairwise R p hp l h]
  have hs : (l.filter p).Pairwise R := h.sublist (List.filter_sublist l)
  have hr : (l.filter p).reverse.Pairwise (fun a b => R b a) := List.pairwise_reverse.mpr hs
  rw [← filter_eq_takeWhile_of_pairwise (fun a b => R b a) (fun x => !q x) ?_ _ hr]
  · rw [List.filter_reverse, List.filter_filter]
  · intro a b hab hb
    cases hqa : q a with
    | false => simp [hqa]
    | true =>
      have := hq b a hab hqa
      simp [this] at hb

theorem drop_findIdx_eq_dropWhile {α : Type} (p : α → Bool) :
    ∀ l : List α, l.drop (l.findIdx p) = l.dropWhile (fun x => !p x) := by
  intro l
  induction l with
  | nil => rfl
  | cons e t ih =>
    rw [List.findIdx_cons]
    cases he : p e with
    | true => simp [he]
    | false => simp [he, ih]

theorem take_findIdx_eq_takeWhile {α : Type} (p : α → Bool) :
    ∀ l : List α, l.take (l.findIdx p) = l.takeWhile (fun x => !p x) := by
  intro l
  induction l with
  | nil => rfl
  | cons e t ih =>
    rw [List.findIdx_cons]
    cases he : p e with
    | true => simp [he]
    | false => simp [he, ih]

/-! ### Draining a `boltdb` iterator -/

theorem Cursor_Key_nat (es : Entries) (i : Nat) (err : Option Error) :
    Cursor.Key { entries := es, pos := (i : Int), err := err } =
      (es[i]?).map (fun e => e.1) := by
  unfold Cursor.Key Cursor.Valid
  by_cases h : i < es.length
  · simp [h]
  · have h' : es.length ≤ i := Nat.le_of_not_lt h
    simp [h, List.getElem?_eq_none h']

theorem Cursor_Key_neg (es : Entries) (err : Option Error) :
    Cursor.Key { entries := es, pos := -1, err := err } = none := by
  simp [Cursor.Key, Cursor.Valid]

theorem boltdb_Valid_none (it : boltdb.boltDBIterator) (h : it.currentKey = none) :
    (it.Valid).1 = false := by
  unfold boltdb.boltDBIterator.Valid
  by_cases h0 : it.isInvalid = true
  · simp [h0]
  · simp [h0, boltdb.boltDBIterator.Error, h]

theorem boltdb_drain_invalid (fuel : Nat) (it : boltdb.boltDBIterator)
    (h : (it.Valid).1 = false) :
    boltdb.boltDBIterator.drain (fuel + 1) it = some (.ok []) := by
  unfold boltdb.boltDBIterator.drain
  cases hv : it.Valid with
  | mk b it' =>
    rw [hv] at h
    simp only at h
    subst h
    rfl

theorem boltdb_drain_valid (fuel : Nat) (it : boltdb.boltDBIterator) (k : List Byte)
    (hk : it.currentKey = some k) (h : it.Valid = (true, it)) :
    boltdb.boltDBIterator.drain (fuel + 1) it =
      match boltdb.boltDBIterator.drain fuel
        (if it.isReverse then
          { it with iter := it.iter.Prev, currentKey := it.iter.Prev.Key,
                    currentValue := it.iter.Prev.Value }
        else
          { it with iter := it.iter.Next, currentKey := it.iter.Next.Key,
                    currentValue := it.iter.Next.Value }) with
      | some (.ok keys) => some (.ok (some k :: keys))
      | r => r := by
  have hkey : it.Key = (.ok (some k), it) := by
    simp [boltdb.boltDBIterator.Key, boltdb.boltDBIterator.assertIsValid, h, hk, append]
  have hnext : it.Next = (.ok (),
      if it.isReverse then
        { it with iter := it.iter.Prev, currentKey := it.iter.Prev.Key,
                  currentValue := it.iter.Prev.Value }
      else
        { it with iter := it.iter.Next, currentKey := it.iter.Next.Key,
                  currentValue := it.iter.Next.Value }) := by
    unfold boltdb.boltDBIterator.Next boltdb.boltDBIterator.assertIsValid
    rw [h]
    by_cases hr : it.isReverse = true <;> simp [hr]
  conv => lhs; unfold boltdb.boltDBIterator.drain
  simp only [h, hkey, hnext]

theorem boltdb_onCursor_Valid_forward (start end_ : Bytes) (c : Cursor) (k : List Byte)
    (hk : c.Key = some k) :
    (boltdb.boltDBIterator.onCursor start end_ false c).Valid =
      if end_ ≠ none ∧ bytes.Compare end_ (some k) ≤ 0 then
        (false, { boltdb.boltDBIterator.onCursor start end_ false c with isInvalid := true })
      else (true, boltdb.boltDBIterator.onCursor start end_ false c) := by
  simp [boltdb.boltDBIterator.Valid, boltdb.boltDBIterator.onCursor,
    boltdb.boltDBIterator.Error, hk]

theorem boltdb_onCursor_Valid_reverse (start end_ : Bytes) (c : Cursor) (k : List Byte)
    (hk : c.Key = some k) :
    (boltdb.boltDBIterator.onCursor start end_ true c).Valid =
      if start ≠ none ∧ bytes.Compare (some k) start < 0 then
        (false, { boltdb.boltDBIterator.onCursor start end_ true c with isInvalid := true })
      else (true, boltdb.boltDBIterator.onCursor start end_ true c) := by
  simp [boltdb.boltDBIterator.Valid, boltdb.boltDBIterator.onCursor,
    boltdb.boltDBIterator.Error, hk]

theorem boltdb_drain_valid_onCursor (fuel : Nat) (start end_ : Bytes) (rev : Bool)
    (c : Cursor) (k : List Byte) (hk : c.Key = some k)
    (h : (boltdb.boltDBIterator.onCursor start end_ rev c).Valid =
      (true, boltdb.boltDBIterator.onCursor start end_ rev c)) :
    boltdb.boltDBIterator.drain (fuel + 1) (boltdb.boltDBIterator.onCursor start end_ rev c) =
      match boltdb.boltDBIterator.drain fuel
        (boltdb.boltDBIterator.onCursor start end_ rev (if rev then c.Prev else c.Next)) with
      | some (Except.ok keys) => some (Except.ok (some k :: keys))
      | r => r := by
  rw [boltdb_drain_valid fuel _ k hk h]
  cases rev <;> rfl

theorem boltdb_drain_forward (es : Entries) (start end_ : Bytes) :
    ∀ (n i fuel : Nat), i + n = es.length → n < fuel →
      boltdb.boltDBIterator.drain fuel
        (boltdb.boltDBIterator.onCursor start end_ false
          { entries := es, pos := (i : Int), err := none }) =
      some (.ok (((es.drop i).takeWhile
        (fun e => !decide (end_ ≠ none ∧ bytes.Compare end_ (some e.1) ≤ 0))).map
          (fun e => some e.1))) := by
  intro n
  induction n with
  | zero =>
    intro i fuel hi hf
    obtain ⟨f, rfl⟩ : ∃ f, fuel = f + 1 := ⟨fuel - 1, by omega⟩
    have hlen : es.length ≤ i := by omega
    rw [boltdb_drain_invalid]
    · rw [List.drop_eq_nil_of_le hlen]; rfl
    · apply boltdb_Valid_none
      show Cursor.Key _ = none
      rw [Cursor_Key_nat, List.getElem?_eq_none hlen]; rfl
  | succ n ih =>
    intro i fuel hi hf
    obtain ⟨f, rfl⟩ : ∃ f, fuel = f + 1 := ⟨fuel - 1, by omega⟩
    have hlt : i < es.length := by omega
    have hkey : Cursor.Key { entries := es, pos := (i : Int), err := none } = some es[i].1 := by
      rw [Cursor_Key_nat, List.getElem?_eq_getElem hlt]; rfl
    have hdrop : es.drop i = es[i] :: es.drop (i + 1) := List.drop_eq_getElem_cons hlt
    have hv := boltdb_onCursor_Valid_forward start end_ _ _ hkey
    by_cases hend : end_ ≠ none ∧ bytes.Compare end_ (some es[i].1) ≤ 0
    · rw [if_pos hend] at hv
      rw [boltdb_drain_invalid _ _ (by rw [hv])]
      rw [hdrop, List.takeWhile_cons_of_neg (by rw [decide_eq_true hend]; simp)]
      rfl
    · rw [if_neg hend] at hv
      rw [boltdb_drain_valid_onCursor f start end_ false _ es[i].1 hkey hv]
      have hnext : Cursor.Next { entries := es, pos := (i : Int), err := none } =
          { entries := es, pos := ((i + 1 : Nat) : Int), err := none } := by
        simp [Cursor.Next, hlt]
      have hih := ih (i + 1) f (by omega) (by omega)
      simp only [Bool.false_eq_true, if_false]
      rw [hnext, hih, hdrop, List.takeWhile_cons_of_pos (by rw [decide_eq_false hend]; rfl)]
      rfl

theorem boltdb_drain_reverse (es : Entries) (start end_ : Bytes) :
    ∀ (m fuel : Nat), m ≤ es.length → m < fuel →
      boltdb.boltDBIterator.drain fuel
        (boltdb.boltDBIterator.onCursor start end_ true
          { entries := es, pos := (m : Int) - 1, err := none }) =
      some (.ok ((((es.take m).reverse).takeWhile
        (fun e => !decide (start ≠ none ∧ bytes.Compare (some e.1) start < 0))).map
          (fun e => some e.1))) := by
  intro m
  induction m with
  | zero =>
    intro fuel _ hf
    obtain ⟨f, rfl⟩ : ∃ f, fuel = f + 1 := ⟨fuel - 1, by omega⟩
    rw [boltdb_drain_invalid]
    · rfl
    · apply boltdb_Valid_none
      simp [boltdb.boltDBIterator.onCursor, Cursor.Key, Cursor.Valid]
  | succ m ih =>
    intro fuel hm hf
    obtain ⟨f, rfl⟩ : ∃ f, fuel = f + 1 := ⟨fuel - 1, by omega⟩
    have hlt : m < es.length := by omega
    have hpos : (((m + 1 : Nat) : Int) - 1) = (m : Int) := by omega
    rw [hpos]
    have hkey : Cursor.Key { entries := es, pos := (m : Int), err := none } = some es[m].1 := by
      rw [Cursor_Key_nat, List.getElem?_eq_getElem hlt]; rfl
    have htake : (es.take (m + 1)).reverse = es[m] :: (es.take m).reverse := by
      rw [List.take_succ, List.getElem?_eq_getElem hlt]
      simp
    have hv := boltdb_onCursor_Valid_reverse start end_ _ _ hkey
    by_cases hst : start ≠ none ∧ bytes.Compare (some es[m].1) start < 0
    · rw [if_pos hst] at hv
      rw [boltdb_drain_invalid _ _ (by rw [hv])]
      rw [htake, List.takeWhile_cons_of_neg (by rw [decide_eq_true hst]; simp)]
      rfl
    · rw [if_neg hst] at hv
      rw [boltdb_drain_valid_onCursor f start end_ true _ es[m].1 hkey hv]
      have hprev : Cursor.Prev { entries := es, pos := (m : Int), err := none } =
          { entries := es, pos := (m : Int) - 1, err := none } := by
        simp [Cursor.Prev]
      have hih := ih f (by omega) (by omega)
      simp only [if_true]
      rw [hprev, hih, htake, List.takeWhile_cons_of_pos (by rw [decide_eq_false hst]; rfl)]
      rfl

theorem IsKeyInDomain_eq_and (k : List Byte) (start end_ : Bytes) :
    IsKeyInDomain (some k) start end_ =
      (!decide (bytes.compareList k (start.getD []) < 0) &&
        !decide (end_ ≠ none ∧ bytes.Compare end_ (some k) ≤ 0)) := by
  unfold IsKeyInDomain
  have hc : bytes.Compare (some k) start = bytes.compareList k (start.getD []) := rfl
  rw [hc]
  by_cases h1 : bytes.compareList k (start.getD []) < 0
  · simp [h1]
  · by_cases h2 : end_ ≠ none ∧ bytes.Compare end_ (some k) ≤ 0
    · rw [if_neg h1, if_pos h2, decide_eq_false h1, decide_eq_true h2]; rfl
    · rw [if_neg h1, if_neg h2, decide_eq_false h1, decide_eq_false h2]; rfl

theorem below_start_closed (start : Bytes) (a b : List Byte × List Byte)
    (hab : bytes.compareList a.1 b.1 < 0)
    (hb : decide (bytes.compareList b.1 (start.getD []) < 0) = true) :
    decide (bytes.compareList a.1 (start.getD []) < 0) = true := by
  rw [decide_eq_true_iff] at hb ⊢
  rw [compareList_lt_iff] at hab hb ⊢
  exact lt_trans hab hb

theorem below_end_closed (end_ : Bytes) (a b : List Byte × List Byte)
    (hab : bytes.compareList a.1 b.1 < 0)
    (hb : (!decide (end_ ≠ none ∧ bytes.Compare end_ (some b.1) ≤ 0)) = true) :
    (!decide (end_ ≠ none ∧ bytes.Compare end_ (some a.1) ≤ 0)) = true := by
  rw [Bool.not_eq_true', decide_eq_false_iff_not] at hb ⊢
  intro h
  apply hb
  refine ⟨h.1, ?_⟩
  have h2 : bytes.compareList (end_.getD []) a.1 ≤ 0 := h.2
  show bytes.compareList (end_.getD []) b.1 ≤ 0
  rw [compareList_le_iff] at h2 ⊢
  rw [compareList_lt_iff] at hab
  exact le_trans h2 (le_of_lt hab)

theorem dropWhile_eq_self_of_head {α : Type} (q : α → Bool) (l : List α)
    (h : ∀ x ∈ l, q x = false) : l.dropWhile q = l := by
  cases l with
  | nil => rfl
  | cons e t =>
    rw [List.dropWhile_cons_of_neg]
    simp [h e (List.mem_cons_self e t)]

theorem takeWhile_eq_self_of_all {α : Type} (p : α → Bool) (l : List α)
    (h : ∀ x ∈ l, p x = true) : l.takeWhile p = l := by
  induction l with
  | nil => rfl
  | cons e t ih =>
    rw [List.takeWhile_cons_of_pos (h e (List.mem_cons_self e t)),
      ih (fun x hx => h x (List.mem_cons_of_mem e hx))]

/-- The position where a forward `boltdb` iterator starts: the entries from it
on are those not below `start`. -/
theorem boltdb_forward_start (es : Entries) (start end_ : Bytes) :
    ∃ i : Nat, i ≤ es.length ∧
      boltdb.newBoltDBIterator es start end_ false =
        boltdb.boltDBIterator.onCursor start end_ false
          { entries := es, pos := (i : Int), err := none } ∧
      es.drop i =
        es.dropWhile (fun e => decide (bytes.compareList e.1 (start.getD []) < 0)) := by
  cases start with
  | none =>
    refine ⟨0, Nat.zero_le _, rfl, ?_⟩
    rw [List.drop_zero, dropWhile_eq_self_of_head]
    intro x _
    have := compareList_nil_right x.1
    simp only [Option.getD_none, decide_eq_false_iff_not]
    omega
  | some s =>
    refine ⟨es.findIdx (fun (e : List Byte × List Byte) => decide (0 ≤ bytes.compareList e.1 s)),
      List.findIdx_le_length _, ?_, ?_⟩
    · simp [boltdb.newBoltDBIterator, boltdb.boltDBIterator.onCursor, Cursor.SeekGE]
    · rw [drop_findIdx_eq_dropWhile]
      congr 1
      funext e
      by_cases h : 0 ≤ bytes.compareList e.1 s
      · have h' : ¬ bytes.compareList e.1 s < 0 := by omega
        simp [h, h']
      · have h' : bytes.compareList e.1 s < 0 := by omega
        simp [h, h']

/-- The position where a reverse `boltdb` iterator starts: the entries up to it
are those below `end`. -/
theorem boltdb_reverse_start (es : Entries) (start end_ : Bytes) :
    ∃ m : Nat, m ≤ es.length ∧
      boltdb.newBoltDBIterator es start end_ true =
        boltdb.boltDBIterator.onCursor start end_ true
          { entries := es, pos := (m : Int) - 1, err := none } ∧
      es.take m =
        es.takeWhile (fun e => !decide (end_ ≠ none ∧ bytes.Compare end_ (some e.1) ≤ 0)) := by
  cases end_ with
  | none =>
    refine ⟨es.length, le_refl _, rfl, ?_⟩
    rw [List.take_length, takeWhile_eq_self_of_all]
    intro x _
    simp
  | some s =>
    refine ⟨es.findIdx (fun (e : List Byte × List Byte) => decide (0 ≤ bytes.compareList e.1 s)),
      List.findIdx_le_length _, ?_, ?_⟩
    · simp [boltdb.newBoltDBIterator, boltdb.boltDBIterator.onCursor, Cursor.SeekGE, Cursor.Prev]
    · rw [take_findIdx_eq_takeWhile]
      congr 1
      funext e
      have hsw : bytes.Compare (some s) (some e.1) = - bytes.compareList e.1 s :=
        compareList_swap e.1 s
      rw [hsw]
      by_cases h : 0 ≤ bytes.compareList e.1 s
      · have h' : -bytes.compareList e.1 s ≤ 0 := by omega
        simp [h, h']
      · have h' : ¬ -bytes.compareList e.1 s ≤ 0 := by omega
        simp [h, h']

/-- C15: over a bucket whose entries `es` are in ascending key order, with
`start` and `end` `nil` or non-empty and enough fuel for the loop to end,
draining the iterator returned by `Iterator(start, end)` yields exactly the
stored keys `k` with `IsKeyInDomain(k, start, end)`, in ascending order, and
draining the one returned by `ReverseIterator(start, end)` yields the same keys
in descending order. -/
theorem boltdb_iterator_drains_range (es : Entries)
    (hs : es.Pairwise (fun a b => bytes.compareList a.1 b.1 < 0))
    (start end_ : Bytes) (hstart : start = none ∨ 0 < len start)
    (hend : end_ = none ∨ 0 < len end_) (fuel : Nat) (hfuel : es.length < fuel) :
    (∃ it, boltdb.boltDB.Iterator ⟨⟨es, none⟩⟩ start end_ = (some it, none) ∧
      it.drain fuel = some (.ok
        ((es.filter (fun e => IsKeyInDomain (some e.1) start end_)).map
          (fun e => some e.1)))) ∧
    (∃ it, boltdb.boltDB.ReverseIterator ⟨⟨es, none⟩⟩ start end_ = (some it, none) ∧
      it.drain fuel = some (.ok
        ((es.filter (fun e => IsKeyInDomain (some e.1) start end_)).reverse.map
          (fun e => some e.1)))) := by
  have hb : ¬ ((start ≠ none ∧ len start = 0) ∨ (end_ ≠ none ∧ len end_ = 0)) := by
    rintro (⟨h1, h2⟩ | ⟨h1, h2⟩)
    · rcases hstart with h | h
      · exact h1 h
      · omega
    · rcases hend with h | h
      · exact h1 h
      · omega
  have hpred : (fun (e : List Byte × List Byte) => IsKeyInDomain (some e.1) start end_) =
      (fun e => !decide (bytes.compareList e.1 (start.getD []) < 0) &&
        !decide (end_ ≠ none ∧ bytes.Compare end_ (some e.1) ≤ 0)) := by
    funext e
    exact IsKeyInDomain_eq_and e.1 start end_
  constructor
  · refine ⟨boltdb.newBoltDBIterator es start end_ false, ?_, ?_⟩
    · simp [boltdb.boltDB.Iterator, hb, Engine.Begin]
    · obtain ⟨i, hi, hit, hdrop⟩ := boltdb_forward_start es start end_
      rw [hit, boltdb_drain_forward es start end_ (es.length - i) i fuel (by omega) (by omega),
        hdrop, hpred]
      rw [dropWhile_takeWhile_eq_filter (fun a b => bytes.compareList a.1 b.1 < 0) _ _
        (below_start_closed start) (below_end_closed end_) es hs]
  · refine ⟨boltdb.newBoltDBIterator es start end_ true, ?_, ?_⟩
    · simp [boltdb.boltDB.ReverseIterator, hb, Engine.Begin]
    · obtain ⟨m, hm, hit, htake⟩ := boltdb_reverse_start es start end_
      have hq : (fun (e : List Byte × List Byte) =>
          !decide (start ≠ none ∧ bytes.Compare (some e.1) start < 0)) =
          (fun e => !decide (bytes.compareList e.1 (start.getD []) < 0)) := by
        funext e
        have hc : bytes.Compare (some e.1) start = bytes.compareList e.1 (start.getD []) := rfl
        rw [hc]
        cases start with
        | none =>
          have := compareList_nil_right e.1
          have h1 : ¬ bytes.compareList e.1 [] < 0 := by omega
          simp [h1]
        | some s => simp
      rw [hit, boltdb_drain_reverse es start end_ m fuel hm (by omega), htake, hpred, hq]
      rw [takeWhile_reverse_takeWhile_eq_filter (fun a b => bytes.compareList a.1 b.1 < 0) _ _
        (below_start_closed start) (below_end_closed end_) es hs]

/-- C15, witness: the keys `A, B, C, D, E` and the range `[A, D)`: forward
`A, B, C`, in reverse `C, B, A`. -/
theorem boltdb_iterator_drains_range_witness :
    (boltdb.newBoltDBIterator
      [([0x41], [0x01]), ([0x42], [0x02]), ([0x43], [0x03]), ([0x44], [0x04]), ([0x45], [0x05])]
      (some [0x41]) (some [0x44]) false).drain 6 =
      some (.ok [some [0x41], some [0x42], some [0x43]]) ∧
    (boltdb.newBoltDBIterator
      [([0x41], [0x01]), ([0x42], [0x02]), ([0x43], [0x03]), ([0x44], [0x04]), ([0x45], [0x05])]
      (some [0x41]) (some [0x44]) true).drain 6 =
      some (.ok [some [0x43], some [0x42], some [0x41]]) := by
  obtain ⟨⟨it, h1, h2⟩, ⟨rit, h3, h4⟩⟩ :=
    boltdb_iterator_drains_range
      [([0x41], [0x01]), ([0x42], [0x02]), ([0x43], [0x03]), ([0x44], [0x04]), ([0x45], [0x05])]
      (by decide) (some [0x41]) (some [0x44]) (Or.inr (by decide)) (Or.inr (by decide)) 6
      (by decide)
  have e1 : boltdb.boltDB.Iterator
      ⟨⟨[([0x41], [0x01]), ([0x42], [0x02]), ([0x43], [0x03]), ([0x44], [0x04]),
        ([0x45], [0x05])], none⟩⟩ (some [0x41]) (some [0x44]) =
      (some (boltdb.newBoltDBIterator
        [([0x41], [0x01]), ([0x42], [0x02]), ([0x43], [0x03]), ([0x44], [0x04]),
          ([0x45], [0x05])] (some [0x41]) (some [0x44]) false), none) := rfl
  have e3 : boltdb.boltDB.ReverseIterator
      ⟨⟨[([0x41], [0x01]), ([0x42], [0x02]), ([0x43], [0x03]), ([0x44], [0x04]),
        ([0x45], [0x05])], none⟩⟩ (some [0x41]) (some [0x44]) =
      (some (boltdb.newBoltDBIterator
        [([0x41], [0x01]), ([0x42], [0x02]), ([0x43], [0x03]), ([0x44], [0x04]),
          ([0x45], [0x05])] (some [0x41]) (some [0x44]) true), none) := rfl
  rw [e1] at h1
  rw [e3] at h3
  cases h1
  cases h3
  exact ⟨h2.trans (by decide), h4.trans (by decide)⟩

/-! ### The boundary rule of the iterators -/

theorem boltdb_Valid_cases (it : boltdb.boltDBIterator) :
    (it.Valid = (false, it) ∧ it.isInvalid = true) ∨
    (it.Valid = (false, { it with isInvalid := true }) ∧ it.isInvalid = false ∧ it.outside) ∨
    (it.Valid = (true, it) ∧ it.isInvalid = false ∧ ¬ it.outside) := by
  unfold boltdb.boltDBIterator.Valid boltdb.boltDBIterator.outside
  by_cases h0 : it.isInvalid = true
  · left; simp [h0]
  · have h0' : it.isInvalid = false := by simpa using h0
    right
    by_cases h2 : it.currentKey = none
    · left; simp [h0', boltdb.boltDBIterator.Error, h2]
    · by_cases h3 : it.isReverse = true
      · by_cases h4 : it.start ≠ none ∧ bytes.Compare it.currentKey it.start < 0
        · left
          refine ⟨?_, h0', Or.inr (Or.inl ⟨h3, h4⟩)⟩
          simp [h0', boltdb.boltDBIterator.Error, h2, h3, h4]
        · right
          refine ⟨?_, h0', ?_⟩
          · rw [if_neg h0, if_neg (by simp [boltdb.boltDBIterator.Error]), if_neg h2, if_pos h3,
              if_neg h4]
          · rintro (h | ⟨_, h⟩ | ⟨h, _⟩)
            · exact h2 h
            · exact h4 h
            · rw [h3] at h; cases h
      · have h3' : it.isReverse = false := by simpa using h3
        by_cases h4 : it.end_ ≠ none ∧ bytes.Compare it.end_ it.currentKey ≤ 0
        · left
          refine ⟨?_, h0', Or.inr (Or.inr ⟨h3', h4⟩)⟩
          simp [h0', boltdb.boltDBIterator.Error, h2, h3', h4]
        · right
          refine ⟨?_, h0', ?_⟩
          · rw [if_neg h0, if_neg (by simp [boltdb.boltDBIterator.Error]), if_neg h2, if_neg h3,
              if_neg h4]
          · rintro (h | ⟨h, _⟩ | ⟨_, h⟩)
            · exact h2 h
            · exact h3 h
            · exact h4 h

theorem boltdb_inv_Valid (it : boltdb.boltDBIterator)
    (h : it.isInvalid = true → it.outside) :
    (it.Valid).2.isInvalid = true → (it.Valid).2.outside := by
  rcases boltdb_Valid_cases it with ⟨hv, hi⟩ | ⟨hv, _, ho⟩ | ⟨hv, hi, _⟩
  · rw [hv]; exact fun _ => h hi
  · rw [hv]; exact fun _ => ho
  · rw [hv]; intro h'; rw [hi] at h'; cases h'

theorem boltdb_reachable_inv (it : boltdb.boltDBIterator)
    (hr : boltdb.boltDBIterator.Reachable it) : it.isInvalid = true → it.outside := by
  induction hr with
  | new tx start end_ isReverse => intro h; cases h
  | valid _ ih => exact boltdb_inv_Valid _ ih
  | @next it0 _ ih =>
    rcases boltdb_Valid_cases it0 with ⟨hv, hi⟩ | ⟨hv, _, ho⟩ | ⟨hv, hi, _⟩
    · have : (it0.Next).2 = it0 := by
        simp [boltdb.boltDBIterator.Next, boltdb.boltDBIterator.assertIsValid, hv]
      rw [this]; exact ih
    · have : (it0.Next).2 = { it0 with isInvalid := true } := by
        simp [boltdb.boltDBIterator.Next, boltdb.boltDBIterator.assertIsValid, hv]
      rw [this]; exact fun _ => ho
    · intro h
      have : (it0.Next).2.isInvalid = false := by
        unfold boltdb.boltDBIterator.Next boltdb.boltDBIterator.assertIsValid
        rw [hv]
        by_cases hrev : it0.isReverse = true <;> simp [hrev, hi]
      rw [this] at h; cases h
  | @key it0 _ ih =>
    have : (it0.Key).2 = (it0.Valid).2 := by
      unfold boltdb.boltDBIterator.Key boltdb.boltDBIterator.assertIsValid
      cases hv : (it0.Valid).1 <;> simp [hv]
    rw [this]; exact boltdb_inv_Valid _ ih
  | @value it0 _ ih =>
    have : (it0.Value).2 = (it0.Valid).2 := by
      unfold boltdb.boltDBIterator.Value boltdb.boltDBIterator.assertIsValid
      cases hv : (it0.Valid).1
      · simp [hv]
      · by_cases hc : (it0.Valid).2.currentValue ≠ none <;> simp [hv, hc]
    rw [this]; exact boltdb_inv_Valid _ ih

theorem goleveldb_Valid_cases (it : goleveldb.goLevelDBIterator) :
    (it.Valid = (false, it) ∧ it.isInvalid = true) ∨
    (it.Valid = (false, { it with isInvalid := true }) ∧ it.isInvalid = false ∧ it.outside) ∨
    (it.Valid = (true, it) ∧ it.isInvalid = false ∧ ¬ it.outside) := by
  unfold goleveldb.goLevelDBIterator.Valid goleveldb.goLevelDBIterator.outside
  by_cases h0 : it.isInvalid = true
  · left; simp [h0]
  · have h0' : it.isInvalid = false := by simpa using h0
    right
    by_cases h1 : it.iter.err = none
    · by_cases h2 : it.iter.Valid = true
      · by_cases h3 : it.isReverse = true
        · by_cases h4 : it.start ≠ none ∧ bytes.Compare it.iter.Key it.start < 0
          · left
            refine ⟨?_, h0', Or.inr (Or.inr (Or.inl ⟨h3, h4⟩))⟩
            simp [h0', goleveldb.goLevelDBIterator.Error, h1, h2, h3, h4]
          · right
            refine ⟨?_, h0', ?_⟩
            · simp only [goleveldb.goLevelDBIterator.Error]
              rw [if_neg h0, if_neg (by simp [h1]), if_neg (by simp [h2]), if_pos h3, if_neg h4]
            · rintro (h | h | ⟨_, h⟩ | ⟨h, _⟩)
              · exact h h1
              · rw [h2] at h; cases h
              · exact h4 h
              · rw [h3] at h; cases h
        · have h3' : it.isReverse = false := by simpa using h3
          by_cases h4 : it.end_ ≠ none ∧ bytes.Compare it.end_ it.iter.Key ≤ 0
          · left
            refine ⟨?_, h0', Or.inr (Or.inr (Or.inr ⟨h3', h4⟩))⟩
            simp [h0', goleveldb.goLevelDBIterator.Error, h1, h2, h3', h4]
          · right
            refine ⟨?_, h0', ?_⟩
            · simp only [goleveldb.goLevelDBIterator.Error]
              rw [if_neg h0, if_neg (by simp [h1]), if_neg (by simp [h2]), if_neg h3, if_neg h4]
            · rintro (h | h | ⟨h, _⟩ | ⟨_, h⟩)
              · exact h h1
              · rw [h2] at h; cases h
              · exact h3 h
              · exact h4 h
      · left
        have h2' : it.iter.Valid = false := by simpa using h2
        refine ⟨?_, h0', Or.inr (Or.inl h2')⟩
        simp [h0', goleveldb.goLevelDBIterator.Error, h1, h2']
    · left
      refine ⟨?_, h0', Or.inl h1⟩
      simp [h0', goleveldb.goLevelDBIterator.Error, h1]

theorem goleveldb_reachable_inv (it : goleveldb.goLevelDBIterator)
    (hr : goleveldb.goLevelDBIterator.Reachable it) : it.isInvalid = true → it.outside := by
  induction hr with
  | new c start end_ isReverse => intro h; cases h
  | @valid it0 _ ih =>
    rcases goleveldb_Valid_cases it0 with ⟨hv, hi⟩ | ⟨hv, _, ho⟩ | ⟨hv, hi, _⟩
    · rw [hv]; exact fun _ => ih hi
    · rw [hv]; exact fun _ => ho
    · rw [hv]; intro h'; rw [hi] at h'; cases h'
  | @next it0 it1 _ hn ih =>
    intro h
    unfold goleveldb.goLevelDBIterator.Next goleveldb.goLevelDBIterator.assertIsValid at hn
    rcases goleveldb_Valid_cases it0 with ⟨hv, hi⟩ | ⟨hv, _, ho⟩ | ⟨hv, hi, _⟩
    · simp [hv] at hn
    · simp [hv] at hn
    · rw [hv] at hn
      by_cases hrev : it0.isReverse = true
      · simp [hrev] at hn
        rw [← hn] at h
        simp [hi] at h
      · simp [hrev] at hn
        rw [← hn] at h
        simp [hi] at h

theorem Cursor_Valid_of_Key (c : Cursor) (k : List Byte) (h : c.Key = some k) :
    c.Valid = true := by
  unfold Cursor.Key at h
  by_cases hv : c.Valid = true
  · exact hv
  · rw [if_neg hv] at h; cases h

theorem Compare_swap (a b : Bytes) : bytes.Compare a b = - bytes.Compare b a :=
  compareList_swap _ _

theorem badger_Iterator_some (db : badgerdb.badgerDB) (start end_ : Bytes)
    (it : badgerdb.badgerDBIterator) :
    (db.Iterator start end_ = (some (some it), none) →
      db.iteratorOpts start end_ false = (some it, none)) ∧
    (db.ReverseIterator start end_ = (some (some it), none) →
      db.iteratorOpts end_ start true = (some it, none)) := by
  constructor
  · intro h
    unfold badgerdb.badgerDB.Iterator at h
    simp only [Prod.mk.injEq, Option.some.injEq] at h
    exact Prod.ext h.1 h.2
  · intro h
    unfold badgerdb.badgerDB.ReverseIterator at h
    simp only [Prod.mk.injEq, Option.some.injEq] at h
    exact Prod.ext h.1 h.2

theorem badger_iteratorOpts_fields (db : badgerdb.badgerDB) (a b : Bytes) (rev : Bool)
    (it : badgerdb.badgerDBIterator) (h : db.iteratorOpts a b rev = (some it, none)) :
    it.reverse = rev ∧ it.start = a ∧ it.end_ = b ∧ (a = none ∨ 0 < len a) ∧
      (b = none ∨ 0 < len b) := by
  unfold badgerdb.badgerDB.iteratorOpts at h
  by_cases hb : (a ≠ none ∧ len a = 0) ∨ (b ≠ none ∧ len b = 0)
  · rw [if_pos hb] at h; cases h
  · rw [if_neg hb] at h
    simp only [Prod.mk.injEq, Option.some.injEq, and_true] at h
    rw [← h]
    refine ⟨rfl, rfl, rfl, ?_, ?_⟩
    · by_cases ha : a = none
      · exact Or.inl ha
      · right
        by_contra hl
        exact hb (Or.inl ⟨ha, by omega⟩)
    · by_cases hb' : b = none
      · exact Or.inl hb'
      · right
        by_contra hl
        exact hb (Or.inr ⟨hb', by omega⟩)

theorem badger_Valid_eval (i : badgerdb.badgerDBIterator) (k : List Byte)
    (hk : i.iter.Key = some k) :
    i.Valid = if 0 < len i.end_ then
        (if (i.reverse = false ∧ 0 ≤ bytes.Compare (some k) i.end_) ∨
            (i.reverse = true ∧ bytes.Compare (some k) i.end_ < 0) then false else true)
      else true := by
  have hv : i.iter.Valid = true := Cursor_Valid_of_Key i.iter.cur k hk
  unfold badgerdb.badgerDBIterator.Valid
  simp [hv, hk]

/-- C14: the boundary rule of the `boltdb`, `goleveldb` and `badgerdb`
iterators. With the cursor on a key `k`: a forward iterator with an end bound
that is not `nil` answers `Valid() = false` when `k >= end`; a reverse iterator
with a start bound that is not `nil` answers `Valid() = false` when `k < start`;
and an iterator the code has produced, with no engine error and `k` inside
`[start, end)`, answers `Valid() = true`. -/
theorem iterator_boundary_rule :
    (∀ (it : boltdb.boltDBIterator) (k : List Byte), it.currentKey = some k →
      (it.isReverse = false → it.end_ ≠ none → 0 ≤ bytes.Compare (some k) it.end_ →
        (it.Valid).1 = false) ∧
      (it.isReverse = true → it.start ≠ none → bytes.Compare (some k) it.start < 0 →
        (it.Valid).1 = false) ∧
      (boltdb.boltDBIterator.Reachable it → IsKeyInDomain (some k) it.start it.end_ = true →
        (it.Valid).1 = true)) ∧
    (∀ (it : goleveldb.goLevelDBIterator) (k : List Byte), it.iter.Key = some k →
      (it.isReverse = false → it.end_ ≠ none → 0 ≤ bytes.Compare (some k) it.end_ →
        (it.Valid).1 = false) ∧
      (it.isReverse = true → it.start ≠ none → bytes.Compare (some k) it.start < 0 →
        (it.Valid).1 = false) ∧
      (goleveldb.goLevelDBIterator.Reachable it → it.iter.err = none →
        IsKeyInDomain (some k) it.start it.end_ = true → (it.Valid).1 = true)) ∧
    (∀ (db : badgerdb.badgerDB) (start end_ : Bytes) (it : badgerdb.badgerDBIterator)
      (c : ItemIterator) (k : List Byte), c.Key = some k →
      (db.Iterator start end_ = (some (some it), none) → end_ ≠ none →
        0 ≤ bytes.Compare (some k) end_ →
        badgerdb.badgerDBIterator.Valid { it with iter := c } = false) ∧
      (db.ReverseIterator start end_ = (some (some it), none) → start ≠ none →
        bytes.Compare (some k) start < 0 →
        badgerdb.badgerDBIterator.Valid { it with iter := c } = false) ∧
      ((db.Iterator start end_ = (some (some it), none) ∨
          db.ReverseIterator start end_ = (some (some it), none)) →
        IsKeyInDomain (some k) start end_ = true →
        badgerdb.badgerDBIterator.Valid { it with iter := c } = true)) := by
  refine ⟨?_, ?_, ?_⟩
  · intro it k hk
    refine ⟨?_, ?_, ?_⟩
    · intro hrev hend hge
      have hsw := Compare_swap it.end_ (some k)
      have ho : it.outside := Or.inr (Or.inr ⟨hrev, hend, by rw [hk]; omega⟩)
      rcases boltdb_Valid_cases it with ⟨hv, _⟩ | ⟨hv, _, _⟩ | ⟨_, _, hn⟩
      · rw [hv]
      · rw [hv]
      · exact absurd ho hn
    · intro hrev hst hlt
      have ho : it.outside := Or.inr (Or.inl ⟨hrev, hst, by rw [hk]; exact hlt⟩)
      rcases boltdb_Valid_cases it with ⟨hv, _⟩ | ⟨hv, _, _⟩ | ⟨_, _, hn⟩
      · rw [hv]
      · rw [hv]
      · exact absurd ho hn
    · intro hr hdom
      rw [IsKeyInDomain_iff] at hdom
      have hno : ¬ it.outside := by
        rintro (h | ⟨_, _, h⟩ | ⟨_, hne, h⟩)
        · rw [hk] at h; cases h
        · rw [hk] at h; omega
        · rw [hk] at h
          rcases hdom.2 with h2 | h2
          · exact hne h2
          · omega
      rcases boltdb_Valid_cases it with ⟨_, hi⟩ | ⟨_, _, ho⟩ | ⟨hv, _, _⟩
      · exact absurd (boltdb_reachable_inv it hr hi) hno
      · exact absurd ho hno
      · rw [hv]
  · intro it k hk
    refine ⟨?_, ?_, ?_⟩
    · intro hrev hend hge
      have hsw := Compare_swap it.end_ (some k)
      have ho : it.outside := Or.inr (Or.inr (Or.inr ⟨hrev, hend, by rw [hk]; omega⟩))
      rcases goleveldb_Valid_cases it with ⟨hv, _⟩ | ⟨hv, _, _⟩ | ⟨_, _, hn⟩
      · rw [hv]
      · rw [hv]
      · exact absurd ho hn
    · intro hrev hst hlt
      have ho : it.outside := Or.inr (Or.inr (Or.inl ⟨hrev, hst, by rw [hk]; exact hlt⟩))
      rcases goleveldb_Valid_cases it with ⟨hv, _⟩ | ⟨hv, _, _⟩ | ⟨_, _, hn⟩
      · rw [hv]
      · rw [hv]
      · exact absurd ho hn
    · intro hr herr hdom
      rw [IsKeyInDomain_iff] at hdom
      have hcv := Cursor_Valid_of_Key it.iter k hk
      have hno : ¬ it.outside := by
        rintro (h | h | ⟨_, _, h⟩ | ⟨_, hne, h⟩)
        · exact h herr
        · rw [hcv] at h; cases h
        · rw [hk] at h; omega
        · rw [hk] at h
          rcases hdom.2 with h2 | h2
          · exact hne h2
          · omega
      rcases goleveldb_Valid_cases it with ⟨_, hi⟩ | ⟨_, _, ho⟩ | ⟨hv, _, _⟩
      · exact absurd (goleveldb_reachable_inv it hr hi) hno
      · exact absurd ho hno
      · rw [hv]
  · intro db start end_ it c k hk
    refine ⟨?_, ?_, ?_⟩
    · intro hit hend hge
      obtain ⟨h1, _, h3, _, h5⟩ := badger_iteratorOpts_fields db start end_ false it
        ((badger_Iterator_some db start end_ it).1 hit)
      have hlen : 0 < len end_ := by
        rcases h5 with h | h
        · exact absurd h hend
        · exact h
      rw [badger_Valid_eval _ k hk]
      simp only [h1, h3]
      rw [if_pos hlen, if_pos (Or.inl ⟨trivial, hge⟩)]
    · intro hit hst hlt
      obtain ⟨h1, _, h3, _, h5⟩ := badger_iteratorOpts_fields db end_ start true it
        ((badger_Iterator_some db start end_ it).2 hit)
      have hlen : 0 < len start := by
        rcases h5 with h | h
        · exact absurd h hst
        · exact h
      rw [badger_Valid_eval _ k hk]
      simp only [h1, h3]
      rw [if_pos hlen, if_pos (Or.inr ⟨trivial, hlt⟩)]
    · intro hit hdom
      rw [IsKeyInDomain_iff] at hdom
      rcases hit with hit | hit
      · obtain ⟨h1, _, h3, _, _⟩ := badger_iteratorOpts_fields db start end_ false it
          ((badger_Iterator_some db start end_ it).1 hit)
        rw [badger_Valid_eval _ k hk]
        simp only [h1, h3]
        by_cases hlen : 0 < len end_
        · rw [if_pos hlen, if_neg]
          rintro (⟨_, h⟩ | ⟨h, _⟩)
          · have hsw := Compare_swap end_ (some k)
            rcases hdom.2 with h2 | h2
            · rw [h2] at hlen; exact absurd hlen (by decide)
            · omega
          · cases h
        · rw [if_neg hlen]
      · obtain ⟨h1, _, h3, _, _⟩ := badger_iteratorOpts_fields db end_ start true it
          ((badger_Iterator_some db start end_ it).2 hit)
        rw [badger_Valid_eval _ k hk]
        simp only [h1, h3]
        by_cases hlen : 0 < len start
        · rw [if_pos hlen, if_neg]
          rintro (⟨h, _⟩ | ⟨_, h⟩)
          · cases h
          · omega
        · rw [if_neg hlen]

/-- C14, witness: the forward `boltdb` iterator of `[A, D)` over the keys
`A, B, C, D, E`, as built, stands on `A` and answers `Valid() = true`. -/
theorem iterator_boundary_rule_witness :
    (boltdb.newBoltDBIterator
      [([0x41], [0x01]), ([0x42], [0x02]), ([0x43], [0x03]), ([0x44], [0x04]), ([0x45], [0x05])]
      (some [0x41]) (some [0x44]) false).currentKey = some [0x41] ∧
    ((boltdb.newBoltDBIterator
      [([0x41], [0x01]), ([0x42], [0x02]), ([0x43], [0x03]), ([0x44], [0x04]), ([0x45], [0x05])]
      (some [0x41]) (some [0x44]) false).Valid).1 = true :=
  ⟨by decide,
    (iterator_boundary_rule.1 _ [0x41] (by decide)).2.2
      (boltdb.boltDBIterator.Reachable.new _ _ _ _) (by decide)⟩

/-! ### The domain test and the successor of a prefix in the byte order -/

/-- C22: `IsKeyInDomain(key, start, end)` is `true` exactly when `key` is in the
half-open interval `[start, end)` of the lexicographic order of byte sequences:
`start <= key`, a `nil` start being the empty sequence and bounding nothing, and
`end` is `nil` or `key < end`. The order `<` on byte lists is the lexicographic
one. -/
theorem IsKeyInDomain_half_open (key start end_ : Bytes) :
    (IsKeyInDomain key start end_ = true ↔
      start.getD [] ≤ key.getD [] ∧ (end_ = none ∨ key.getD [] < end_.getD [])) ∧
    (start = none →
      (IsKeyInDomain key start end_ = true ↔ (end_ = none ∨ key.getD [] < end_.getD []))) ∧
    (∀ a b : List Byte, a < b ↔ List.Lex (fun x y => x < y) a b) := by
  have h1 : IsKeyInDomain key start end_ = true ↔
      start.getD [] ≤ key.getD [] ∧ (end_ = none ∨ key.getD [] < end_.getD []) := by
    rw [IsKeyInDomain_iff]
    have hge : 0 ≤ bytes.Compare key start ↔ start.getD [] ≤ key.getD [] :=
      compareList_ge_iff _ _
    have hgt : 0 < bytes.Compare end_ key ↔ key.getD [] < end_.getD [] :=
      compareList_gt_iff _ _
    rw [hge, hgt]
  refine ⟨h1, ?_, fun a b => Iff.rfl⟩
  intro hs
  rw [h1, hs]
  constructor
  · intro h; exact h.2
  · intro h; exact ⟨List.nil_le, h⟩

/-- C23, counterexample: `cpIncr [01 FF] = [02 00]`, yet the shorter sequence
`[02]` is below `[02 00]` and above every sequence that begins with `01 FF`. -/
theorem cpIncr_not_least_bound :
    cpIncr (some [0x01, 0xFF]) = .ok (some [0x02, 0x00]) ∧
    ([0x02] : List Byte) < [0x02, 0x00] ∧
    ∀ k : List Byte, [0x01, 0xFF] ++ k < ([0x02] : List Byte) := by
  refine ⟨by decide, ?_, ?_⟩
  · rw [← compareList_lt_iff]; decide
  · intro k
    rw [← compareList_lt_iff]
    show bytes.compareList (0x01 :: 0xFF :: k) [0x02] < 0
    rw [bytes.compareList, if_pos (by decide)]
    decide

/-- The decomposition of a sequence into a head, a byte below `0xFF` and a run
of trailing `0xFF` bytes is unique. -/
theorem trailing_ff_unique (pre pre' : List Byte) (b b' : Byte) (hb : b < 0xFF)
    (hb' : b' < 0xFF) (n : Nat) :
    ∀ n' : Nat, pre ++ b :: List.replicate n 0xFF = pre' ++ b' :: List.replicate n' 0xFF →
      pre = pre' ∧ b = b' ∧ n = n' := by
  induction n with
  | zero =>
    intro n' h
    cases n' with
    | zero =>
      have h1 : pre ++ [b] = pre' ++ [b'] := by simpa using h
      have h3 := List.append_inj_left' h1 rfl
      have h4 := List.append_inj_right' h1 rfl
      exact ⟨h3, by simpa using h4, rfl⟩
    | succ k =>
      have h1 : pre ++ [b] = (pre' ++ b' :: List.replicate k 0xFF) ++ [0xFF] := by
        rw [List.replicate_succ'] at h
        simpa using h
      have h4 := List.append_inj_right' h1 rfl
      have h5 : b = 0xFF := by simpa using h4
      rw [h5] at hb
      exact absurd hb (lt_irrefl _)
  | succ n ih =>
    intro n' h
    cases n' with
    | zero =>
      have h1 : (pre ++ b :: List.replicate n 0xFF) ++ [0xFF] = pre' ++ [b'] := by
        rw [List.replicate_succ'] at h
        simpa using h
      have h4 := List.append_inj_right' h1 rfl
      have h5 : (0xFF : Byte) = b' := by simpa using h4
      rw [← h5] at hb'
      exact absurd hb' (lt_irrefl _)
    | succ k =>
      have h1 : (pre ++ b :: List.replicate n 0xFF) ++ [0xFF] =
          (pre' ++ b' :: List.replicate k 0xFF) ++ [0xFF] := by
        rw [List.replicate_succ', List.replicate_succ'] at h
        simpa using h
      have h3 := List.append_inj_left' h1 rfl
      obtain ⟨e1, e2, e3⟩ := ih k h3
      exact ⟨e1, e2, by rw [e3]⟩

/-- C23, as amended: for a non-empty prefix `p` with `cpIncr p = q` not `nil`,
`q` is above every sequence that begins with `p`; a sequence below `q` that is
also above all of them is shorter than `p` and exists only when `p` ends in
`0xFF`; so `q` is the least such bound among the sequences at least as long as
`p`, and the least of all when the last byte of `p` is not `0xFF`. When `p`
ends in `0xFF`, a smaller bound exists: `q` without its trailing zero bytes,
which is shorter than `p` and is the least of all such bounds. -/
theorem cpIncr_upper_bound (p : List Byte) (hp : p ≠ []) (q : List Byte)
    (hq : cpIncr (some p) = .ok (some q)) :
    (∀ k : List Byte, p ++ k < q) ∧
    (∀ y : List Byte, (∀ k : List Byte, p ++ k < y) → y < q →
      y.length < p.length ∧ p.getLast? = some 0xFF) ∧
    (∀ y : List Byte, (∀ k : List Byte, p ++ k < y) → p.length ≤ y.length → q ≤ y) ∧
    (p.getLast? ≠ some 0xFF → ∀ y : List Byte, (∀ k : List Byte, p ++ k < y) → q ≤ y) ∧
    (p.getLast? = some 0xFF →
      ∃ (y : List Byte) (n : Nat), 0 < n ∧ q = y ++ List.replicate n 0 ∧
        y.getLast? ≠ some 0 ∧ y < q ∧ y.length < p.length ∧
        (∀ k : List Byte, p ++ k < y) ∧
        (∀ z : List Byte, (∀ k : List Byte, p ++ k < z) → y ≤ z)) := by
  rw [cpIncr_eq_incrSpec p hp] at hq
  have hs : incrSpec p = some q := Except.ok.inj hq
  have h2 : ∀ y : List Byte, (∀ k : List Byte, p ++ k < y) → y < q →
      y.length < p.length ∧ p.getLast? = some 0xFF := by
    intro y hy hlt
    have hpy : p < y := by simpa using hy []
    have hge : 0 ≤ bytes.compareList y p := (compareList_ge_iff y p).mpr (le_of_lt hpy)
    have hgt : 0 < bytes.compareList q y := (compareList_gt_iff q y).mpr hlt
    rcases range_of_incrSpec_some p q y hs hge hgt with ⟨k, hk⟩ | ⟨pre, b, n, m, e1, _, e3, e4⟩
    · exact absurd (hk ▸ hy k) (lt_irrefl _)
    · constructor
      · rw [e1, e4]; exact length_lt_of_exceptional pre b (b + 1) n m e3
      · rw [e1]; exact getLast?_of_trailing_ff pre b n (by omega)
  refine ⟨?_, h2, ?_, ?_, ?_⟩
  · intro k
    exact (compareList_gt_iff q (p ++ k)).mp (incrSpec_gt_append p q k hs)
  · intro y hy hlen
    by_contra hc
    have := (h2 y hy (not_le.mp hc)).1
    omega
  · intro hlast y hy
    by_contra hc
    exact hlast (h2 y hy (not_le.mp hc)).2
  · intro hlast
    obtain ⟨pre, b, n, e1, e2, e3⟩ := incrSpec_some_shape p q hs
    have hn : 0 < n := by
      rcases Nat.eq_zero_or_pos n with h0 | h0
      · subst h0
        have h5 : p.getLast? = some b := by
          rw [e1]
          show (pre ++ [b]).getLast? = some b
          exact List.getLast?_concat _
        rw [h5] at hlast
        have h6 : b = 0xFF := Option.some.inj hlast
        rw [h6] at e2
        exact absurd e2 (lt_irrefl _)
      · exact h0
    have hq' : q = (pre ++ [b + 1]) ++ List.replicate n 0 := by
      rw [e3]; simp
    have hyq : pre ++ [b + 1] < q := by
      rw [← compareList_lt_iff, hq', List.append_assoc, compareList_append_left]
      obtain ⟨m, rfl⟩ : ∃ m, n = m + 1 := ⟨n - 1, by omega⟩
      simp [List.replicate_succ, bytes.compareList]
    have hbound : ∀ k : List Byte, p ++ k < pre ++ [b + 1] := by
      intro k
      rw [← compareList_lt_iff, e1, List.append_assoc, compareList_append_left]
      show bytes.compareList (b :: (List.replicate n 0xFF ++ k)) [b + 1] < 0
      rw [bytes.compareList, if_pos (byte_lt_succ b e2)]
      decide
    refine ⟨pre ++ [b + 1], n, hn, hq', ?_, hyq, ?_, hbound, ?_⟩
    · rw [List.getLast?_concat]
      intro h
      have h7 := congrArg Fin.val (Option.some.inj h)
      rw [byte_succ_val b e2] at h7
      simp at h7
    · rw [e1]
      simp only [List.length_append, List.length_cons, List.length_replicate,
        List.length_nil]
      omega
    · intro z hz
      by_contra hc
      have hzy : z < pre ++ [b + 1] := not_le.mp hc
      have hzq : z < q := lt_trans hzy hyq
      have hpz : p < z := by simpa using hz []
      have hge : 0 ≤ bytes.compareList z p := (compareList_ge_iff z p).mpr (le_of_lt hpz)
      have hgt : 0 < bytes.compareList q z := (compareList_gt_iff q z).mpr hzq
      rcases range_of_incrSpec_some p q z hs hge hgt with ⟨k, hk⟩ |
        ⟨pre', b', n', m, f1, f2, _, f4⟩
      · exact absurd (hk ▸ hz k) (lt_irrefl _)
      · obtain ⟨u1, u2, _⟩ := trailing_ff_unique pre pre' b b' e2 f2 n n' (e1.symm.trans f1)
        have hz' : z = (pre ++ [b + 1]) ++ List.replicate m 0 := by
          rw [f4, ← u1, ← u2]; simp
        have h8 : pre ++ [b + 1] ≤ z := by
          rw [hz']
          exact (compareList_ge_iff _ _).mp (compareList_append_self _ _)
        exact absurd hzy (not_lt.mpr h8)

/-- C23, witness: `cpIncr "ns:" = "ns;"`, which is above `"ns:a"`; and for the
prefix `01 FF`, which ends in `0xFF`, a bound below `cpIncr [01 FF] = [02 00]`
exists. -/
theorem cpIncr_upper_bound_witness :
    cpIncr (some [0x6E, 0x73, 0x3A]) = .ok (some [0x6E, 0x73, 0x3B]) ∧
    ([0x6E, 0x73, 0x3A] ++ [0x61] : List Byte) < [0x6E, 0x73, 0x3B] ∧
    cpIncr (some [0x01, 0xFF]) = .ok (some [0x02, 0x00]) ∧
    ∃ (y : List Byte) (n : Nat), 0 < n ∧ ([0x02, 0x00] : List Byte) = y ++ List.replicate n 0 ∧
      y.getLast? ≠ some 0 ∧ y < [0x02, 0x00] ∧ y.length < ([0x01, 0xFF] : List Byte).length ∧
      (∀ k : List Byte, [0x01, 0xFF] ++ k < y) ∧
      (∀ z : List Byte, (∀ k : List Byte, [0x01, 0xFF] ++ k < z) → y ≤ z) :=
  ⟨by decide,
    (cpIncr_upper_bound [0x6E, 0x73, 0x3A] (by decide) [0x6E, 0x73, 0x3B] (by decide)).1 [0x61],
    by decide,
    (cpIncr_upper_bound [0x01, 0xFF] (by decide) [0x02, 0x00] (by decide)).2.2.2.2 (by decide)⟩

/-! ### Bounds of the iterators -/

/-- The test of the bounds in `PrefixDB` and in the four backends. When `start`
or `end` is not `nil` and has zero length, `Iterator(start, end)` and
`ReverseIterator(start, end)` return `ErrKeyEmpty`, whatever the wrapped store
or the state of the engine (no transaction or cursor is opened: the answer does
not depend on them); `PrefixDB`, `boltdb`, `goleveldb` and `pebble` return the
`nil` iterator with it, `badgerdb` an iterator value that is not `nil` and
holds a `nil` pointer. Bounds that are `nil` or non-empty pass the test: the
backends with a working engine return an iterator and no error, and `PrefixDB`
returns what comes from the iterator of the wrapped store. -/
theorem empty_bound_rejected {σ ι κ : Type} (d : DB σ ι)
    (npi : Bytes → Bytes → Bytes → ι → Option κ × Option Error) (pdb : PrefixDB σ)
    (bdb : boltdb.boltDB) (gdb : goleveldb.goLevelDB) (pb : pebble.pebbleDB)
    (bg : badgerdb.badgerDB) (start end_ : Bytes) :
    (((start ≠ none ∧ len start = 0) ∨ (end_ ≠ none ∧ len end_ = 0)) →
      PrefixDB.Iterator d npi pdb start end_ = .ok (none, some Error.ErrKeyEmpty) ∧
      PrefixDB.ReverseIterator d npi pdb start end_ = .ok (none, some Error.ErrKeyEmpty) ∧
      bdb.Iterator start end_ = (none, some Error.ErrKeyEmpty) ∧
      bdb.ReverseIterator start end_ = (none, some Error.ErrKeyEmpty) ∧
      gdb.Iterator start end_ = (none, some Error.ErrKeyEmpty) ∧
      gdb.ReverseIterator start end_ = (none, some Error.ErrKeyEmpty) ∧
      pb.Iterator start end_ = (none, some Error.ErrKeyEmpty) ∧
      pb.ReverseIterator start end_ = (none, some Error.ErrKeyEmpty) ∧
      bg.Iterator start end_ = (some none, some Error.ErrKeyEmpty) ∧
      bg.ReverseIterator start end_ = (some none, some Error.ErrKeyEmpty)) ∧
    ((start = none ∨ 0 < len start) → (end_ = none ∨ 0 < len end_) →
      (∀ (pend : Bytes) (itr : ι),
        (if end_ = none then cpIncr pdb.pfx else .ok (append (cp pdb.pfx) end_)) =
          Except.ok pend →
        (d.Iterator pdb.db (append (cp pdb.pfx) start) pend = (itr, none) →
          PrefixDB.Iterator d npi pdb start end_ = .ok (npi pdb.pfx start end_ itr)) ∧
        (d.ReverseIterator pdb.db (append (cp pdb.pfx) start) pend = (itr, none) →
          PrefixDB.ReverseIterator d npi pdb start end_ = .ok (npi pdb.pfx start end_ itr))) ∧
      (bdb.db.fault = none →
        bdb.Iterator start end_ = (some (boltdb.newBoltDBIterator bdb.db.entries start end_ false),
          none) ∧
        bdb.ReverseIterator start end_ =
          (some (boltdb.newBoltDBIterator bdb.db.entries start end_ true), none)) ∧
      (∃ it, gdb.Iterator start end_ = (some it, none)) ∧
      (∃ it, gdb.ReverseIterator start end_ = (some it, none)) ∧
      (∃ it, pb.Iterator start end_ = (some it, none)) ∧
      (∃ it, pb.ReverseIterator start end_ = (some it, none)) ∧
      (∃ it, bg.Iterator start end_ = (some (some it), none)) ∧
      (∃ it, bg.ReverseIterator start end_ = (some (some it), none))) := by
  constructor
  · intro hb
    have hb' : (end_ ≠ none ∧ len end_ = 0) ∨ (start ≠ none ∧ len start = 0) := hb.symm
    refine ⟨?_, ?_, ?_, ?_, ?_, ?_, ?_, ?_, ?_, ?_⟩
    · simp only [PrefixDB.Iterator, if_pos hb]
    · simp only [PrefixDB.ReverseIterator, if_pos hb]
    · simp only [boltdb.boltDB.Iterator, if_pos hb]
    · simp only [boltdb.boltDB.ReverseIterator, if_pos hb]
    · simp only [goleveldb.goLevelDB.Iterator, if_pos hb]
    · simp only [goleveldb.goLevelDB.ReverseIterator, if_pos hb]
    · simp only [pebble.pebbleDB.Iterator, if_pos hb]
    · simp only [pebble.pebbleDB.ReverseIterator, if_pos hb]
    · simp only [badgerdb.badgerDB.Iterator, badgerdb.badgerDB.iteratorOpts, if_pos hb]
    · simp only [badgerdb.badgerDB.ReverseIterator, badgerdb.badgerDB.iteratorOpts, if_pos hb']
  · intro hs he
    have hb : ¬ ((start ≠ none ∧ len start = 0) ∨ (end_ ≠ none ∧ len end_ = 0)) := by
      rintro (⟨h1, h2⟩ | ⟨h1, h2⟩)
      · rcases hs with h | h
        · exact h1 h
        · omega
      · rcases he with h | h
        · exact h1 h
        · omega
    have hb' : ¬ ((end_ ≠ none ∧ len end_ = 0) ∨ (start ≠ none ∧ len start = 0)) :=
      fun h => hb h.symm
    refine ⟨?_, ?_, ?_, ?_, ?_, ?_, ?_, ?_⟩
    · intro pend itr hpend
      exact ⟨(Iterator_eval d npi pdb start end_ pend hb hpend).1 itr,
        (ReverseIterator_eval d npi pdb start end_ pend hb hpend).1 itr⟩
    · intro hf
      constructor
      · simp only [boltdb.boltDB.Iterator, if_neg hb, Engine.Begin, hf]
      · simp only [boltdb.boltDB.ReverseIterator, if_neg hb, Engine.Begin, hf]
    · exact ⟨_, by unfold goleveldb.goLevelDB.Iterator; rw [if_neg hb]⟩
    · exact ⟨_, by unfold goleveldb.goLevelDB.ReverseIterator; rw [if_neg hb]⟩
    · exact ⟨_, by unfold pebble.pebbleDB.Iterator; rw [if_neg hb]⟩
    · exact ⟨_, by unfold pebble.pebbleDB.ReverseIterator; rw [if_neg hb]⟩
    · exact ⟨_, by
        unfold badgerdb.badgerDB.Iterator badgerdb.badgerDB.iteratorOpts; rw [if_neg hb]⟩
    · exact ⟨_, by
        unfold badgerdb.badgerDB.ReverseIterator badgerdb.badgerDB.iteratorOpts
        rw [if_neg hb']⟩

/-- An empty start that is not `nil` on a `boltdb` store whose engine is
failing: `Iterator` returns `ErrKeyEmpty`, not the error of the engine. -/
theorem empty_bound_rejected_witness :
    (boltdb.boltDB.Iterator ⟨⟨[], some (Error.engine 7)⟩⟩ (some []) none).2 =
      some Error.ErrKeyEmpty := by
  rw [((empty_bound_rejected mapDB recordPrefixIterator ⟨some [0x6E], fun _ => none⟩
    ⟨⟨[], some (Error.engine 7)⟩⟩ ⟨⟨[], none⟩⟩ ⟨⟨[], none⟩⟩ ⟨⟨[], none⟩⟩ (some []) none).1
    (Or.inl ⟨by decide, by decide⟩)).2.2.1]

/-- C21, evaluation at the failing input: on a `badgerdb` store, `Iterator` and
`ReverseIterator` with the empty start `[]byte{}` return `ErrKeyEmpty` together
with an iterator value that is not `nil`: the interface holds the `nil` pointer
of `iteratorOpts`. The same call on a `boltdb` store returns the `nil`
iterator. -/
theorem badger_empty_bound_typed_nil :
    badgerdb.badgerDB.Iterator ⟨⟨[], none⟩⟩ (some []) none =
      (some none, some Error.ErrKeyEmpty) ∧
    badgerdb.badgerDB.ReverseIterator ⟨⟨[], none⟩⟩ (some []) none =
      (some none, some Error.ErrKeyEmpty) ∧
    (badgerdb.badgerDB.Iterator ⟨⟨[], none⟩⟩ (some []) none).1 ≠ none ∧
    (badgerdb.badgerDB.ReverseIterator ⟨⟨[], none⟩⟩ (some []) none).1 ≠ none ∧
    boltdb.boltDB.Iterator ⟨⟨[], none⟩⟩ (some []) none = (none, some Error.ErrKeyEmpty) := by
  refine ⟨rfl, rfl, ?_, ?_, rfl⟩
  · intro h; cases h
  · intro h; cases h

theorem incrSpec_length (p q : List Byte) (h : incrSpec p = some q) : q.length = p.length := by
  obtain ⟨pre, b, n, e1, _, e3⟩ := incrSpec_some_shape p q h
  rw [e1, e3]
  simp

/-- C25: for a `PrefixDB` with a non-empty prefix `p` and bounds that are `nil`
or non-empty, `Iterator` and `ReverseIterator` do not panic; the physical end
they compute is `nil` or non-empty, and the physical start is `p ++ start`: not
`nil`, non-empty, beginning with `p`; so neither bound is an empty bound for the
wrapped store. -/
theorem prefix_iterator_bounds_wellformed {σ ι κ : Type} (d : DB σ ι)
    (npi : Bytes → Bytes → Bytes → ι → Option κ × Option Error) (s : σ)
    (p : List Byte) (hp : p ≠ []) (start end_ : Bytes)
    (hs : start = none ∨ 0 < len start) (he : end_ = none ∨ 0 < len end_) :
    ∃ pend : Bytes,
      (if end_ = none then cpIncr (some p) else .ok (append (cp (some p)) end_)) =
        Except.ok pend ∧
      (pend = none ∨ 0 < len pend) ∧
      append (cp (some p)) start = some (p ++ start.getD []) ∧
      0 < len (some (p ++ start.getD [])) ∧
      p <+: p ++ start.getD [] ∧
      ¬ (((some (p ++ start.getD []) : Bytes) ≠ none ∧ len (some (p ++ start.getD [])) = 0) ∨
        (pend ≠ none ∧ len pend = 0)) ∧
      (∃ r, PrefixDB.Iterator d npi ⟨some p, s⟩ start end_ = .ok r) ∧
      (∃ r, PrefixDB.ReverseIterator d npi ⟨some p, s⟩ start end_ = .ok r) ∧
      (∀ itr, d.Iterator s (some (p ++ start.getD [])) pend = (itr, none) →
        PrefixDB.Iterator d npi ⟨some p, s⟩ start end_ = .ok (npi (some p) start end_ itr)) ∧
      (∀ itr, d.ReverseIterator s (some (p ++ start.getD [])) pend = (itr, none) →
        PrefixDB.ReverseIterator d npi ⟨some p, s⟩ start end_ =
          .ok (npi (some p) start end_ itr)) := by
  have hpl : 0 < p.length := List.length_pos.mpr hp
  have hb : ¬ ((start ≠ none ∧ len start = 0) ∨ (end_ ≠ none ∧ len end_ = 0)) := by
    rintro (⟨h1, h2⟩ | ⟨h1, h2⟩)
    · rcases hs with h | h
      · exact h1 h
      · omega
    · rcases he with h | h
      · exact h1 h
      · omega
  have hps : append (cp (some p)) start = some (p ++ start.getD []) := by simp [append, cp]
  have hlen : 0 < len (some (p ++ start.getD [])) := by
    unfold len
    simp only [Option.getD_some, List.length_append]
    omega
  obtain ⟨pend, hpend, hpv⟩ : ∃ pend : Bytes,
      (if end_ = none then cpIncr (some p) else .ok (append (cp (some p)) end_)) =
        Except.ok pend ∧ (pend = none ∨ 0 < len pend) := by
    by_cases hen : end_ = none
    · refine ⟨incrSpec p, by rw [if_pos hen, cpIncr_eq_incrSpec p hp], ?_⟩
      cases hq : incrSpec p with
      | none => exact Or.inl rfl
      | some q =>
        right
        have := incrSpec_length p q hq
        unfold len
        simp only [Option.getD_some]
        omega
    · refine ⟨some (p ++ end_.getD []), by rw [if_neg hen]; simp [append, cp], Or.inr ?_⟩
      unfold len
      simp only [Option.getD_some, List.length_append]
      omega
  have hpend' : (if end_ = none then cpIncr (PrefixDB.mk (some p) s).pfx
      else .ok (append (cp (PrefixDB.mk (some p) s).pfx) end_)) = Except.ok pend := hpend
  have hI := Iterator_eval d npi ⟨some p, s⟩ start end_ pend hb hpend'
  have hR := ReverseIterator_eval d npi ⟨some p, s⟩ start end_ pend hb hpend'
  simp only [hps] at hI hR
  refine ⟨pend, hpend, hpv, hps, hlen, List.prefix_append p _, ?_, ?_, ?_, hI.1, hR.1⟩
  · rintro (⟨_, h⟩ | ⟨h1, h2⟩)
    · omega
    · rcases hpv with h | h
      · exact h1 h
      · omega
  · cases hr : d.Iterator s (some (p ++ start.getD [])) pend with
    | mk itr err =>
      cases err with
      | none => exact ⟨_, hI.1 itr hr⟩
      | some e => exact ⟨_, hI.2 itr e hr⟩
  · cases hr : d.ReverseIterator s (some (p ++ start.getD [])) pend with
    | mk itr err =>
      cases err with
      | none => exact ⟨_, hR.1 itr hr⟩
      | some e => exact ⟨_, hR.2 itr e hr⟩

/-- C25, witness: prefix `FF` over the map store and no bounds: the wrapped
iterator gets the domain `[FF, nil)`. -/
theorem prefix_iterator_bounds_wellformed_witness :
    PrefixDB.Iterator mapDB recordPrefixIterator ⟨some [0xFF], fun _ => none⟩ none none =
      .ok (some (some [0xFF], none, none, (some [0xFF], none)), none) := by
  obtain ⟨pend, h1, -, -, -, -, -, -, -, h9, -⟩ :=
    prefix_iterator_bounds_wellformed mapDB recordPrefixIterator (fun _ => none) [0xFF]
      (by decide) none none (Or.inl rfl) (Or.inl rfl)
  have hc : (if (none : Bytes) = none then cpIncr (some [0xFF])
      else .ok (append (cp (some [0xFF])) none)) = Except.ok none := by decide
  rw [hc] at h1
  cases h1
  exact h9 _ rfl

/-! ### Batches: failed commits and the order of the checks -/

/-- C28: in the `boltdb` and `goleveldb` batches, when the call of the engine
inside `Write()` or `WriteSync()` returns an error, `Write` returns that error,
the batch keeps its operations and stays open, and a later `Write()` runs the
commit again: it closes the batch when the engine then succeeds. -/
theorem failed_commit_keeps_batch :
    (∀ (ops : List boltdb.operation) (db : boltdb.boltDB) (e : Engine) (err : Error),
      db.db.Batch (boltdb.applyOps ops) = (e, some err) →
      boltdb.boltDBBatch.Write ⟨some ops⟩ db = (⟨some ops⟩, ⟨e⟩, some err) ∧
      boltdb.boltDBBatch.WriteSync ⟨some ops⟩ db = (⟨some ops⟩, ⟨e⟩, some err) ∧
      ∀ (db2 : boltdb.boltDB) (e2 : Engine), db2.db.Batch (boltdb.applyOps ops) = (e2, none) →
        boltdb.boltDBBatch.Write ⟨some ops⟩ db2 = (⟨none⟩, ⟨e2⟩, none)) ∧
    (∀ (ops : List BatchOp) (db : goleveldb.goLevelDB) (e : Engine) (err : Error),
      db.db.Write ops = (e, some err) →
      goleveldb.goLevelDBBatch.Write ⟨some ops⟩ db = (⟨some ops⟩, ⟨e⟩, some err) ∧
      goleveldb.goLevelDBBatch.WriteSync ⟨some ops⟩ db = (⟨some ops⟩, ⟨e⟩, some err) ∧
      ∀ (db2 : goleveldb.goLevelDB) (e2 : Engine), db2.db.Write ops = (e2, none) →
        goleveldb.goLevelDBBatch.Write ⟨some ops⟩ db2 = (⟨none⟩, ⟨e2⟩, none)) := by
  refine ⟨?_, ?_⟩
  · intro ops db e err h
    refine ⟨?_, ?_, ?_⟩
    · simp [boltdb.boltDBBatch.Write, h]
    · simp [boltdb.boltDBBatch.WriteSync, boltdb.boltDBBatch.Write, h]
    · intro db2 e2 h2
      simp [boltdb.boltDBBatch.Write, h2, boltdb.boltDBBatch.Close]
  · intro ops db e err h
    refine ⟨?_, ?_, ?_⟩
    · simp [goleveldb.goLevelDBBatch.Write, goleveldb.goLevelDBBatch.write, h]
    · simp [goleveldb.goLevelDBBatch.WriteSync, goleveldb.goLevelDBBatch.write, h]
    · intro db2 e2 h2
      simp [goleveldb.goLevelDBBatch.Write, goleveldb.goLevelDBBatch.write, h2,
        goleveldb.goLevelDBBatch.Close]

/-- C28, witness: a `goleveldb` batch with one `Set` written to a failing
engine: the error of the engine comes back and the batch is unchanged; written
again to a working engine, the batch is applied. -/
theorem failed_commit_keeps_batch_witness :
    goleveldb.goLevelDBBatch.Write ⟨some [BatchOp.set (some [0x61]) (some [0x31])]⟩
        ⟨⟨[], some (Error.engine 7)⟩⟩ =
      (⟨some [BatchOp.set (some [0x61]) (some [0x31])]⟩, ⟨⟨[], some (Error.engine 7)⟩⟩,
        some (Error.engine 7)) ∧
    goleveldb.goLevelDBBatch.Write ⟨some [BatchOp.set (some [0x61]) (some [0x31])]⟩
        ⟨⟨[], none⟩⟩ =
      (⟨none⟩, ⟨⟨[([0x61], [0x31])], none⟩⟩, none) :=
  ⟨(failed_commit_keeps_batch.2 _ ⟨⟨[], some (Error.engine 7)⟩⟩ _ (Error.engine 7) rfl).1,
    (failed_commit_keeps_batch.2 [BatchOp.set (some [0x61]) (some [0x31])]
      ⟨⟨[], some (Error.engine 7)⟩⟩ _ (Error.engine 7) rfl).2.2 ⟨⟨[], none⟩⟩ _ rfl⟩

/-- C29: in the `boltdb`, `goleveldb` and `pebble` batches, open or closed,
`Set` and `Delete` with a zero-length key return `ErrKeyEmpty` whatever the
value, and `Set` with a non-empty key and a `nil` value returns `ErrValueNil`;
the batch is left as it is. The closed state is tested last. -/
theorem batch_check_order (bb : boltdb.boltDBBatch) (gb : goleveldb.goLevelDBBatch)
    (pb : pebble.pebbleDBBatch) (key value : Bytes) :
    (len key = 0 →
      bb.Set key value = (bb, some Error.ErrKeyEmpty) ∧
      bb.Delete key = (bb, some Error.ErrKeyEmpty) ∧
      gb.Set key value = (gb, some Error.ErrKeyEmpty) ∧
      gb.Delete key = (gb, some Error.ErrKeyEmpty) ∧
      pb.Set key value = (pb, some Error.ErrKeyEmpty) ∧
      pb.Delete key = (pb, some Error.ErrKeyEmpty)) ∧
    (0 < len key →
      bb.Set key none = (bb, some Error.ErrValueNil) ∧
      gb.Set key none = (gb, some Error.ErrValueNil) ∧
      pb.Set key none = (pb, some Error.ErrValueNil)) := by
  constructor
  · intro hk
    refine ⟨?_, ?_, ?_, ?_, ?_, ?_⟩
    · simp [boltdb.boltDBBatch.Set, hk]
    · simp [boltdb.boltDBBatch.Delete, hk]
    · simp [goleveldb.goLevelDBBatch.Set, hk]
    · simp [goleveldb.goLevelDBBatch.Delete, hk]
    · simp [pebble.pebbleDBBatch.Set, hk]
    · simp [pebble.pebbleDBBatch.Delete, hk]
  · intro hk
    have hk' : len key ≠ 0 := by omega
    refine ⟨?_, ?_, ?_⟩
    · simp [boltdb.boltDBBatch.Set, hk']
    · simp [goleveldb.goLevelDBBatch.Set, hk']
    · simp [pebble.pebbleDBBatch.Set, hk']

/-- C29, witness: on closed batches, `Set("", nil)` returns `ErrKeyEmpty` and
`Set("a", nil)` returns `ErrValueNil`, not `ErrBatchClosed`. -/
theorem batch_check_order_witness :
    boltdb.boltDBBatch.Set ⟨none⟩ (some []) none = (⟨none⟩, some Error.ErrKeyEmpty) ∧
    pebble.pebbleDBBatch.Set ⟨none⟩ (some [0x61]) none = (⟨none⟩, some Error.ErrValueNil) :=
  ⟨((batch_check_order ⟨none⟩ ⟨none⟩ ⟨none⟩ (some []) none).1 (by decide)).1,
    ((batch_check_order ⟨none⟩ ⟨none⟩ ⟨none⟩ (some [0x61]) none).2 (by decide)).2.2⟩

/-! ### The domain reported by an iterator -/

/-- The domain reported by the iterators of the four backends: the pair the
iterator was created with, except for the reverse iterator of `badgerdb`, which
reports the pair in the opposite order. -/
theorem iterator_domain_as_created (bdb : boltdb.boltDB) (gdb : goleveldb.goLevelDB)
    (pb : pebble.pebbleDB) (bg : badgerdb.badgerDB) (start end_ : Bytes) :
    (∀ it, bdb.Iterator start end_ = (some it, none) → it.Domain = (start, end_)) ∧
    (∀ it, bdb.ReverseIterator start end_ = (some it, none) → it.Domain = (start, end_)) ∧
    (∀ it, gdb.Iterator start end_ = (some it, none) → it.Domain = (start, end_)) ∧
    (∀ it, gdb.ReverseIterator start end_ = (some it, none) → it.Domain = (start, end_)) ∧
    (∀ it, pb.Iterator start end_ = (some it, none) → it.Domain = (start, end_)) ∧
    (∀ it, pb.ReverseIterator start end_ = (some it, none) → it.Domain = (start, end_)) ∧
    (∀ it, bg.Iterator start end_ = (some (some it), none) → it.Domain = (start, end_)) ∧
    (∀ it, bg.ReverseIterator start end_ = (some (some it), none) →
      it.Domain = (end_, start)) := by
  refine ⟨?_, ?_, ?_, ?_, ?_, ?_, ?_, ?_⟩
  · intro it h
    unfold boltdb.boltDB.Iterator at h
    split at h
    · cases h
    · unfold Engine.Begin at h
      cases hf : bdb.db.fault with
      | some err => simp [hf] at h
      | none =>
        simp only [hf, Prod.mk.injEq, Option.some.injEq, and_true] at h
        rw [← h]; rfl
  · intro it h
    unfold boltdb.boltDB.ReverseIterator at h
    split at h
    · cases h
    · unfold Engine.Begin at h
      cases hf : bdb.db.fault with
      | some err => simp [hf] at h
      | none =>
        simp only [hf, Prod.mk.injEq, Option.some.injEq, and_true] at h
        rw [← h]; rfl
  · intro it h
    unfold goleveldb.goLevelDB.Iterator at h
    split at h
    · cases h
    · simp only [Prod.mk.injEq, Option.some.injEq, and_true] at h
      rw [← h]; rfl
  · intro it h
    unfold goleveldb.goLevelDB.ReverseIterator at h
    split at h
    · cases h
    · simp only [Prod.mk.injEq, Option.some.injEq, and_true] at h
      rw [← h]; rfl
  · intro it h
    unfold pebble.pebbleDB.Iterator at h
    split at h
    · cases h
    · simp only [Prod.mk.injEq, Option.some.injEq, and_true] at h
      rw [← h]; rfl
  · intro it h
    unfold pebble.pebbleDB.ReverseIterator at h
    split at h
    · cases h
    · simp only [Prod.mk.injEq, Option.some.injEq, and_true] at h
      rw [← h]; rfl
  · intro it h
    obtain ⟨_, h2, h3, _, _⟩ := badger_iteratorOpts_fields bg start end_ false it
      ((badger_Iterator_some bg start end_ it).1 h)
    simp [badgerdb.badgerDBIterator.Domain, h2, h3]
  · intro it h
    obtain ⟨_, h2, h3, _, _⟩ := badger_iteratorOpts_fields bg end_ start true it
      ((badger_Iterator_some bg start end_ it).2 h)
    simp [badgerdb.badgerDBIterator.Domain, h2, h3]

/-- C27, evaluation at the failing input: on a `badgerdb` store with the keys
`A, B, C, D, E`, the iterator returned by `ReverseIterator(A, D)` reports
`Domain() = (D, A)`, while the one returned by `Iterator(A, D)` reports
`(A, D)`. -/
theorem badger_reverse_domain_swapped :
    ((badgerdb.badgerDB.ReverseIterator
      ⟨⟨[([0x41], [0x01]), ([0x42], [0x02]), ([0x43], [0x03]), ([0x44], [0x04]),
        ([0x45], [0x05])], none⟩⟩ (some [0x41]) (some [0x44])).1.map
      (Option.map badgerdb.badgerDBIterator.Domain)) = some (some (some [0x44], some [0x41])) ∧
    ((badgerdb.badgerDB.Iterator
      ⟨⟨[([0x41], [0x01]), ([0x42], [0x02]), ([0x43], [0x03]), ([0x44], [0x04]),
        ([0x45], [0x05])], none⟩⟩ (some [0x41]) (some [0x44])).1.map
      (Option.map badgerdb.badgerDBIterator.Domain)) = some (some (some [0x41], some [0x44])) := by
  decide

theorem mapDB_mapFrame : MapFrame mapDB where
  get_set_other := by
    intro s s' key value k' h hne
    by_cases hk : len key = 0
    · simp [mapDB, hk] at h
    · by_cases hv : value = none
      · simp [mapDB, hk, hv] at h
      · simp only [mapDB, if_neg hk, if_neg hv, Prod.mk.injEq, and_true] at h
        simp [mapDB, ← h, Function.update_noteq hne]
  has_set_other := by
    intro s s' key value k' h hne
    by_cases hk : len key = 0
    · simp [mapDB, hk] at h
    · by_cases hv : value = none
      · simp [mapDB, hk, hv] at h
      · simp only [mapDB, if_neg hk, if_neg hv, Prod.mk.injEq, and_true] at h
        simp [mapDB, ← h, Function.update_noteq hne]
  get_setSync_other := by
    intro s s' key value k' h hne
    by_cases hk : len key = 0
    · simp [mapDB, hk] at h
    · by_cases hv : value = none
      · simp [mapDB, hk, hv] at h
      · simp only [mapDB, if_neg hk, if_neg hv, Prod.mk.injEq, and_true] at h
        simp [mapDB, ← h, Function.update_noteq hne]
  has_setSync_other := by
    intro s s' key value k' h hne
    by_cases hk : len key = 0
    · simp [mapDB, hk] at h
    · by_cases hv : value = none
      · simp [mapDB, hk, hv] at h
      · simp only [mapDB, if_neg hk, if_neg hv, Prod.mk.injEq, and_true] at h
        simp [mapDB, ← h, Function.update_noteq hne]
  get_delete_other := by
    intro s s' key k' h hne
    by_cases hk : len key = 0
    · simp [mapDB, hk] at h
    · simp only [mapDB, if_neg hk, Prod.mk.injEq, and_true] at h
      simp [mapDB, ← h, Function.update_noteq hne]
  has_delete_other := by
    intro s s' key k' h hne
    by_cases hk : len key = 0
    · simp [mapDB, hk] at h
    · simp only [mapDB, if_neg hk, Prod.mk.injEq, and_true] at h
      simp [mapDB, ← h, Function.update_noteq hne]
  get_deleteSync_other := by
    intro s s' key k' h hne
    by_cases hk : len key = 0
    · simp [mapDB, hk] at h
    · simp only [mapDB, if_neg hk, Prod.mk.injEq, and_true] at h
      simp [mapDB, ← h, Function.update_noteq hne]
  has_deleteSync_other := by
    intro s s' key k' h hne
    by_cases hk : len key = 0
    · simp [mapDB, hk] at h
    · simp only [mapDB, if_neg hk, Prod.mk.injEq, and_true] at h
      simp [mapDB, ← h, Function.update_noteq hne]

/-- Two byte sequences neither of which is a prefix of the other have no
common extension. -/
theorem append_ne_of_not_prefix (p1 p2 a b : List Byte) (h12 : ¬ p1 <+: p2)
    (h21 : ¬ p2 <+: p1) : p1 ++ a ≠ p2 ++ b := by
  intro h
  have h1 : p1 <+: p2 ++ b := ⟨a, h⟩
  have h2 : p2 <+: p2 ++ b := ⟨b, rfl⟩
  rcases List.prefix_or_prefix_of_prefix h1 h2 with h | h
  · exact h12 h
  · exact h21 h

/-- A successful write of the physical key `k1` through a `PrefixDB` leaves
the store in a state reached by a successful write of `k1` on the wrapped
store. -/
theorem prefixdb_write_cases {σ ι : Type} (d : DB σ ι) (pdb1 pdb1' : PrefixDB σ) (a v : Bytes)
    (hw : PrefixDB.Set d pdb1 a v = (pdb1', none) ∨
      PrefixDB.SetSync d pdb1 a v = (pdb1', none) ∨
      PrefixDB.Delete d pdb1 a = (pdb1', none) ∨
      PrefixDB.DeleteSync d pdb1 a = (pdb1', none)) :
    d.Set pdb1.db (some (pdb1.pfx.getD [] ++ a.getD [])) v = (pdb1'.db, none) ∨
    d.SetSync pdb1.db (some (pdb1.pfx.getD [] ++ a.getD [])) v = (pdb1'.db, none) ∨
    d.Delete pdb1.db (some (pdb1.pfx.getD [] ++ a.getD [])) = (pdb1'.db, none) ∨
    d.DeleteSync pdb1.db (some (pdb1.pfx.getD [] ++ a.getD [])) = (pdb1'.db, none) := by
  rcases hw with hw | hw | hw | hw
  · left
    unfold PrefixDB.Set at hw
    split at hw
    · cases hw
    · split at hw
      · cases hw
      · rw [prefixed_eq] at hw
        cases hr : d.Set pdb1.db (some (pdb1.pfx.getD [] ++ a.getD [])) v with
        | mk s' err =>
          simp only [hr] at hw
          cases err with
          | some e => simp at hw
          | none =>
            simp only [Prod.mk.injEq, and_true] at hw
            rw [← hw]
  · right; left
    unfold PrefixDB.SetSync at hw
    split at hw
    · cases hw
    · split at hw
      · cases hw
      · rw [prefixed_eq] at hw
        cases hr : d.SetSync pdb1.db (some (pdb1.pfx.getD [] ++ a.getD [])) v with
        | mk s' err =>
          simp only [hr, Prod.mk.injEq] at hw
          rw [← hw.1, hw.2]
  · right; right; left
    unfold PrefixDB.Delete at hw
    split at hw
    · cases hw
    · rw [prefixed_eq] at hw
      cases hr : d.Delete pdb1.db (some (pdb1.pfx.getD [] ++ a.getD [])) with
      | mk s' err =>
        simp only [hr, Prod.mk.injEq] at hw
        rw [← hw.1, hw.2]
  · right; right; right
    unfold PrefixDB.DeleteSync at hw
    split at hw
    · cases hw
    · rw [prefixed_eq] at hw
      cases hr : d.DeleteSync pdb1.db (some (pdb1.pfx.getD [] ++ a.getD [])) with
      | mk s' err =>
        simp only [hr, Prod.mk.injEq] at hw
        rw [← hw.1, hw.2]

/-- C26: two `PrefixDB`s over the same map-like wrapped store, with prefixes
`p1` and `p2` neither of which is a prefix of the other. For all keys `a` and
`b`, `p1 ++ a` differs from `p2 ++ b`; hence a successful `Set`, `SetSync`,
`Delete` or `DeleteSync` through the first leaves the results of `Get(b)` and
`Has(b)` through the second unchanged, for every `b`, in particular for every
non-empty one. -/
theorem prefixdb_namespaces_independent {σ ι : Type} (d : DB σ ι) (hd : MapFrame d)
    (pdb1 pdb2 : PrefixDB σ) (hsame : pdb2.db = pdb1.db)
    (h12 : ¬ pdb1.pfx.getD [] <+: pdb2.pfx.getD [])
    (h21 : ¬ pdb2.pfx.getD [] <+: pdb1.pfx.getD []) :
    (∀ a b : Bytes, pdb1.prefixed a ≠ pdb2.prefixed b) ∧
    ∀ (pdb1' : PrefixDB σ) (a v b : Bytes),
      (PrefixDB.Set d pdb1 a v = (pdb1', none) ∨
        PrefixDB.SetSync d pdb1 a v = (pdb1', none) ∨
        PrefixDB.Delete d pdb1 a = (pdb1', none) ∨
        PrefixDB.DeleteSync d pdb1 a = (pdb1', none)) →
      PrefixDB.Get d { pdb2 with db := pdb1'.db } b = PrefixDB.Get d pdb2 b ∧
      PrefixDB.Has d { pdb2 with db := pdb1'.db } b = PrefixDB.Has d pdb2 b := by
  have hne : ∀ a b : Bytes,
      pdb2.pfx.getD [] ++ b.getD [] ≠ pdb1.pfx.getD [] ++ a.getD [] :=
    fun a b => append_ne_of_not_prefix _ _ _ _ h21 h12
  constructor
  · intro a b h
    rw [prefixed_eq, prefixed_eq] at h
    exact hne a b (Option.some.inj h).symm
  · intro pdb1' a v b hw
    have hne' : (some (pdb2.pfx.getD [] ++ b.getD []) : Bytes).getD [] ≠
        (some (pdb1.pfx.getD [] ++ a.getD []) : Bytes).getD [] := hne a b
    have hget : d.Get pdb1'.db (some (pdb2.pfx.getD [] ++ b.getD [])) =
          d.Get pdb1.db (some (pdb2.pfx.getD [] ++ b.getD [])) ∧
        d.Has pdb1'.db (some (pdb2.pfx.getD [] ++ b.getD [])) =
          d.Has pdb1.db (some (pdb2.pfx.getD [] ++ b.getD [])) := by
      rcases prefixdb_write_cases d pdb1 pdb1' a v hw with h | h | h | h
      · exact ⟨hd.get_set_other _ _ _ _ _ h hne', hd.has_set_other _ _ _ _ _ h hne'⟩
      · exact ⟨hd.get_setSync_other _ _ _ _ _ h hne', hd.has_setSync_other _ _ _ _ _ h hne'⟩
      · exact ⟨hd.get_delete_other _ _ _ _ h hne', hd.has_delete_other _ _ _ _ h hne'⟩
      · exact ⟨hd.get_deleteSync_other _ _ _ _ h hne', hd.has_deleteSync_other _ _ _ _ h hne'⟩
    unfold PrefixDB.Get PrefixDB.Has
    simp only [prefixed_eq, hsame, hget.1, hget.2, and_self]

/-- C26, witness: the prefixes `"a:"` and `"b:"` over a map store that holds
`"b:k" = "2"`; after `Set("k", "1")` through the first, `Get("k")` through the
second still returns `"2"` and `Has("k")` still returns `true`. -/
theorem prefixdb_namespaces_independent_witness :
    PrefixDB.Get mapDB
      ⟨some [0x62, 0x3A], (PrefixDB.Set mapDB
        ⟨some [0x61, 0x3A], fun k => if k = [0x62, 0x3A, 0x6B] then some [0x32] else none⟩
        (some [0x6B]) (some [0x31])).1.db⟩ (some [0x6B]) = (some [0x32], none) ∧
    PrefixDB.Has mapDB
      ⟨some [0x62, 0x3A], (PrefixDB.Set mapDB
        ⟨some [0x61, 0x3A], fun k => if k = [0x62, 0x3A, 0x6B] then some [0x32] else none⟩
        (some [0x6B]) (some [0x31])).1.db⟩ (some [0x6B]) = (true, none) :=
  ⟨((prefixdb_namespaces_independent mapDB mapDB_mapFrame
      ⟨some [0x61, 0x3A], fun k => if k = [0x62, 0x3A, 0x6B] then some [0x32] else none⟩
      ⟨some [0x62, 0x3A], fun k => if k = [0x62, 0x3A, 0x6B] then some [0x32] else none⟩
      rfl (by decide) (by decide)).2 _ (some [0x6B]) (some [0x31]) (some [0x6B])
      (Or.inl rfl)).1.trans (by decide),
    ((prefixdb_namespaces_independent mapDB mapDB_mapFrame
      ⟨some [0x61, 0x3A], fun k => if k = [0x62, 0x3A, 0x6B] then some [0x32] else none⟩
      ⟨some [0x62, 0x3A], fun k => if k = [0x62, 0x3A, 0x6B] then some [0x32] else none⟩
      rfl (by decide) (by decide)).2 _ (some [0x6B]) (some [0x31]) (some [0x6B])
      (Or.inl rfl)).2.trans (by decide)⟩

/-! ### Histories of a `badgerdb` batch -/

theorem snoc_eq_append_cons {α : Type} (l l1 l2 : List α) (x y : α)
    (h : l ++ [x] = l1 ++ y :: l2) :
    (l2 = [] ∧ l = l1 ∧ x = y) ∨ ∃ l2' : List α, l2 = l2' ++ [x] ∧ l = l1 ++ y :: l2' := by
  rcases List.eq_nil_or_concat l2 with h2 | ⟨l2', z, h2⟩
  · subst h2
    left
    have h3 := List.append_inj_left' h rfl
    have h4 := List.append_inj_right' h rfl
    exact ⟨rfl, h3, by simpa using h4⟩
  · rw [List.concat_eq_append] at h2
    subst h2
    right
    have h5 : l ++ [x] = (l1 ++ y :: l2') ++ [z] := by simpa using h
    have h3 := List.append_inj_left' h5 rfl
    have h4 := List.append_inj_right' h5 rfl
    have h6 : x = z := by simpa using h4
    subst h6
    exact ⟨l2', rfl, h3⟩

/-- A call other than a flush, added to the calls of a write batch, keeps the
flush count and the calls before each flush. -/
theorem flushSafe_snoc (calls : List WbCall) (x : WbCall) (hx : x ≠ WbCall.flush)
    (h2 : calls.count WbCall.flush ≤ 1)
    (h3 : ∀ l1 l2 : List WbCall, calls = l1 ++ WbCall.flush :: l2 →
      WbCall.flush ∉ l1 ∧ WbCall.cancel ∉ l1) :
    (calls ++ [x]).count WbCall.flush ≤ 1 ∧
    ∀ l1 l2 : List WbCall, calls ++ [x] = l1 ++ WbCall.flush :: l2 →
      WbCall.flush ∉ l1 ∧ WbCall.cancel ∉ l1 := by
  constructor
  · rw [List.count_append, List.count_singleton]
    have : (x == WbCall.flush) = false := by simpa using hx
    simp [this, h2]
  · intro l1 l2 h
    rcases snoc_eq_append_cons _ _ _ _ _ h with ⟨_, _, h6⟩ | ⟨l2', _, h5⟩
    · exact absurd h6 hx
    · exact h3 l1 l2' h5

/-- The first flush of a write batch that has seen neither a flush nor a
cancel. -/
theorem flushSafe_flush (calls : List WbCall)
    (h1 : ∀ c ∈ calls, c ≠ WbCall.flush ∧ c ≠ WbCall.cancel) :
    (calls ++ [WbCall.flush]).count WbCall.flush ≤ 1 ∧
    ∀ l1 l2 : List WbCall, calls ++ [WbCall.flush] = l1 ++ WbCall.flush :: l2 →
      WbCall.flush ∉ l1 ∧ WbCall.cancel ∉ l1 := by
  constructor
  · rw [List.count_append, List.count_singleton]
    have h0 : calls.count WbCall.flush = 0 :=
      List.count_eq_zero.mpr (fun hm => (h1 _ hm).1 rfl)
    simp [h0]
  · intro l1 l2 h
    rcases snoc_eq_append_cons _ _ _ _ _ h with ⟨_, h5, _⟩ | ⟨l2', _, h5⟩
    · subst h5
      exact ⟨fun hm => (h1 _ hm).1 rfl, fun hm => (h1 _ hm).2 rfl⟩
    · exact absurd rfl (h1 WbCall.flush (by rw [h5]; simp)).1

theorem WriteBatch_finished_false_iff (wb : WriteBatch) :
    wb.finished = false ↔ ∀ c ∈ wb.calls, c ≠ WbCall.flush ∧ c ≠ WbCall.cancel := by
  unfold WriteBatch.finished
  rw [Bool.eq_false_iff, Ne, List.any_eq_true]
  constructor
  · intro h c hc
    constructor
    · intro hf; exact h ⟨c, hc, by simp [hf]⟩
    · intro hf; exact h ⟨c, hc, by simp [hf]⟩
  · rintro h ⟨c, hc, hd⟩
    have := of_decide_eq_true hd
    rcases this with h1 | h1
    · exact (h c hc).1 h1
    · exact (h c hc).2 h1

/-- A `Write()` on a batch that holds the token of `firstFlush` and whose write
batch is not finished: the engine flushes, without panic. -/
theorem badger_Write_first (b : badgerdb.badgerDBBatch) (db : badgerdb.badgerDB)
    (hf : b.firstFlush = true)
    (h1 : ∀ c ∈ b.wb.calls, c ≠ WbCall.flush ∧ c ≠ WbCall.cancel) :
    b.Write db = .ok (⟨⟨b.wb.calls ++ [WbCall.flush]⟩, false⟩,
      ⟨(db.db.Write (WriteBatch.buffered b.wb.calls)).1⟩,
      (db.db.Write (WriteBatch.buffered b.wb.calls)).2) := by
  have hfin := (WriteBatch_finished_false_iff b.wb).mpr h1
  unfold badgerdb.badgerDBBatch.Write WriteBatch.Flush
  simp [hf, hfin]

/-- A `Write()` or `WriteSync()` on a batch without the token of `firstFlush`
returns "batch already flushed" and touches neither the batch nor the store. -/
theorem badger_Write_later (b : badgerdb.badgerDBBatch) (db : badgerdb.badgerDB)
    (hf : b.firstFlush = false) :
    b.Write db = .ok (b, db, some Error.batchAlreadyFlushed) ∧
    b.WriteSync db = .ok (b, db, some Error.batchAlreadyFlushed) := by
  have h1 : b.Write db = .ok (b, db, some Error.batchAlreadyFlushed) := by
    unfold badgerdb.badgerDBBatch.Write
    simp [hf]
  refine ⟨h1, ?_⟩
  unfold badgerdb.badgerDBBatch.WriteSync
  rw [h1]
  rfl

/-- One call on a batch that is flush-safe does not panic, leaves it
flush-safe, and leaves the token of `firstFlush` in place exactly when it was
there and the call is a `Set` or a `Delete`. -/
theorem badger_call_flushSafe (b : badgerdb.badgerDBBatch) (db : badgerdb.badgerDB)
    (c : badgerdb.BatchCall) (hb : b.flushSafe) :
    ∃ (b1 : badgerdb.badgerDBBatch) (db1 : badgerdb.badgerDB) (err : Option Error),
      b.call db c = .ok (b1, db1, err) ∧ b1.flushSafe ∧
      (b1.firstFlush = true ↔ b.firstFlush = true ∧ c ≠ badgerdb.BatchCall.write ∧
        c ≠ badgerdb.BatchCall.writeSync ∧ c ≠ badgerdb.BatchCall.close) := by
  obtain ⟨h1, h2, h3⟩ := hb
  cases c with
  | set key value =>
    refine ⟨_, _, _, rfl, ?_, ?_⟩
    · unfold badgerdb.badgerDBBatch.Set
      split
      · exact ⟨h1, h2, h3⟩
      · split
        · exact ⟨h1, h2, h3⟩
        · have hs := flushSafe_snoc b.wb.calls (WbCall.set key value) (by simp) h2 h3
          refine ⟨?_, hs.1, hs.2⟩
          intro hf c hc
          simp only [WriteBatch.Set, List.mem_append, List.mem_singleton] at hc
          rcases hc with hc | hc
          · exact h1 hf c hc
          · subst hc; simp
    · unfold badgerdb.badgerDBBatch.Set
      split
      · simp
      · split <;> simp
  | delete key =>
    refine ⟨_, _, _, rfl, ?_, ?_⟩
    · unfold badgerdb.badgerDBBatch.Delete
      split
      · exact ⟨h1, h2, h3⟩
      · have hs := flushSafe_snoc b.wb.calls (WbCall.delete key) (by simp) h2 h3
        refine ⟨?_, hs.1, hs.2⟩
        intro hf c hc
        simp only [WriteBatch.Delete, List.mem_append, List.mem_singleton] at hc
        rcases hc with hc | hc
        · exact h1 hf c hc
        · subst hc; simp
    · unfold badgerdb.badgerDBBatch.Delete
      split <;> simp
  | write =>
    by_cases hf : b.firstFlush = true
    · have hs := flushSafe_flush b.wb.calls (h1 hf)
      refine ⟨_, _, _, badger_Write_first b db hf (h1 hf), ⟨?_, hs.1, hs.2⟩, ?_⟩
      · intro h; cases h
      · simp
    · have hf' : b.firstFlush = false := by simpa using hf
      refine ⟨_, _, _, (badger_Write_later b db hf').1, ⟨h1, h2, h3⟩, ?_⟩
      simp [hf']
  | writeSync =>
    by_cases hf : b.firstFlush = true
    · have hs := flushSafe_flush b.wb.calls (h1 hf)
      have hw : b.WriteSync db = .ok (⟨⟨b.wb.calls ++ [WbCall.flush]⟩, false⟩,
          ⟨(db.db.Write (WriteBatch.buffered b.wb.calls)).1⟩,
          badgerdb.withSync (db.db.Write (WriteBatch.buffered b.wb.calls)).1
            (db.db.Write (WriteBatch.buffered b.wb.calls)).2) := by
        unfold badgerdb.badgerDBBatch.WriteSync
        rw [badger_Write_first b db hf (h1 hf)]
      refine ⟨_, _, _, hw, ⟨?_, hs.1, hs.2⟩, ?_⟩
      · intro h; cases h
      · simp
    · have hf' : b.firstFlush = false := by simpa using hf
      refine ⟨_, _, _, (badger_Write_later b db hf').2, ⟨h1, h2, h3⟩, ?_⟩
      simp [hf']
  | close =>
    have hs := flushSafe_snoc b.wb.calls WbCall.cancel (by simp) h2 h3
    refine ⟨_, _, _, rfl, ⟨?_, hs.1, hs.2⟩, ?_⟩
    · intro h; cases h
    · simp [badgerdb.badgerDBBatch.Close]

/-- A sequence of calls on a flush-safe batch does not panic and leaves it
flush-safe; the token of `firstFlush` is still there exactly when it was and
the sequence has no `Write`, `WriteSync` or `Close`. -/
theorem badger_run_flushSafe (cs : List badgerdb.BatchCall) :
    ∀ (b : badgerdb.badgerDBBatch) (db : badgerdb.badgerDB), b.flushSafe →
    ∃ (b2 : badgerdb.badgerDBBatch) (db2 : badgerdb.badgerDB) (errs : List (Option Error)),
      b.run db cs = .ok (b2, db2, errs) ∧ errs.length = cs.length ∧ b2.flushSafe ∧
      (b2.firstFlush = true ↔ b.firstFlush = true ∧ ∀ c ∈ cs,
        c ≠ badgerdb.BatchCall.write ∧ c ≠ badgerdb.BatchCall.writeSync ∧
        c ≠ badgerdb.BatchCall.close) := by
  induction cs with
  | nil =>
    intro b db hb
    exact ⟨b, db, [], rfl, rfl, hb, by simp⟩
  | cons c cs ih =>
    intro b db hb
    obtain ⟨b1, db1, err, hc, hb1, hf1⟩ := badger_call_flushSafe b db c hb
    obtain ⟨b2, db2, errs, hr, hl, hb2, hf2⟩ := ih b1 db1 hb1
    refine ⟨b2, db2, err :: errs, ?_, by simp [hl], hb2, ?_⟩
    · unfold badgerdb.badgerDBBatch.run
      rw [hc]
      simp only [hr]
    · rw [hf2, hf1]
      simp only [List.mem_cons, forall_eq_or_imp]
      tauto

/-- C24: for the `badgerdb` batch made by `NewBatch`, every sequence of `Set`,
`Delete`, `Write()`, `WriteSync()` and `Close()` calls runs without panic of
the engine; the write batch of the engine is flushed at most once, and no flush
and no cancel precede that flush. While the sequence has no `Write`,
`WriteSync` or `Close`, the next `Write()` flushes; after one of them, every
`Write()` and `WriteSync()` returns the error "batch already flushed" and
touches neither the batch nor the store. -/
theorem badger_flush_at_most_once (db : badgerdb.badgerDB) (cs : List badgerdb.BatchCall) :
    ∃ (b2 : badgerdb.badgerDBBatch) (db2 : badgerdb.badgerDB) (errs : List (Option Error)),
      (db.NewBatch).run db cs = .ok (b2, db2, errs) ∧ errs.length = cs.length ∧
      b2.wb.calls.count WbCall.flush ≤ 1 ∧
      (∀ l1 l2 : List WbCall, b2.wb.calls = l1 ++ WbCall.flush :: l2 →
        WbCall.flush ∉ l1 ∧ WbCall.cancel ∉ l1) ∧
      ((∀ c ∈ cs, c ≠ badgerdb.BatchCall.write ∧ c ≠ badgerdb.BatchCall.writeSync ∧
          c ≠ badgerdb.BatchCall.close) →
        b2.Write db2 = .ok (⟨⟨b2.wb.calls ++ [WbCall.flush]⟩, false⟩,
          ⟨(db2.db.Write (WriteBatch.buffered b2.wb.calls)).1⟩,
          (db2.db.Write (WriteBatch.buffered b2.wb.calls)).2)) ∧
      ((∃ c ∈ cs, c = badgerdb.BatchCall.write ∨ c = badgerdb.BatchCall.writeSync ∨
          c = badgerdb.BatchCall.close) →
        b2.Write db2 = .ok (b2, db2, some Error.batchAlreadyFlushed) ∧
        b2.WriteSync db2 = .ok (b2, db2, some Error.batchAlreadyFlushed)) := by
  have h0 : (db.NewBatch).flushSafe := by
    refine ⟨?_, ?_, ?_⟩
    · intro _ c hc
      simp [badgerdb.badgerDB.NewBatch] at hc
    · simp [badgerdb.badgerDB.NewBatch]
    · intro l1 l2 h
      simp [badgerdb.badgerDB.NewBatch] at h
  obtain ⟨b2, db2, errs, hr, hl, ⟨h1, h2, h3⟩, hf⟩ := badger_run_flushSafe cs _ db h0
  refine ⟨b2, db2, errs, hr, hl, h2, h3, ?_, ?_⟩
  · intro hcs
    have hff : b2.firstFlush = true := hf.mpr ⟨rfl, hcs⟩
    exact badger_Write_first b2 db2 hff (h1 hff)
  · rintro ⟨c, hc, hcc⟩
    have hff : b2.firstFlush = false := by
      cases hb : b2.firstFlush with
      | false => rfl
      | true =>
        have := (hf.mp hb).2 c hc
        rcases hcc with h | h | h
        · exact absurd h this.1
        · exact absurd h this.2.1
        · exact absurd h this.2.2
    exact badger_Write_later b2 db2 hff

/-- C24, witness: on an empty store, the calls `Set("a", "1")`, `Write()`,
`Write()`, `Close()`, `WriteSync()`: the engine sees the set, one flush and the
cancel; the first `Write()` returns `nil`, the later ones "batch already
flushed", and a further `Write()` does the same. -/
theorem badger_flush_at_most_once_witness :
    (badgerdb.badgerDB.NewBatch ⟨⟨[], none⟩⟩).run ⟨⟨[], none⟩⟩
      [badgerdb.BatchCall.set (some [0x61]) (some [0x31]), badgerdb.BatchCall.write,
        badgerdb.BatchCall.write, badgerdb.BatchCall.close, badgerdb.BatchCall.writeSync] =
      .ok (⟨⟨[WbCall.set (some [0x61]) (some [0x31]), WbCall.flush, WbCall.cancel]⟩, false⟩,
        ⟨⟨[([0x61], [0x31])], none⟩⟩,
        [none, none, some Error.batchAlreadyFlushed, none, some Error.batchAlreadyFlushed]) ∧
    badgerdb.badgerDBBatch.Write
      ⟨⟨[WbCall.set (some [0x61]) (some [0x31]), WbCall.flush, WbCall.cancel]⟩, false⟩
      ⟨⟨[([0x61], [0x31])], none⟩⟩ =
      .ok (⟨⟨[WbCall.set (some [0x61]) (some [0x31]), WbCall.flush, WbCall.cancel]⟩, false⟩,
        ⟨⟨[([0x61], [0x31])], none⟩⟩, some Error.batchAlreadyFlushed) := by
  have hrun : (badgerdb.badgerDB.NewBatch ⟨⟨[], none⟩⟩).run ⟨⟨[], none⟩⟩
      [badgerdb.BatchCall.set (some [0x61]) (some [0x31]), badgerdb.BatchCall.write,
        badgerdb.BatchCall.write, badgerdb.BatchCall.close, badgerdb.BatchCall.writeSync] =
      .ok (⟨⟨[WbCall.set (some [0x61]) (some [0x31]), WbCall.flush, WbCall.cancel]⟩, false⟩,
        ⟨⟨[([0x61], [0x31])], none⟩⟩,
        [none, none, some Error.batchAlreadyFlushed, none, some Error.batchAlreadyFlushed]) := by
    rfl
  obtain ⟨b2, db2, errs, hr, _, _, _, _, hlater⟩ := badger_flush_at_most_once ⟨⟨[], none⟩⟩
    [badgerdb.BatchCall.set (some [0x61]) (some [0x31]), badgerdb.BatchCall.write,
      badgerdb.BatchCall.write, badgerdb.BatchCall.close, badgerdb.BatchCall.writeSync]
  rw [hrun] at hr
  simp only [Except.ok.injEq, Prod.mk.injEq] at hr
  obtain ⟨hb, hdb, _⟩ := hr
  subst hb
  subst hdb
  exact ⟨hrun, (hlater ⟨badgerdb.BatchCall.write, by simp, Or.inl rfl⟩).1⟩

/-- C22, witness: with a `nil` start and the end `C`, the key `B` is in the
domain, since `B < C`. -/
theorem IsKeyInDomain_half_open_witness :
    IsKeyInDomain (some [0x42]) none (some [0x43]) = true :=
  ((IsKeyInDomain_half_open (some [0x42]) none (some [0x43])).2.1 rfl).mpr
    (Or.inr (by
      show ([0x42] : List Byte) < [0x43]
      rw [← compareList_lt_iff]; decide))

end locketdb
